import Mathlib

/-! ## swarm/storage/netstore.go: NetStore and Fetcher

A shallow embedding of `NetStore` (Put, get, getOrCreateFetcher, Get) and of
`Fetcher` (NewFetcher, deliver, fetch, start) together with the parts of the Go
runtime and of `hashicorp/golang-lru` that their behaviour depends on.

Goroutines are embedded as an interleaving semantics: the whole program state is
one value and every atomic action of the source (a call made under `n.mu`, one
atomic counter operation, one `select`, one channel close, one cache operation)
is one step of `NetStore.step`.
-/

set_option linter.dupNamespace false

namespace Storage

/-! ## Values -/

/-- The type `Address` is a byte slice: it is passed to `hex.EncodeToString` and
compared with `bytes.Equal`. -/
abbrev Address := List UInt8

/-- A chunk, the concrete value behind the `Chunk` interface: address and payload. -/
structure Chunk where
  addr : Address
  sdata : List UInt8
  deriving DecidableEq, Repr

/-- Method `Address()` of a chunk. -/
def Chunk.Address (ch : Chunk) : Address := ch.addr

/-- Method `Data()` of a chunk. -/
def Chunk.Data (ch : Chunk) : List UInt8 := ch.sdata

/-- Method `Chunk()` of a chunk: the underlying concrete chunk. -/
def Chunk.Chunk (ch : Chunk) : Chunk := ch

/-- Values of the Go interface `error`. `errStatus` is the struct of the same name:
an embedded `error` and a `status`. -/
inductive Error where
  | nil
  | New (text : String)
  | errStatus (error : Error) (status : Error)
  deriving DecidableEq, Repr

/-- Method `Status()` of `*errStatus`. -/
def Error.Status : Error → Error
  | .errStatus _ status => status
  | _ => .nil

/-- A `Request`: a `context.Context` (identified by `ctx`) with an `Address()`. -/
structure Request where
  ctx : Nat
  addr : Address
  deriving DecidableEq, Repr

/-- The wait function a chunk store hands out on `Put`; only its identity matters. -/
structure WaitFn where
  id : Nat
  deriving DecidableEq, Repr

/-- How an action can fail to produce a next state: it is not enabled in the state
(a `select` with no ready case, a call that is not at that program point), or the Go
runtime panics. -/
inductive Fault where
  | disabled
  | panic (msg : String)
  deriving DecidableEq, Repr

/-! ## encoding/hex -/

/-- The table `hextable = "0123456789abcdef"` of `encoding/hex`, by index. -/
def hexDigit (n : Nat) : Char :=
  match n with
  | 0 => '0' | 1 => '1' | 2 => '2' | 3 => '3' | 4 => '4' | 5 => '5' | 6 => '6' | 7 => '7'
  | 8 => '8' | 9 => '9' | 10 => 'a' | 11 => 'b' | 12 => 'c' | 13 => 'd' | 14 => 'e'
  | _ => 'f'

/-- Characters of `hex.EncodeToString(src)`: `hextable[v>>4]`, `hextable[v&0x0f]` per byte. -/
def hexChars : List UInt8 → List Char
  | [] => []
  | v :: rest => hexDigit (v.toNat / 16) :: hexDigit (v.toNat % 16) :: hexChars rest

/-- The function `hex.EncodeToString`. -/
def hexEncodeToString (src : List UInt8) : String := String.mk (hexChars src)

/-! ## hashicorp/golang-lru -/

/-- A cache key is an `interface{}`; the source uses two dynamic types for it: the
string returned by `hex.EncodeToString` and the byte slice `Address`. -/
inductive Key where
  | str (s : String)
  | addr (a : Address)
  deriving DecidableEq, Repr

/-- Go can hash a string but not a slice. -/
def Key.hashable : Key → Bool
  | .str _ => true
  | .addr _ => false

/-- The panic of the Go runtime when a map with interface keys is indexed with a
slice. -/
def unhashable : Fault := .panic "runtime error: hash of unhashable type storage.Address"

/-- The `lru.Cache`: its size and the eviction list, most recently used first. The
values are pointers to Fetchers, that is indexes into the heap of the NetStore. -/
structure Cache where
  size : Nat
  items : List (Key × Nat)
  deriving DecidableEq, Repr

namespace Cache

/-- Value stored under `key`. -/
def find (items : List (Key × Nat)) (key : Key) : Option Nat :=
  match items with
  | [] => none
  | (k, v) :: rest => if k = key then some v else find rest key

/-- The list without the entry of `key`. -/
def del (items : List (Key × Nat)) (key : Key) : List (Key × Nat) :=
  items.filter (fun e => decide (e.1 ≠ key))

/-- `lru.New(size)`: fails unless the size is positive. -/
def New (size : Nat) : Except Error Cache :=
  if size = 0 then .error (.New "Must provide a positive size")
  else .ok { size := size, items := [] }

/-- `Cache.Len()`. -/
def Len (c : Cache) : Nat := c.items.length

/-- The entry of `key`, now with `value`, moved to the front of the list. -/
def toFront (c : Cache) (key : Key) (value : Nat) : Cache :=
  { c with items := (key, value) :: del c.items key }

/-- A new entry pushed to the front; when the list is then longer than `size`, the
oldest entry, the last of the list, is removed. -/
def push (c : Cache) (key : Key) (value : Nat) : Cache :=
  if ((key, value) :: c.items).length > c.size then
    { c with items := ((key, value) :: c.items).dropLast }
  else { c with items := (key, value) :: c.items }

/-- `Cache.Get(key)`: looks the key up and, when found, moves the entry to the front. -/
def Get (c : Cache) (key : Key) : Except Fault (Cache × Option Nat) :=
  if key.hashable then
    match find c.items key with
    | some v => .ok (c.toFront key v, some v)
    | none => .ok (c, none)
  else .error unhashable

/-- `Cache.Add(key, value)`: an existing entry is updated and moved to the front; a
new entry is pushed, which evicts the oldest entry of a full cache. Returns whether an
eviction occurred. -/
def Add (c : Cache) (key : Key) (value : Nat) : Except Fault (Cache × Bool) :=
  if key.hashable then
    match find c.items key with
    | some _ => .ok (c.toFront key value, false)
    | none => .ok (c.push key value, decide (((key, value) :: c.items).length > c.size))
  else .error unhashable

/-- `Cache.Remove(key)`. -/
def Remove (c : Cache) (key : Key) : Except Fault Cache :=
  if key.hashable then .ok { c with items := del c.items key }
  else .error unhashable

end Cache

/-! ## Fetcher -/

/-- The struct `Fetcher`. The channels `deliveredC` and `stoppedC` are only ever
closed, so each is a flag; `remove` is the closure built by getOrCreateFetcher, given
by the key it removes from the cache. `requestCnt` is an int32 that counts the fetch
calls in progress, each of them a goroutine, so it stays far from its bounds and is an
integer here. The last four fields are the state of the goroutine `f.start()`: whether
it is still in its loop, its locals `doRetrieve` and `rctx`, and how many times it has
started a goroutine that calls `f.retrieve`. The channel `requestC` is unbuffered: a
send on it is one step with the receive of the loop (see `NetStore.submit`). -/
structure Fetcher where
  chunk : Option Chunk
  remove : Key
  addr : Address
  requestCnt : Int
  delivered : Bool
  stopped : Bool
  status : Error
  running : Bool
  doRetrieve : Bool
  rctx : Option Request
  retrieved : Nat
  deriving DecidableEq, Repr

/-- `NewFetcher(addr, retrieve, remove)`; `go f.start()` has entered its loop. -/
def NewFetcher (addr : Address) (remove : Key) : Fetcher :=
  { chunk := none, remove := remove, addr := addr, requestCnt := 0, delivered := false,
    stopped := false, status := .nil, running := true, doRetrieve := false, rctx := none,
    retrieved := 0 }

namespace Fetcher

/-- `f.deliver(ch)`: sets the chunk, then closes `deliveredC`; closing a closed
channel panics. -/
def deliver (f : Fetcher) (ch : Chunk) : Except Fault Fetcher :=
  if f.delivered then .error (.panic "close of closed channel")
  else .ok { f with chunk := some ch.Chunk, delivered := true }

/-- What the loop of `start` can receive in its select. -/
inductive Event where
  | request (rctx : Request)
  | forward (err : Error)
  | stopped
  deriving DecidableEq, Repr

/-- Head of the loop body of `start`: `if doRetrieve { go func() { f.retrieve(rctx, f)
... }(); doRetrieve = false }`. -/
def retrieveIfWanted (f : Fetcher) : Fetcher :=
  if f.doRetrieve then { f with retrieved := f.retrieved + 1, doRetrieve := false } else f

/-- The select of the loop of `start` taking the case of `ev`, followed, unless the
case was the break, by the head of the next iteration; the result is the Fetcher with
the loop back at its select. A loop that has left does nothing. -/
def iterate (f : Fetcher) (ev : Event) : Fetcher :=
  if f.running then
    match ev with
    | .request rctx => retrieveIfWanted { f with rctx := some rctx, doRetrieve := true }
    | .forward err => retrieveIfWanted { f with status := err, doRetrieve := decide (err ≠ .nil) }
    | .stopped => { f with running := false }
  else f

/-- `f.start()` run on the sequence of cases its select takes. -/
def start (f : Fetcher) (events : List Event) : Fetcher :=
  events.foldl iterate (retrieveIfWanted { f with running := true, doRetrieve := false, rctx := none })

end Fetcher

/-- Program points of one invocation of `f.fetch(rctx)`, each before the statement
named: the first select, the second select, the deferred decrement, `f.remove()`,
`close(f.stoppedC)`, and after the return. -/
inductive PC where
  | submit
  | wait
  | exit
  | remove
  | close
  | returned
  deriving DecidableEq, Repr

/-- One invocation of `f.fetch(rctx)`: the Fetcher, the request, the program point
and the return values once the second select has set them. -/
structure Call where
  f : Nat
  rctx : Request
  pc : PC
  chunk : Option Chunk
  err : Error
  deriving DecidableEq, Repr

/-! ## NetStore -/

/-- The interface `ChunkStore` as NetStore uses it, over the state `S` of the store.
`Put` returns the wait function and the error, `Get` the chunk and the error. -/
structure ChunkStore (S : Type) where
  Put : S → Chunk → S × Option WaitFn × Error
  Get : S → Address → S × Option Chunk × Error

/-- The struct `NetStore` with the memory it points into: `heap` holds every Fetcher
allocated so far (a pointer is an index), `calls` every invocation of `fetch` started
so far, `done` the contexts that are done with their `Err()`. -/
structure NetStore (S : Type) where
  store : S
  fetchers : Cache
  heap : List Fetcher
  calls : List Call
  done : List (Nat × Error)
  deriving DecidableEq, Repr

/-- The capacity `defaultChunkRequestsCacheCapacity` is declared outside this file and
is a parameter here. `NewNetStore(store, retrieve)` fails when `lru.New` does. -/
def NewNetStore {S : Type} (defaultChunkRequestsCacheCapacity : Nat) (store : S) :
    Except Error (NetStore S) :=
  match Cache.New defaultChunkRequestsCacheCapacity with
  | .error err => .error err
  | .ok fetchers => .ok { store := store, fetchers := fetchers, heap := [], calls := [], done := [] }

namespace NetStore

variable {S : Type}

/-- `n.Put(ch)`, run under `n.mu`. Returns the wait function and the error. -/
def Put (cs : ChunkStore S) (n : NetStore S) (ch : Chunk) :
    Except Fault (NetStore S × Option WaitFn × Error) :=
  let r := cs.Put n.store ch
  let n1 : NetStore S := { n with store := r.1 }
  if r.2.2 ≠ .nil then .ok (n1, none, r.2.2)
  else if r.2.1 = none then .ok (n1, none, .nil)
  else
    match n1.fetchers.Get (.addr ch.Address) with
    | .error e => .error e
    | .ok (fetchers, none) => .ok ({ n1 with fetchers := fetchers }, r.2.1, .nil)
    | .ok (fetchers, some p) =>
      match n1.heap[p]? with
      | none => .error (.panic "invalid memory address or nil pointer dereference")
      | some f =>
        match f.deliver ch with
        | .error e => .error e
        | .ok f1 => .ok ({ n1 with fetchers := fetchers, heap := n1.heap.set p f1 }, r.2.1, .nil)

/-- `n.getOrCreateFetcher(ref)`: returns the pointer to the Fetcher and the error,
which is always nil. -/
def getOrCreateFetcher (n : NetStore S) (ref : Address) : Except Fault (NetStore S × Nat × Error) :=
  let key := Key.str (hexEncodeToString ref)
  match n.fetchers.Get key with
  | .error e => .error e
  | .ok (fetchers, some p) => .ok ({ n with fetchers := fetchers }, p, .nil)
  | .ok (fetchers, none) =>
    match fetchers.Add key n.heap.length with
    | .error e => .error e
    | .ok (added, _) =>
      .ok ({ n with fetchers := added, heap := n.heap ++ [NewFetcher ref key] }, n.heap.length, .nil)

/-- `n.get(ref)`, run under `n.mu`. Returns the chunk, the fetch function (given by
the Fetcher it is the method value of) and the error. -/
def get (cs : ChunkStore S) (n : NetStore S) (ref : Address) :
    Except Fault (NetStore S × Option Chunk × Option Nat × Error) :=
  let r := cs.Get n.store ref
  let n1 : NetStore S := { n with store := r.1 }
  if r.2.2 = .nil then .ok (n1, r.2.1, none, .nil)
  else
    match n1.getOrCreateFetcher ref with
    | .error e => .error e
    | .ok (n2, f, err) => if err ≠ .nil then .ok (n2, none, none, err) else .ok (n2, none, some f, .nil)

end NetStore

/-- How `n.Get(rctx, ref)` goes on after `n.get`: it returns a chunk and an error, or
it goes on as the call `fetch(rctx)` on a Fetcher. -/
inductive GetResult where
  | ret (chunk : Option Chunk) (err : Error)
  | fetch (f : Nat) (rctx : Request)
  deriving DecidableEq, Repr

namespace NetStore

variable {S : Type}

/-- `n.Get(rctx, ref)` up to its last statement `return fetch(rctx)`. -/
def Get (cs : ChunkStore S) (n : NetStore S) (rctx : Request) (ref : Address) :
    Except Fault (NetStore S × GetResult) :=
  match n.get cs ref with
  | .error e => .error e
  | .ok (n1, chunk, fetch, err) =>
    if err ≠ .nil then .ok (n1, .ret none err)
    else if chunk ≠ none then .ok (n1, .ret chunk .nil)
    else
      match fetch with
      | none => .error (.panic "invalid memory address or nil pointer dereference")
      | some f => .ok (n1, .fetch f rctx)

/-! ### The statements of `fetch`, one step each -/

/-- Replaces the Fetcher at `p` and the call at `c`. -/
def update (n : NetStore S) (p : Nat) (f : Fetcher) (c : Nat) (call : Call) : NetStore S :=
  { n with heap := n.heap.set p f, calls := n.calls.set c call }

/-- The call `c` when it is at program point `pc`, with its Fetcher. -/
def callAt (n : NetStore S) (c : Nat) (pc : PC) : Option (Call × Fetcher) :=
  match n.calls[c]? with
  | none => none
  | some call =>
    if call.pc = pc then
      match n.heap[call.f]? with
      | none => none
      | some f => some (call, f)
    else none

/-- A caller enters `f.fetch(rctx)` on the Fetcher at `p`:
`atomic.AddInt32(&f.requestCnt, 1)`. -/
def enter (n : NetStore S) (p : Nat) (rctx : Request) : Except Fault (NetStore S) :=
  match n.heap[p]? with
  | none => .error .disabled
  | some f =>
    .ok { n with heap := n.heap.set p { f with requestCnt := f.requestCnt + 1 },
                 calls := n.calls ++ [{ f := p, rctx := rctx, pc := .submit, chunk := none, err := .nil }] }

/-- The first select of `fetch`: `case f.requestC <- rctx` needs the loop of `start`
at its select, which then takes its request case; `case <-f.stoppedC` needs the
channel closed. -/
def submit (n : NetStore S) (c : Nat) (viaStopped : Bool) : Except Fault (NetStore S) :=
  match n.callAt c .submit with
  | none => .error .disabled
  | some (call, f) =>
    if viaStopped then
      if f.stopped then .ok (n.update call.f f c { call with pc := .wait }) else .error .disabled
    else
      if f.running then .ok (n.update call.f (f.iterate (.request call.rctx)) c { call with pc := .wait })
      else .error .disabled

/-- The second select of `fetch`: `case <-rctx.Done()` needs the context done and
returns `nil, &errStatus{rctx.Err(), f.status}`; `case <-f.deliveredC` needs the
channel closed and returns `f.chunk, nil`. -/
def await (n : NetStore S) (c : Nat) (viaDone : Bool) : Except Fault (NetStore S) :=
  match n.callAt c .wait with
  | none => .error .disabled
  | some (call, f) =>
    if viaDone then
      match n.done.find? (fun d => d.1 = call.rctx.ctx) with
      | none => .error .disabled
      | some d => .ok (n.update call.f f c { call with pc := .exit, chunk := none, err := .errStatus d.2 f.status })
    else
      if f.delivered then .ok (n.update call.f f c { call with pc := .exit, chunk := f.chunk, err := .nil })
      else .error .disabled

/-- The deferred function of `fetch`, first part: `atomic.AddInt32(&f.requestCnt, -1)`
and the test of its result against zero. -/
def decrement (n : NetStore S) (c : Nat) : Except Fault (NetStore S) :=
  match n.callAt c .exit with
  | none => .error .disabled
  | some (call, f) =>
    .ok (n.update call.f { f with requestCnt := f.requestCnt - 1 } c
      { call with pc := if f.requestCnt - 1 = 0 then .remove else .returned })

/-- The deferred function of `fetch`, second part: `f.remove()`, which is
`n.fetchers.Remove(key)` with the key of getOrCreateFetcher. -/
def remove (n : NetStore S) (c : Nat) : Except Fault (NetStore S) :=
  match n.callAt c .remove with
  | none => .error .disabled
  | some (call, f) =>
    match n.fetchers.Remove f.remove with
    | .error e => .error e
    | .ok fetchers => .ok { n.update call.f f c { call with pc := .close } with fetchers := fetchers }

/-- The deferred function of `fetch`, last part: `close(f.stoppedC)`; closing a closed
channel panics. -/
def close (n : NetStore S) (c : Nat) : Except Fault (NetStore S) :=
  match n.callAt c .close with
  | none => .error .disabled
  | some (call, f) =>
    if f.stopped then .error (.panic "close of closed channel")
    else .ok (n.update call.f { f with stopped := true } c { call with pc := .returned })

/-! ### The other goroutines -/

/-- The loop of `start` of the Fetcher at `p` receives `err` from `forwardC`. -/
def forward (n : NetStore S) (p : Nat) (err : Error) : Except Fault (NetStore S) :=
  match n.heap[p]? with
  | none => .error .disabled
  | some f =>
    if f.running then .ok { n with heap := n.heap.set p (f.iterate (.forward err)) }
    else .error .disabled

/-- The loop of `start` of the Fetcher at `p` takes `case <-f.stoppedC` and leaves. -/
def quit (n : NetStore S) (p : Nat) : Except Fault (NetStore S) :=
  match n.heap[p]? with
  | none => .error .disabled
  | some f =>
    if f.running && f.stopped then .ok { n with heap := n.heap.set p (f.iterate .stopped) }
    else .error .disabled

/-- The context `ctx` becomes done with `err` as its `Err()` (cancelled or past its
deadline); a context that is done stays as it is. -/
def cancel (n : NetStore S) (ctx : Nat) (err : Error) : Except Fault (NetStore S) :=
  if err = .nil then .error .disabled
  else
    match n.done.find? (fun d => d.1 = ctx) with
    | some _ => .ok n
    | none => .ok { n with done := (ctx, err) :: n.done }

/-- A call `f.deliver(ch)` on the Fetcher at `p` from inside the package. -/
def deliver (n : NetStore S) (p : Nat) (ch : Chunk) : Except Fault (NetStore S) :=
  match n.heap[p]? with
  | none => .error .disabled
  | some f =>
    match f.deliver ch with
    | .error e => .error e
    | .ok f1 => .ok { n with heap := n.heap.set p f1 }

end NetStore

/-- The atomic actions of the program. `get` is `n.get(ref)` as called by Get and by
Has; `fetch` is a caller invoking a fetch function that `get` returned for the Fetcher
(Get does so once, the wait function of Has whenever it is called). -/
inductive Action where
  | get (ref : Address)
  | Put (ch : Chunk)
  | fetch (f : Nat) (rctx : Request)
  | submit (c : Nat) (viaStopped : Bool)
  | await (c : Nat) (viaDone : Bool)
  | decrement (c : Nat)
  | remove (c : Nat)
  | close (c : Nat)
  | forward (f : Nat) (err : Error)
  | quit (f : Nat)
  | cancel (ctx : Nat) (err : Error)
  | deliver (f : Nat) (ch : Chunk)
  deriving DecidableEq, Repr

namespace NetStore

variable {S : Type}

/-- One step of the program. `get` and `Put` hold `n.mu` and are one step each. The
remove callback of `fetch` does not take `n.mu`, only the lock inside the cache; it
can fall between the two cache operations of getOrCreateFetcher only when the first
one missed, where running it before the `get` gives the same result, so `get` as one
step loses no behaviour. -/
def step (cs : ChunkStore S) (n : NetStore S) : Action → Except Fault (NetStore S)
  | .get ref => (n.get cs ref).map (fun r => r.1)
  | .Put ch => (n.Put cs ch).map (fun r => r.1)
  | .fetch f rctx => n.enter f rctx
  | .submit c viaStopped => n.submit c viaStopped
  | .await c viaDone => n.await c viaDone
  | .decrement c => n.decrement c
  | .remove c => n.remove c
  | .close c => n.close c
  | .forward f err => n.forward f err
  | .quit f => n.quit f
  | .cancel ctx err => n.cancel ctx err
  | .deliver f ch => n.deliver f ch

/-- Runs a schedule, a list of actions, from `n`. -/
def run (cs : ChunkStore S) (n : NetStore S) : List Action → Except Fault (NetStore S)
  | [] => .ok n
  | a :: rest =>
    match n.step cs a with
    | .error e => .error e
    | .ok n1 => run cs n1 rest

end NetStore

/-- The states a NetStore made by NewNetStore can get into. -/
inductive Reachable {S : Type} (cs : ChunkStore S) (capacity : Nat) (store : S) :
    NetStore S → Prop where
  | init (n : NetStore S) : NewNetStore capacity store = .ok n → Reachable cs capacity store n
  | step (n n1 : NetStore S) (a : Action) :
      Reachable cs capacity store n → n.step cs a = .ok n1 → Reachable cs capacity store n1

/-! ## Stores used to run the program on concrete inputs -/

/-- The error `ErrChunkNotFound`. -/
def ErrChunkNotFound : Error := .New "chunk not found"

/-- A chunk store in memory: a list of chunks. `Put` of a present address returns a
nil wait function, `Get` of an absent one ErrChunkNotFound. -/
def memStore : ChunkStore (List Chunk) where
  Put := fun s ch =>
    match s.find? (fun c => c.addr = ch.addr) with
    | some _ => (s, none, .nil)
    | none => (ch :: s, some { id := s.length }, .nil)
  Get := fun s ref =>
    match s.find? (fun c => c.addr = ref) with
    | some c => (s, some c, .nil)
    | none => (s, none, ErrChunkNotFound)

/-- A chunk store whose engine fails on every operation. -/
def brokenStore : ChunkStore Unit where
  Put := fun _ _ => ((), none, .New "leveldb: corruption")
  Get := fun _ _ => ((), none, .New "leveldb: corruption")

/-! ## Predicates on states -/

namespace NetStore

variable {S : Type}

/-- Addresses of the Fetchers that are live: created and not yet stopped. -/
def liveAddrs (n : NetStore S) : List Address :=
  (n.heap.filter fun f => !f.stopped).map fun f => f.addr

/-- Number of fetch calls on the Fetcher at `p` that are at program point `pc`. -/
def callsAt (n : NetStore S) (p : Nat) (pc : PC) : Nat :=
  n.calls.countP fun c => decide (c.f = p ∧ c.pc = pc)

/-- Number of fetch calls on the Fetcher at `p` that have incremented its counter and
not yet decremented it. -/
def active (n : NetStore S) (p : Nat) : Nat :=
  n.callsAt p .submit + n.callsAt p .wait + n.callsAt p .exit

end NetStore

/-- What a Fetcher made for the key `key` keeps while fetch calls run on it, wherever
it is in its life: the request counter is the number of fetch calls between their
increment and their decrement and, when that number is zero and some call is past its
decrement, either a call is about to run the remove callback, or the key is out of the
cache and the stop channel is closed or a call is about to close it. -/
def Cleanup {S : Type} (n : NetStore S) (p : Nat) (key : Key) : Prop :=
  ∃ f, n.heap[p]? = some f ∧ f.remove = key ∧ f.requestCnt = (n.active p : Int) ∧
    (n.active p = 0 →
      0 < n.callsAt p .remove + n.callsAt p .close + n.callsAt p .returned →
      0 < n.callsAt p .remove ∨
        (Cache.find n.fetchers.items key = none ∧ (0 < n.callsAt p .close ∨ f.stopped = true)))

/-- What holds in every state a NetStore can get into: the cache has the capacity it
was made with, its keys are pairwise distinct, every entry points to a Fetcher of the
heap made for the address the key encodes, every Fetcher removes the key of its
address, and every fetch call is on a Fetcher of the heap. -/
structure Inv {S : Type} (capacity : Nat) (n : NetStore S) : Prop where
  size : n.fetchers.size = capacity ∧ 0 < capacity
  nodup : (n.fetchers.items.map Prod.fst).Nodup
  cached : ∀ e ∈ n.fetchers.items,
    ∃ f, n.heap[e.2]? = some f ∧ e.1 = Key.str (hexEncodeToString f.addr)
  removeKey : ∀ (p : Nat) (f : Fetcher),
    n.heap[p]? = some f → f.remove = Key.str (hexEncodeToString f.addr)
  calls : ∀ (c : Nat) (call : Call), n.calls[c]? = some call → call.f < n.heap.length

/-! ## Concrete inputs -/

/-- Address `ab01`. -/
def addrA : Address := [0xab, 0x01]

/-- Address `cd`. -/
def addrB : Address := [0xcd]

/-- A chunk with address `ab01`. -/
def chunkA : Chunk := { addr := addrA, sdata := [1, 2, 3] }

/-- Two requests for `ab01`, with contexts 1 and 2. -/
def reqA1 : Request := { ctx := 1, addr := addrA }

/-- The second request for `ab01`. -/
def reqA2 : Request := { ctx := 2, addr := addrA }

/-- A NetStore over the broken store, with a Fetcher for `ab01` in the cache. -/
def brokenFetching : NetStore Unit :=
  { store := (), fetchers := { size := 4, items := [(Key.str "ab01", 0)] },
    heap := [NewFetcher addrA (Key.str "ab01")], calls := [], done := [] }

/-- The state in which a Fetcher for `ab01` that still has a waiting caller has been
evicted from a cache of capacity 1 and a second Fetcher for `ab01` has been created. -/
def afterEviction : NetStore (List Chunk) :=
  { store := [], fetchers := { size := 1, items := [(Key.str "ab01", 2)] },
    heap := [{ NewFetcher addrA (Key.str "ab01") with
                 requestCnt := 1, rctx := some reqA1, retrieved := 1 },
             NewFetcher addrB (Key.str "cd"), NewFetcher addrA (Key.str "ab01")],
    calls := [{ f := 0, rctx := reqA1, pc := .wait, chunk := none, err := .nil }], done := [] }

/-- The state in which the Fetcher of `ab01`, alone in a cache of capacity 1, has a
caller waiting in `fetch`. -/
def waitingA : NetStore (List Chunk) :=
  { store := [], fetchers := { size := 1, items := [(Key.str "ab01", 0)] },
    heap := [{ NewFetcher addrA (Key.str "ab01") with
                 requestCnt := 1, rctx := some reqA1, retrieved := 1 }],
    calls := [{ f := 0, rctx := reqA1, pc := .wait, chunk := none, err := .nil }], done := [] }

/-- The error `context.Canceled`. -/
def Canceled : Error := .New "context canceled"

/-- The address made of `i + 1` zero bytes; different `i` give different addresses. -/
def zeros (i : Nat) : Address := List.replicate (i + 1) 0

/-- The cache key of the address `zeros i`. -/
def zerosKey (i : Nat) : Key := .str (hexEncodeToString (zeros i))

/-- A schedule on the Fetcher made by a missed `get` of `ab01`: two callers enter
`fetch` and are accepted by the loop; the context of the first is cancelled and the
first returns; the chunk is delivered and the second returns with it, runs the remove
callback and closes the stop channel. -/
def twoCallers : List Action :=
  [.fetch 0 reqA1, .submit 0 false, .fetch 0 reqA2, .submit 1 false, .cancel 1 Canceled,
   .await 0 true, .decrement 0, .deliver 0 chunkA, .await 1 false, .decrement 1, .remove 1,
   .close 1]

/-- A schedule after the missed `get` of `ab01` by a first caller of `Get`: the first
caller enters `fetch` on the new Fetcher and is accepted; a second caller of `Get`
runs its `get`, finds the Fetcher in the cache and enters `fetch` on it; the first is
cancelled, the second is delivered to, and the second runs the teardown. -/
def twoGets : List Action :=
  [.fetch 0 reqA1, .submit 0 false, .get addrA, .fetch 0 reqA2, .submit 1 false,
   .cancel 1 Canceled, .await 0 true, .decrement 0, .deliver 0 chunkA, .await 1 false,
   .decrement 1, .remove 1, .close 1]

/-- A NetStore over a memory store that holds the chunk of `ab01`, with an empty
cache. -/
def holdingA : NetStore (List Chunk) :=
  { store := [chunkA], fetchers := { size := 4, items := [] }, heap := [], calls := [], done := [] }

/-- A NetStore over a memory store that holds the chunk of `ab01`, with a Fetcher for
`ab01` in the cache. -/
def holdingAFetching : NetStore (List Chunk) :=
  { store := [chunkA], fetchers := { size := 4, items := [(Key.str "ab01", 0)] },
    heap := [NewFetcher addrA (Key.str "ab01")], calls := [], done := [] }

/-- The error `context.DeadlineExceeded`. -/
def DeadlineExceeded : Error := .New "context deadline exceeded"

/-- A second chunk with address `ab01`. -/
def chunkA2 : Chunk := { addr := addrA, sdata := [4, 5] }

/-- A third request for `ab01`, with context 3. -/
def reqA3 : Request := { ctx := 3, addr := addrA }

/-- A chunk with address `cd`. -/
def chunkB : Chunk := { addr := addrB, sdata := [9] }

/-! ## Has and its wait function -/

/-- The closure `wait` that Has returns, given by what it captures: the function
`fetch` that `n.get` returned (nil when it returned none) and the variable `err` of
Has, which the closure assigns to and returns. Every invocation of the closure uses
the same two variables. -/
structure Wait where
  fetch : Option Nat
  err : Error
  deriving DecidableEq, Repr

namespace Wait

/-- The call `fetch(rctx)` in the closure: the Fetcher it is made on; calling a nil
function panics. -/
def callee (w : Wait) : Except Fault Nat :=
  match w.fetch with
  | none => .error (.panic "invalid memory address or nil pointer dereference")
  | some p => .ok p

/-- The statement `_, err = fetch(rctx)` once the call has returned the error `e`: the
captured variable is assigned. -/
def assign (w : Wait) (e : Error) : Wait := { w with err := e }

/-- The statement `return err`. -/
def result (w : Wait) : Error := w.err

end Wait

/-- `n.Has(ref)`, whose first statement is the locked `n.get(ref)`. Returns the wait
function (nil when the chunk was found) and the error, which is always nil. -/
def NetStore.Has {S : Type} (cs : ChunkStore S) (n : NetStore S) (ref : Address) :
    Except Fault (NetStore S × Option Wait × Error) :=
  match n.get cs ref with
  | .error e => .error e
  | .ok (n1, chunk, fetch, err) =>
    if chunk ≠ none then .ok (n1, none, .nil)
    else .ok (n1, some { fetch := fetch, err := err }, .nil)

/-- Program points of one invocation of a wait function: inside its call of fetch,
after the assignment to `err`, after `return err`. -/
inductive WaitPC where
  | fetching
  | assigned
  | returned
  deriving DecidableEq, Repr

/-- One invocation of a wait function: the closure, its fetch call, the program point
and the error it returned. -/
structure Invocation where
  wait : Nat
  call : Nat
  pc : WaitPC
  result : Error
  deriving DecidableEq, Repr

/-- The program with the callers of Has: the NetStore, the wait functions handed out
and their invocations. -/
structure World (S : Type) where
  n : NetStore S
  waits : List Wait
  invocations : List Invocation
  deriving DecidableEq, Repr

/-- The steps of the callers of Has next to the steps of the program below: a call of
Has, the invocation of a wait function up to the increment in fetch, its assignment to
`err` once its fetch call has returned, and its return. -/
inductive WorldAction where
  | net (a : Action)
  | Has (ref : Address)
  | wait (w : Nat) (rctx : Request)
  | assign (i : Nat)
  | ret (i : Nat)
  deriving DecidableEq, Repr

namespace World

variable {S : Type}

/-- The program over the NetStore `n` before any call of Has. -/
def init (n : NetStore S) : World S := { n := n, waits := [], invocations := [] }

/-- A caller invokes the wait function `k` with `rctx`: the closure calls
`fetch(rctx)`, whose first statement is the increment of the request counter. -/
def invoke (cs : ChunkStore S) (w : World S) (k : Nat) (rctx : Request) : Except Fault (World S) :=
  match w.waits[k]? with
  | none => .error .disabled
  | some wait =>
    match wait.callee with
    | .error e => .error e
    | .ok p =>
      match w.n.step cs (.fetch p rctx) with
      | .error e => .error e
      | .ok n1 =>
        .ok { w with n := n1,
                     invocations := w.invocations ++ [⟨k, w.n.calls.length, .fetching, .nil⟩] }

/-- The invocation `i` gets the error of its fetch call, which has returned, and
assigns it to the variable `err` of its closure. -/
def assign (w : World S) (i : Nat) : Except Fault (World S) :=
  match w.invocations[i]? with
  | none => .error .disabled
  | some inv =>
    match w.n.calls[inv.call]?, w.waits[inv.wait]? with
    | some call, some wait =>
      if inv.pc = .fetching ∧ call.pc = .returned then
        .ok { w with waits := w.waits.set inv.wait (wait.assign call.err),
                     invocations := w.invocations.set i { inv with pc := .assigned } }
      else .error .disabled
    | _, _ => .error .disabled

/-- The invocation `i` returns the variable `err` of its closure. -/
def ret (w : World S) (i : Nat) : Except Fault (World S) :=
  match w.invocations[i]? with
  | none => .error .disabled
  | some inv =>
    match w.waits[inv.wait]? with
    | none => .error .disabled
    | some wait =>
      if inv.pc = .assigned then
        .ok { w with invocations :=
                       w.invocations.set i { inv with pc := .returned, result := wait.result } }
      else .error .disabled

/-- One step of the program with the callers of Has. -/
def step (cs : ChunkStore S) (w : World S) : WorldAction → Except Fault (World S)
  | .net a =>
    match w.n.step cs a with
    | .error e => .error e
    | .ok n1 => .ok { w with n := n1 }
  | .Has ref =>
    match w.n.Has cs ref with
    | .error e => .error e
    | .ok (n1, none, _) => .ok { w with n := n1 }
    | .ok (n1, some wait, _) => .ok { w with n := n1, waits := w.waits ++ [wait] }
  | .wait k rctx => w.invoke cs k rctx
  | .assign i => w.assign i
  | .ret i => w.ret i

/-- Runs a schedule from `w`. -/
def run (cs : ChunkStore S) (w : World S) : List WorldAction → Except Fault (World S)
  | [] => .ok w
  | a :: rest =>
    match w.step cs a with
    | .error e => .error e
    | .ok w1 => run cs w1 rest

end World

/-! ## Counting the retrieve calls of the loop -/

namespace Fetcher

/-- Whether the loop of `start`, having taken the case of `ev`, starts a call of
retrieve at the head of its next iteration: after a request, and after a forward
event whose error is not nil. -/
def Event.retrieves : Event → Bool
  | .request _ => true
  | .forward err => decide (err ≠ .nil)
  | .stopped => false

/-- Number of events of the sequence, up to the first stop event, after which the loop
starts a call of retrieve. -/
def retrievals : List Event → Nat
  | [] => 0
  | .stopped :: _ => 0
  | ev :: rest => (if ev.retrieves then 1 else 0) + retrievals rest

end Fetcher

/-! ## swarm/storage/localstore: the index engine, as specified -/

namespace Localstore

/-- Modelled from the spec: the access modes of section 3. The file `mode.go` of package
localstore is not among the sources; the names are the ones `accessor_test.go` and
`mode_test.go` use. -/
inductive Mode where
  | ModeSyncing
  | ModeUpload
  | ModeRequest
  | ModeSynced
  | modeAccess
  | modeRemoval
  deriving DecidableEq, Repr

/-- Modelled from the spec: the unit of index storage of section 3, `shed.IndexItem`,
whose package is not among the sources; the fields are the ones `mode_test.go` sets and
validates. A nil `Data` is the empty list. The timestamps are int64 values of the
clock, which are stored and compared and never computed with. -/
structure IndexItem where
  Address : Storage.Address
  Data : List UInt8
  StoreTimestamp : Int
  AccessTimestamp : Int
  deriving DecidableEq, Repr

/-- Modelled from the spec: the not-found condition of an index lookup (section 7),
`leveldb.ErrNotFound` in `mode_test.go`; package leveldb is not among the sources. -/
def ErrNotFound : Error := .New "leveldb: not found"

/-- Modelled from the spec: the helper `addressToItem` that `mode_test.go` calls to
look an address up; its definition is not among the sources. -/
def addressToItem (addr : Address) : IndexItem :=
  { Address := addr, Data := [], StoreTimestamp := 0, AccessTimestamp := 0 }

/-- Modelled from the spec: the key encodings of the index table of section 3: by
address (retrieval indexes), by store timestamp and address (pull, push), by access
timestamp and address (gc). The index definitions of `localstore.go` are not among the
sources. -/
inductive Keying where
  | address
  | storeTimestamp
  | accessTimestamp
  deriving DecidableEq, Repr

/-- Modelled from the spec: the key of an item under a key encoding (section 3). -/
def Keying.key : Keying → IndexItem → Int × Address
  | .address, item => (0, item.Address)
  | .storeTimestamp, item => (item.StoreTimestamp, item.Address)
  | .accessTimestamp, item => (item.AccessTimestamp, item.Address)

/-- Modelled from the spec: an index (`shed.Index`, not among the sources) is the list
of the items it holds, at most one for each key. -/
abbrev Index := List IndexItem

/-- Modelled from the spec: `Index.Get(keyFields)` as `mode_test.go` calls it: the item
stored under the key of `query`, or the not-found error (section 7). -/
def Index.Get (k : Keying) (index : Index) (query : IndexItem) : Except Error IndexItem :=
  match index.find? (fun item => decide (k.key item = k.key query)) with
  | some item => .ok item
  | none => .error ErrNotFound

/-- Modelled from the spec: deleting the key of `query` from an index (section 4.1,
"delete old key"). -/
def Index.Delete (k : Keying) (index : Index) (query : IndexItem) : Index :=
  index.filter (fun item => decide (k.key item ≠ k.key query))

/-- Modelled from the spec: writing an item into an index under its key, in place of
what the key held (section 4.1, "insert new key"). -/
def Index.Put (k : Keying) (index : Index) (item : IndexItem) : Index :=
  item :: Index.Delete k index item

/-- Modelled from the spec: deleting the entries for an address from an index, whatever
timestamp their key carries (section 4.1, removal of "entries for the address"). -/
def Index.DeleteAddress (index : Index) (addr : Address) : Index :=
  index.filter (fun item => decide (item.Address ≠ addr))

/-- Modelled from the spec: the struct `DB` of `localstore.go`, which is not among the
sources: the layout flag, the indexes and the size counter of the table of section 3,
under the field names `mode_test.go` reads. The size counter (a uint64 in the tests) is
the count of stored chunks, far from 2^64, and is a natural number here; the key-value
engine beneath the indexes does not fail in this model. -/
structure DB where
  useRetrievalCompositeIndex : Bool
  retrievalCompositeIndex : Index
  retrievalDataIndex : Index
  retrievalAccessIndex : Index
  pullIndex : Index
  pushIndex : Index
  gcIndex : Index
  sizeCounter : Nat
  deriving DecidableEq, Repr

/-- Modelled from the spec: a new database with the retrieval layout chosen at
construction (section 4.1), as `newTestDB` of the tests makes it; the constructor is
not among the sources. -/
def DB.New (composite : Bool) : DB :=
  { useRetrievalCompositeIndex := composite, retrievalCompositeIndex := [],
    retrievalDataIndex := [], retrievalAccessIndex := [], pullIndex := [], pushIndex := [],
    gcIndex := [], sizeCounter := 0 }

namespace DB

/-- Modelled from the spec: the index that answers `Get` (section 3): the composite
index or the data index, according to the layout chosen at construction. -/
def retrievalIndex (db : DB) : Index :=
  if db.useRetrievalCompositeIndex then db.retrievalCompositeIndex else db.retrievalDataIndex

/-- Modelled from the spec: the retrieval record that holds the data of an address, in
the composite index or in the data index according to the layout (section 4.1); the
retrieval index is "the single source of truth" for whether the chunk is stored
(section 3). The lookup code of `mode.go` is not among the sources. -/
def data (db : DB) (addr : Address) : Option IndexItem :=
  match Index.Get .address db.retrievalIndex (addressToItem addr) with
  | .ok item => some item
  | .error _ => none

/-- Modelled from the spec: the access timestamp recorded for an address: the one of
the composite record, or the one of the access index, which in the split layout has
no record before the first access (section 4.1). The code is not among the sources. -/
def access (db : DB) (addr : Address) : Option Int :=
  if db.useRetrievalCompositeIndex then (db.data addr).map (fun item => item.AccessTimestamp)
  else
    match Index.Get .address db.retrievalAccessIndex (addressToItem addr) with
    | .ok item => some item.AccessTimestamp
    | .error _ => none

/-- Modelled from the spec: writing the retrieval record of a new chunk at clock value
`now` (section 3, "writes retrieval"; with the access timestamp for ModeRequest). The
composite record carries both timestamps; the split data record carries the store
timestamp, and the access record is written only with `withAccess`, as
`testRetrieveIndexesValues` and `testRetrieveIndexesValuesWithAccess` expect. The code
of `mode.go` is not among the sources. -/
def putRetrieval (db : DB) (ch : Chunk) (now : Int) (withAccess : Bool) : DB :=
  if db.useRetrievalCompositeIndex then
    { db with retrievalCompositeIndex :=
                Index.Put .address db.retrievalCompositeIndex ⟨ch.Address, ch.Data, now, now⟩ }
  else if withAccess then
    { db with retrievalDataIndex := Index.Put .address db.retrievalDataIndex ⟨ch.Address, ch.Data, now, 0⟩,
              retrievalAccessIndex := Index.Put .address db.retrievalAccessIndex ⟨ch.Address, [], 0, now⟩ }
  else
    { db with retrievalDataIndex := Index.Put .address db.retrievalDataIndex ⟨ch.Address, ch.Data, now, 0⟩ }

/-- Modelled from the spec: recording `now` as the access timestamp of a stored
address (section 4.1): in the composite record, or as the record of the access index.
The code of `mode.go` is not among the sources. -/
def setAccess (db : DB) (addr : Address) (now : Int) : DB :=
  if db.useRetrievalCompositeIndex then
    match db.data addr with
    | some item =>
      { db with retrievalCompositeIndex :=
                  Index.Put .address db.retrievalCompositeIndex { item with AccessTimestamp := now } }
    | none => db
  else
    { db with retrievalAccessIndex := Index.Put .address db.retrievalAccessIndex ⟨addr, [], 0, now⟩ }

/-- Modelled from the spec: re-keying the gc entry of an address (section 4.1): the old
key, made of the access timestamp recorded so far, is deleted and the entry is inserted
under the new access timestamp. The code of `mode.go` is not among the sources. -/
def rekeyGC (db : DB) (addr : Address) (storeTimestamp : Int) (old : Option Int) (now : Int) : DB :=
  { db with gcIndex :=
              Index.Put .accessTimestamp
                (match old with
                 | some t => Index.Delete .accessTimestamp db.gcIndex ⟨addr, [], storeTimestamp, t⟩
                 | none => db.gcIndex)
                ⟨addr, [], storeTimestamp, now⟩ }

/-- Modelled from the spec: `db.Accessor(mode).Put(ctx, ch)` with the clock at `now`;
returns the database and the error. The code (`accessor.go`, `mode.go`) is not among
the sources. Sections 3 and 4.1: ModeSyncing and ModeUpload write retrieval and pull
(and push) and increment the size counter for an address not yet stored, and for a
stored address only ensure the pull (and push) entry under the stored timestamp;
ModeRequest writes retrieval with the access timestamp and gc, incrementing once for a
new address (section 9), and for a stored address records the access; ModeSynced writes
nothing for an address not stored, and otherwise removes the push entry and writes the
gc entry, under the access timestamp recorded so far or else the clock, without
writing the access index (`testModeSyncedValues`); modeAccess persists nothing;
modeRemoval deletes the retrieval, pull, push and gc entries of a stored address and
decrements the size counter. -/
def Put (db : DB) (mode : Mode) (now : Int) (ch : Chunk) : DB × Error :=
  match mode with
  | .ModeSyncing =>
    match db.data ch.Address with
    | some item =>
      ({ db with pullIndex := Index.Put .storeTimestamp db.pullIndex
                                ⟨ch.Address, [], item.StoreTimestamp, 0⟩ }, .nil)
    | none =>
      ({ db.putRetrieval ch now false with
           pullIndex := Index.Put .storeTimestamp db.pullIndex ⟨ch.Address, [], now, 0⟩,
           sizeCounter := db.sizeCounter + 1 }, .nil)
  | .ModeUpload =>
    match db.data ch.Address with
    | some item =>
      ({ db with pullIndex := Index.Put .storeTimestamp db.pullIndex
                                ⟨ch.Address, [], item.StoreTimestamp, 0⟩,
                 pushIndex := Index.Put .storeTimestamp db.pushIndex
                                ⟨ch.Address, [], item.StoreTimestamp, 0⟩ }, .nil)
    | none =>
      ({ db.putRetrieval ch now false with
           pullIndex := Index.Put .storeTimestamp db.pullIndex ⟨ch.Address, [], now, 0⟩,
           pushIndex := Index.Put .storeTimestamp db.pushIndex ⟨ch.Address, [], now, 0⟩,
           sizeCounter := db.sizeCounter + 1 }, .nil)
  | .ModeRequest =>
    match db.data ch.Address with
    | some item =>
      ((db.setAccess ch.Address now).rekeyGC ch.Address item.StoreTimestamp
         (db.access ch.Address) now, .nil)
    | none =>
      ({ (db.putRetrieval ch now true).rekeyGC ch.Address now none now with
           sizeCounter := db.sizeCounter + 1 }, .nil)
  | .ModeSynced =>
    match db.data ch.Address with
    | some item =>
      ({ db.rekeyGC ch.Address item.StoreTimestamp (db.access ch.Address)
             ((db.access ch.Address).getD now) with
           pushIndex := Index.Delete .storeTimestamp db.pushIndex
                          ⟨ch.Address, [], item.StoreTimestamp, 0⟩ }, .nil)
    | none => (db, .nil)
  | .modeAccess => (db, .nil)
  | .modeRemoval =>
    match db.data ch.Address with
    | some _ =>
      ({ db with
           retrievalCompositeIndex := Index.DeleteAddress db.retrievalCompositeIndex ch.Address,
           retrievalDataIndex := Index.DeleteAddress db.retrievalDataIndex ch.Address,
           retrievalAccessIndex := Index.DeleteAddress db.retrievalAccessIndex ch.Address,
           pullIndex := Index.DeleteAddress db.pullIndex ch.Address,
           pushIndex := Index.DeleteAddress db.pushIndex ch.Address,
           gcIndex := Index.DeleteAddress db.gcIndex ch.Address,
           sizeCounter := db.sizeCounter - 1 }, .nil)
    | none => (db, .nil)

/-- Modelled from the spec: `db.Accessor(mode).Get(ctx, addr)` with the clock at `now`;
returns the database, the chunk and the error. The code (`accessor.go`, `mode.go`) is
not among the sources. An address without retrieval record gives
`storage.ErrChunkNotFound` (`accessor_test.go`); under ModeSynced and modeAccess the
read records the clock as access timestamp and re-keys the gc entry (section 4.1). -/
def Get (db : DB) (mode : Mode) (now : Int) (addr : Address) : DB × Option Chunk × Error :=
  match db.data addr with
  | none => (db, none, ErrChunkNotFound)
  | some item =>
    if mode = .ModeSynced ∨ mode = .modeAccess then
      ((db.setAccess addr now).rekeyGC addr item.StoreTimestamp (db.access addr) now,
        some { addr := addr, sdata := item.Data }, .nil)
    else (db, some { addr := addr, sdata := item.Data }, .nil)

end DB

/-- Modelled from the spec: the database that holds one chunk and nothing else, the
chunk having been uploaded at clock value `store` and last read under an
access-tracked mode at `access` (sections 3 and 4.1): its retrieval record in the
layout chosen, its pull and push entries, its one gc entry and the size counter 1. -/
def DB.accessed (composite : Bool) (ch : Chunk) (store access : Int) : DB :=
  { useRetrievalCompositeIndex := composite,
    retrievalCompositeIndex := if composite then [⟨ch.Address, ch.Data, store, access⟩] else [],
    retrievalDataIndex := if composite then [] else [⟨ch.Address, ch.Data, store, 0⟩],
    retrievalAccessIndex := if composite then [] else [⟨ch.Address, [], 0, access⟩],
    pullIndex := [⟨ch.Address, [], store, 0⟩], pushIndex := [⟨ch.Address, [], store, 0⟩],
    gcIndex := [⟨ch.Address, [], store, access⟩], sizeCounter := 1 }

/-- Modelled from the spec: the operations of the contract of section 4.1, each with
the value of the clock when it runs. -/
inductive Op where
  | Put (mode : Mode) (now : Int) (ch : Chunk)
  | Get (mode : Mode) (now : Int) (addr : Address)
  deriving DecidableEq, Repr

/-- Modelled from the spec: the database after one operation of section 4.1. -/
def DB.apply (db : DB) : Op → DB
  | .Put mode now ch => (db.Put mode now ch).1
  | .Get mode now addr => (db.Get mode now addr).1

/-- Modelled from the spec: the database after a sequence of operations. -/
def DB.run (db : DB) (ops : List Op) : DB := ops.foldl DB.apply db

/-- Modelled from the spec: the consistency of the split layout that section 3 asks
for, the retrieval data index being the source of truth: every record of the access
index belongs to an address that has a data record. -/
def DB.Valid (db : DB) : Prop :=
  ∀ item ∈ db.retrievalAccessIndex, ∃ d ∈ db.retrievalDataIndex, d.Address = item.Address

end Localstore

/-! ## Theorems: Put and Get under the lock -/

/-- A chunk the store reports as newly stored makes `Put` index the cache with the
byte slice `ch.Address()`, which the map of the cache cannot hash: `Put` panics
whatever the cache holds, before any `deliver`. -/
theorem Put_new_panics {S : Type} (cs : ChunkStore S) (n : NetStore S) (ch : Chunk)
    (herr : (cs.Put n.store ch).2.2 = .nil) (hwait : (cs.Put n.store ch).2.1 ≠ none) :
    n.Put cs ch = .error unhashable := by
  simp [NetStore.Put, herr, hwait, Cache.Get, Key.hashable]

/-- C1, evaluated on the code: after a missed `get` of `ab01` has created a Fetcher
(cached under the string key `ab01`) and a caller waits in its `fetch`, the store
reports `Put` of a chunk with address `ab01` as new (wait function, nil error), and
`NetStore.Put` panics on the cache lookup with the slice key instead of delivering:
the chunk of the Fetcher stays nil and its delivery channel open. -/
theorem Put_misses_fetcher_of_get :
    ∃ n0 n1 : NetStore (List Chunk),
      NewNetStore 4 [] = .ok n0 ∧
      n0.run memStore [.get addrA, .fetch 0 reqA1, .submit 0 false] = .ok n1 ∧
      n1.fetchers.items = [(Key.str "ab01", 0)] ∧
      (n1.heap.map fun f => (f.addr, f.chunk, f.delivered)) = [(addrA, none, false)] ∧
      (memStore.Put n1.store chunkA).2 = (some { id := 0 }, Error.nil) ∧
      n1.Put memStore chunkA = .error unhashable :=
  ⟨_, _, rfl, rfl, rfl, rfl, rfl, rfl⟩

/-- C3: when the store has the chunk, `Get` returns it with a nil error; the Fetcher
cache, the Fetchers (hence the number of retrieve calls) and the fetch calls are as
before, only the store has been consulted. -/
theorem Get_local_hit {S : Type} (cs : ChunkStore S) (n : NetStore S) (rctx : Request)
    (ref : Address) (c : Chunk) (hchunk : (cs.Get n.store ref).2.1 = some c)
    (herr : (cs.Get n.store ref).2.2 = .nil) :
    ∃ n1, n.Get cs rctx ref = .ok (n1, .ret (some c) .nil) ∧
      n1.fetchers = n.fetchers ∧ n1.heap = n.heap ∧ n1.calls = n.calls ∧
      n1.store = (cs.Get n.store ref).1 := by
  refine ⟨{ n with store := (cs.Get n.store ref).1 }, ?_, rfl, rfl, rfl, rfl⟩
  simp [NetStore.Get, NetStore.get, herr, hchunk]

/-- Witness of C3: a memory store holding the chunk of `ab01`. -/
theorem Get_local_hit_witness :
    ∃ n1, holdingA.Get memStore reqA1 addrA = .ok (n1, .ret (some chunkA) .nil) ∧
      n1.fetchers = holdingA.fetchers ∧ n1.heap = holdingA.heap ∧ n1.calls = holdingA.calls ∧
      n1.store = [chunkA] :=
  Get_local_hit memStore holdingA reqA1 addrA chunkA rfl rfl

/-- C4: when the store reports the chunk as already present (nil wait function, nil
error) `Put` returns `(nil, nil)`, and when the store returns an error `Put` returns
`(nil, err)`; in both cases cache, Fetchers and fetch calls are untouched, so nothing
is delivered. -/
theorem Put_present_or_error {S : Type} (cs : ChunkStore S) (n : NetStore S) (ch : Chunk)
    (h : (cs.Put n.store ch).2 = (none, Error.nil) ∨ (cs.Put n.store ch).2.2 ≠ .nil) :
    ∃ n1, n.Put cs ch = .ok (n1, none, (cs.Put n.store ch).2.2) ∧
      n1.fetchers = n.fetchers ∧ n1.heap = n.heap ∧ n1.calls = n.calls := by
  refine ⟨{ n with store := (cs.Put n.store ch).1 }, ?_, rfl, rfl, rfl⟩
  rcases h with h | h
  · simp [NetStore.Put, h]
  · simp [NetStore.Put, h]

/-- Witness of C4: a memory store that already holds the chunk, and a store that
fails; in both a Fetcher for the address of the chunk is in the cache. -/
theorem Put_present_or_error_witness :
    (∃ n1, holdingAFetching.Put memStore chunkA = .ok (n1, none, Error.nil) ∧
      n1.fetchers = holdingAFetching.fetchers ∧ n1.heap = holdingAFetching.heap ∧
      n1.calls = holdingAFetching.calls) ∧
    (∃ n1, brokenFetching.Put brokenStore chunkA
        = .ok (n1, none, Error.New "leveldb: corruption") ∧
      n1.fetchers = brokenFetching.fetchers ∧ n1.heap = brokenFetching.heap ∧
      n1.calls = brokenFetching.calls) :=
  ⟨Put_present_or_error memStore holdingAFetching chunkA (Or.inl rfl),
    Put_present_or_error brokenStore brokenFetching chunkA (Or.inr (by decide))⟩

/-- C5 refuted on the code: the store fails `Get` with an error that is not the
not-found error, and `NetStore.Get` does not return it: it creates a Fetcher for the
address, caches it and goes on into its `fetch`. -/
theorem Get_store_failure_goes_fetching :
    ∃ n0 n1 : NetStore Unit,
      NewNetStore 4 () = .ok n0 ∧
      (brokenStore.Get n0.store addrA).2.2 = .New "leveldb: corruption" ∧
      .New "leveldb: corruption" ≠ ErrChunkNotFound ∧
      n0.Get brokenStore reqA1 addrA = .ok (n1, .fetch 0 reqA1) ∧
      n1.heap = [NewFetcher addrA (Key.str "ab01")] ∧
      n1.fetchers.items = [(Key.str "ab01", 0)] :=
  ⟨_, _, rfl, rfl, by decide, rfl, rfl, rfl⟩

/-- `getOrCreateFetcher` when the cache holds the key: the cached Fetcher is returned
and its entry moved to the front. -/
theorem NetStore.getOrCreateFetcher_cached {S : Type} (n : NetStore S) (ref : Address) (p : Nat)
    (h : Cache.find n.fetchers.items (.str (hexEncodeToString ref)) = some p) :
    n.getOrCreateFetcher ref =
      .ok ({ n with fetchers := n.fetchers.toFront (.str (hexEncodeToString ref)) p }, p, .nil) := by
  simp [NetStore.getOrCreateFetcher, Cache.Get, Key.hashable, h]

/-- `getOrCreateFetcher` when the cache does not hold the key: a new Fetcher is
appended to the heap and pushed into the cache. -/
theorem NetStore.getOrCreateFetcher_new {S : Type} (n : NetStore S) (ref : Address)
    (h : Cache.find n.fetchers.items (.str (hexEncodeToString ref)) = none) :
    n.getOrCreateFetcher ref =
      .ok ({ n with fetchers := n.fetchers.push (.str (hexEncodeToString ref)) n.heap.length,
                    heap := n.heap ++ [NewFetcher ref (.str (hexEncodeToString ref))] },
        n.heap.length, .nil) := by
  simp [NetStore.getOrCreateFetcher, Cache.Get, Cache.Add, Key.hashable, h]

/-- The locked part `n.get(ref)` when the store returns an error: the Fetcher of
getOrCreateFetcher is returned as the fetch function. -/
theorem NetStore.get_miss {S : Type} (cs : ChunkStore S) (n : NetStore S) (ref : Address)
    (herr : (cs.Get n.store ref).2.2 ≠ .nil) (n1 : NetStore S) (p : Nat)
    (h : NetStore.getOrCreateFetcher { n with store := (cs.Get n.store ref).1 } ref = .ok (n1, p, .nil)) :
    n.get cs ref = .ok (n1, none, some p, .nil) := by
  simp [NetStore.get, herr, h]

/-- The last statement of `Get` when `n.get` returned a fetch function. -/
theorem NetStore.Get_of_get_miss {S : Type} (cs : ChunkStore S) (n n1 : NetStore S) (rctx : Request)
    (ref : Address) (p : Nat) (h : n.get cs ref = .ok (n1, none, some p, .nil)) :
    n.Get cs rctx ref = .ok (n1, .fetch p rctx) := by
  simp [NetStore.Get, h]

/-- C5 as the code has it: whatever error the store returns from `Get`, not-found or
any other, `NetStore.Get` drops it and goes on as `fetch(rctx)` on the Fetcher of the
address: the one the cache holds under the hex key, or else a new one appended to the
heap. -/
theorem Get_any_store_error_fetches {S : Type} (cs : ChunkStore S) (n : NetStore S)
    (rctx : Request) (ref : Address) (herr : (cs.Get n.store ref).2.2 ≠ .nil) :
    ∃ n1 p, n.Get cs rctx ref = .ok (n1, .fetch p rctx) ∧
      (Cache.find n.fetchers.items (.str (hexEncodeToString ref)) = some p ∧ n1.heap = n.heap ∨
        Cache.find n.fetchers.items (.str (hexEncodeToString ref)) = none ∧ p = n.heap.length ∧
          n1.heap = n.heap ++ [NewFetcher ref (.str (hexEncodeToString ref))]) := by
  cases hfind : Cache.find n.fetchers.items (.str (hexEncodeToString ref)) with
  | none =>
    have h := NetStore.get_miss cs n ref herr _ _
      (NetStore.getOrCreateFetcher_new { n with store := (cs.Get n.store ref).1 } ref hfind)
    refine ⟨_, n.heap.length, NetStore.Get_of_get_miss cs n _ rctx ref _ h, ?_⟩
    exact Or.inr ⟨rfl, rfl, rfl⟩
  | some p =>
    have h := NetStore.get_miss cs n ref herr _ _
      (NetStore.getOrCreateFetcher_cached { n with store := (cs.Get n.store ref).1 } ref p hfind)
    refine ⟨_, p, NetStore.Get_of_get_miss cs n _ rctx ref _ h, ?_⟩
    exact Or.inl ⟨rfl, rfl⟩

/-- Witness of C5 as the code has it: the memory store misses `ab01`. -/
theorem Get_any_store_error_fetches_witness :
    ∃ n1 p, holdingA.Get memStore reqA1 addrB = .ok (n1, .fetch p reqA1) ∧
      (Cache.find holdingA.fetchers.items (.str (hexEncodeToString addrB)) = some p ∧
          n1.heap = holdingA.heap ∨
        Cache.find holdingA.fetchers.items (.str (hexEncodeToString addrB)) = none ∧
          p = holdingA.heap.length ∧
          n1.heap = holdingA.heap ++ [NewFetcher addrB (.str (hexEncodeToString addrB))]) :=
  Get_any_store_error_fetches memStore holdingA reqA1 addrB (by decide)

/-! ## Theorems: the loop of `start` -/

/-- A running loop that accepts a request starts one call of retrieve and stays
running with `doRetrieve` reset. -/
theorem Fetcher.iterate_request (f : Fetcher) (rctx : Request) (h : f.running = true) :
    (f.iterate (.request rctx)).retrieved = f.retrieved + 1 ∧
      (f.iterate (.request rctx)).running = true := by
  simp [Fetcher.iterate, Fetcher.retrieveIfWanted, h]

/-- A running loop fed `reqs` accepted requests and nothing else starts retrieve once
for each of them. -/
theorem Fetcher.foldl_requests (reqs : List Request) (f : Fetcher) (h : f.running = true) :
    (List.foldl Fetcher.iterate f (reqs.map Fetcher.Event.request)).retrieved
      = f.retrieved + reqs.length := by
  induction reqs generalizing f with
  | nil => simp
  | cons r rest ih =>
    have hr := Fetcher.iterate_request f r h
    simp only [List.map_cons, List.foldl_cons, List.length_cons]
    rw [ih _ hr.2, hr.1]
    omega

/-- C2 refuted on the code: two `Get` calls for the absent address `ab01` reach the
same Fetcher, its loop accepts both requests, no forward event occurs, and retrieve
has been started twice. -/
theorem two_accepted_requests_retrieve_twice :
    ∃ n0 n1 : NetStore (List Chunk),
      NewNetStore 4 [] = .ok n0 ∧
      n0.run memStore [.get addrA, .fetch 0 reqA1, .submit 0 false,
                       .get addrA, .fetch 0 reqA2, .submit 1 false] = .ok n1 ∧
      (n1.calls.map fun c => (c.f, c.rctx, c.pc)) = [(0, reqA1, PC.wait), (0, reqA2, PC.wait)] ∧
      (n1.heap.map fun f => f.retrieved) = [2] :=
  ⟨_, _, rfl, rfl, rfl, rfl⟩

/-- C2 as the code has it: the loop of a new Fetcher that accepts N requests, with no
forward event (no retrieval attempt failed or timed out), starts retrieve exactly N
times, once for each accepted request. -/
theorem start_retrieves_once_per_request (addr : Address) (remove : Key) (reqs : List Request) :
    ((NewFetcher addr remove).start (reqs.map Fetcher.Event.request)).retrieved = reqs.length := by
  have h := Fetcher.foldl_requests reqs
    (Fetcher.retrieveIfWanted
      { NewFetcher addr remove with running := true, doRetrieve := false, rctx := none })
    (by simp [Fetcher.retrieveIfWanted])
  simpa [Fetcher.start, Fetcher.retrieveIfWanted, NewFetcher] using h

/-! ## Lemmas on the cache -/

theorem Cache.mem_del (items : List (Key × Nat)) (key : Key) (e : Key × Nat) :
    e ∈ Cache.del items key ↔ e ∈ items ∧ e.1 ≠ key := by
  simp [Cache.del, List.mem_filter]

theorem Cache.find_eq_none (items : List (Key × Nat)) (key : Key) :
    Cache.find items key = none ↔ ∀ e ∈ items, e.1 ≠ key := by
  induction items with
  | nil => simp [Cache.find]
  | cons e rest ih =>
    obtain ⟨k, v⟩ := e
    by_cases h : k = key
    · simp [Cache.find, h]
    · simp [Cache.find, h, ih]

theorem Cache.find_eq_some (items : List (Key × Nat)) (key : Key) (v : Nat)
    (h : Cache.find items key = some v) : (key, v) ∈ items := by
  induction items with
  | nil => simp [Cache.find] at h
  | cons e rest ih =>
    obtain ⟨k, w⟩ := e
    by_cases hk : k = key
    · simp [Cache.find, hk] at h
      simp [hk, h]
    · simp [Cache.find, hk] at h
      exact List.mem_cons_of_mem _ (ih h)

theorem Cache.find_del_self (items : List (Key × Nat)) (key : Key) :
    Cache.find (Cache.del items key) key = none := by
  rw [Cache.find_eq_none]
  intro e he
  exact ((Cache.mem_del items key e).1 he).2

theorem Cache.find_del_none (items : List (Key × Nat)) (key k : Key)
    (h : Cache.find items k = none) : Cache.find (Cache.del items key) k = none := by
  rw [Cache.find_eq_none] at h ⊢
  intro e he
  exact h e ((Cache.mem_del items key e).1 he).1

theorem Cache.nodup_del (items : List (Key × Nat)) (key : Key)
    (h : (items.map Prod.fst).Nodup) : ((Cache.del items key).map Prod.fst).Nodup := by
  unfold Cache.del
  exact List.Nodup.sublist (List.Sublist.map _ (List.filter_sublist _)) h

theorem Cache.nodup_toFront (c : Cache) (key : Key) (v : Nat)
    (h : (c.items.map Prod.fst).Nodup) : ((c.toFront key v).items.map Prod.fst).Nodup := by
  simp only [Cache.toFront, List.map_cons, List.nodup_cons]
  refine ⟨?_, Cache.nodup_del _ _ h⟩
  intro hmem
  obtain ⟨e, he, hk⟩ := List.mem_map.1 hmem
  exact ((Cache.mem_del _ _ e).1 he).2 hk

theorem Cache.mem_toFront (c : Cache) (key : Key) (v : Nat) (e : Key × Nat)
    (h : e ∈ (c.toFront key v).items) : e = (key, v) ∨ e ∈ c.items := by
  simp only [Cache.toFront, List.mem_cons] at h
  rcases h with h | h
  · exact Or.inl h
  · exact Or.inr ((Cache.mem_del _ _ e).1 h).1

theorem Cache.mem_push (c : Cache) (key : Key) (v : Nat) (e : Key × Nat)
    (h : e ∈ (c.push key v).items) : e = (key, v) ∨ e ∈ c.items := by
  unfold Cache.push at h
  split at h
  · exact List.mem_cons.1 (List.mem_of_mem_dropLast h)
  · exact List.mem_cons.1 h

theorem Cache.nodup_push (c : Cache) (key : Key) (v : Nat)
    (hfind : Cache.find c.items key = none)
    (h : (c.items.map Prod.fst).Nodup) : ((c.push key v).items.map Prod.fst).Nodup := by
  have hcons : (((key, v) :: c.items).map Prod.fst).Nodup := by
    simp only [List.map_cons, List.nodup_cons]
    refine ⟨?_, h⟩
    intro hmem
    obtain ⟨e, he, hk⟩ := List.mem_map.1 hmem
    exact (Cache.find_eq_none _ _).1 hfind e he hk
  unfold Cache.push
  split
  · exact List.Nodup.sublist (List.Sublist.map _ (List.dropLast_sublist _)) hcons
  · exact hcons

/-! ## What each step does -/

section Steps

variable {S : Type}

theorem NetStore.callAt_eq_some {n : NetStore S} {c : Nat} {pc : PC} {call : Call} {f : Fetcher}
    (h : n.callAt c pc = some (call, f)) :
    n.calls[c]? = some call ∧ call.pc = pc ∧ n.heap[call.f]? = some f := by
  unfold NetStore.callAt at h
  split at h
  · simp at h
  · rename_i call0 hc
    split at h
    · rename_i hpc
      split at h
      · simp at h
      · rename_i f0 hf
        simp only [Option.some.injEq, Prod.mk.injEq] at h
        obtain ⟨rfl, rfl⟩ := h
        exact ⟨hc, hpc, hf⟩
    · simp at h

theorem NetStore.get_ok {cs : ChunkStore S} {n : NetStore S} {ref : Address}
    {r : NetStore S × Option Chunk × Option Nat × Error} (h : n.get cs ref = .ok r) :
    r.1 = { n with store := (cs.Get n.store ref).1 } ∨
    (∃ p, Cache.find n.fetchers.items (.str (hexEncodeToString ref)) = some p ∧
      r.1 = { n with store := (cs.Get n.store ref).1,
                     fetchers := n.fetchers.toFront (.str (hexEncodeToString ref)) p }) ∨
    (Cache.find n.fetchers.items (.str (hexEncodeToString ref)) = none ∧
      r.1 = { n with store := (cs.Get n.store ref).1,
                     fetchers := n.fetchers.push (.str (hexEncodeToString ref)) n.heap.length,
                     heap := n.heap ++ [NewFetcher ref (.str (hexEncodeToString ref))] }) := by
  by_cases herr : (cs.Get n.store ref).2.2 = .nil
  · left
    simp only [NetStore.get, herr, if_true, Except.ok.injEq] at h
    rw [← h]
  · right
    cases hfind : Cache.find n.fetchers.items (.str (hexEncodeToString ref)) with
    | none =>
      right
      rw [NetStore.get_miss cs n ref herr _ _
        (NetStore.getOrCreateFetcher_new { n with store := (cs.Get n.store ref).1 } ref hfind)] at h
      simp only [Except.ok.injEq] at h
      exact ⟨rfl, by rw [← h]⟩
    | some p =>
      left
      rw [NetStore.get_miss cs n ref herr _ _
        (NetStore.getOrCreateFetcher_cached { n with store := (cs.Get n.store ref).1 } ref p hfind)] at h
      simp only [Except.ok.injEq] at h
      exact ⟨p, rfl, by rw [← h]⟩

theorem NetStore.Put_ok {cs : ChunkStore S} {n : NetStore S} {ch : Chunk}
    {r : NetStore S × Option WaitFn × Error} (h : n.Put cs ch = .ok r) :
    r.1 = { n with store := (cs.Put n.store ch).1 } := by
  by_cases herr : (cs.Put n.store ch).2.2 = .nil
  · by_cases hwait : (cs.Put n.store ch).2.1 = none
    · simp only [NetStore.Put, herr, hwait, ne_eq, not_true_eq_false, if_false, if_true,
        Except.ok.injEq] at h
      rw [← h]
    · rw [Put_new_panics cs n ch herr hwait] at h
      cases h
  · simp only [NetStore.Put, ne_eq, herr, not_false_eq_true, if_true, Except.ok.injEq] at h
    rw [← h]

theorem NetStore.enter_ok {n n1 : NetStore S} {p : Nat} {rctx : Request}
    (h : n.enter p rctx = .ok n1) :
    ∃ f, n.heap[p]? = some f ∧
      n1 = { n with heap := n.heap.set p { f with requestCnt := f.requestCnt + 1 },
                    calls := n.calls ++
                      [{ f := p, rctx := rctx, pc := .submit, chunk := none, err := .nil }] } := by
  unfold NetStore.enter at h
  split at h
  · cases h
  · rename_i f hf
    simp only [Except.ok.injEq] at h
    exact ⟨f, hf, h.symm⟩

theorem NetStore.submit_ok {n n1 : NetStore S} {c : Nat} {viaStopped : Bool}
    (h : n.submit c viaStopped = .ok n1) :
    ∃ call f, n.calls[c]? = some call ∧ call.pc = .submit ∧ n.heap[call.f]? = some f ∧
      ((viaStopped = true ∧ f.stopped = true ∧ n1 = n.update call.f f c { call with pc := .wait }) ∨
       (viaStopped = false ∧ f.running = true ∧
          n1 = n.update call.f (f.iterate (.request call.rctx)) c { call with pc := .wait })) := by
  unfold NetStore.submit at h
  split at h
  · cases h
  · rename_i call f hat
    obtain ⟨hc, hpc, hf⟩ := NetStore.callAt_eq_some hat
    refine ⟨call, f, hc, hpc, hf, ?_⟩
    cases viaStopped with
    | true =>
      cases hs : f.stopped with
      | true => simp [hs] at h; exact Or.inl ⟨rfl, rfl, h.symm⟩
      | false => simp [hs] at h
    | false =>
      cases hs : f.running with
      | true => simp [hs] at h; exact Or.inr ⟨rfl, rfl, h.symm⟩
      | false => simp [hs] at h

theorem NetStore.await_ok {n n1 : NetStore S} {c : Nat} {viaDone : Bool}
    (h : n.await c viaDone = .ok n1) :
    ∃ call f, n.calls[c]? = some call ∧ call.pc = .wait ∧ n.heap[call.f]? = some f ∧
      ((viaDone = true ∧ ∃ d, n.done.find? (fun d => d.1 = call.rctx.ctx) = some d ∧
          n1 = n.update call.f f c
            { call with pc := .exit, chunk := none, err := .errStatus d.2 f.status }) ∨
       (viaDone = false ∧ f.delivered = true ∧
          n1 = n.update call.f f c { call with pc := .exit, chunk := f.chunk, err := .nil })) := by
  unfold NetStore.await at h
  split at h
  · cases h
  · rename_i call f hat
    obtain ⟨hc, hpc, hf⟩ := NetStore.callAt_eq_some hat
    refine ⟨call, f, hc, hpc, hf, ?_⟩
    cases viaDone with
    | true =>
      simp only [if_true] at h
      split at h
      · cases h
      · rename_i d hd
        simp only [Except.ok.injEq] at h
        exact Or.inl ⟨rfl, d, hd, h.symm⟩
    | false =>
      cases hs : f.delivered with
      | true => simp [hs] at h; exact Or.inr ⟨rfl, rfl, h.symm⟩
      | false => simp [hs] at h

theorem NetStore.decrement_ok {n n1 : NetStore S} {c : Nat} (h : n.decrement c = .ok n1) :
    ∃ call f, n.calls[c]? = some call ∧ call.pc = .exit ∧ n.heap[call.f]? = some f ∧
      n1 = n.update call.f { f with requestCnt := f.requestCnt - 1 } c
        { call with pc := if f.requestCnt - 1 = 0 then .remove else .returned } := by
  unfold NetStore.decrement at h
  split at h
  · cases h
  · rename_i call f hat
    obtain ⟨hc, hpc, hf⟩ := NetStore.callAt_eq_some hat
    simp only [Except.ok.injEq] at h
    exact ⟨call, f, hc, hpc, hf, h.symm⟩

theorem NetStore.remove_ok {n n1 : NetStore S} {c : Nat} (h : n.remove c = .ok n1) :
    ∃ call f, n.calls[c]? = some call ∧ call.pc = .remove ∧ n.heap[call.f]? = some f ∧
      n1 = { n.update call.f f c { call with pc := .close } with
             fetchers := { n.fetchers with items := Cache.del n.fetchers.items f.remove } } := by
  unfold NetStore.remove at h
  split at h
  · cases h
  · rename_i call f hat
    obtain ⟨hc, hpc, hf⟩ := NetStore.callAt_eq_some hat
    refine ⟨call, f, hc, hpc, hf, ?_⟩
    cases hh : f.remove.hashable with
    | true =>
      simp only [Cache.Remove, hh, if_true, Except.ok.injEq] at h
      exact h.symm
    | false => simp [Cache.Remove, hh] at h

theorem NetStore.close_ok {n n1 : NetStore S} {c : Nat} (h : n.close c = .ok n1) :
    ∃ call f, n.calls[c]? = some call ∧ call.pc = .close ∧ n.heap[call.f]? = some f ∧
      f.stopped = false ∧
      n1 = n.update call.f { f with stopped := true } c { call with pc := .returned } := by
  unfold NetStore.close at h
  split at h
  · cases h
  · rename_i call f hat
    obtain ⟨hc, hpc, hf⟩ := NetStore.callAt_eq_some hat
    cases hs : f.stopped with
    | true => simp [hs] at h
    | false =>
      simp [hs] at h
      exact ⟨call, f, hc, hpc, hf, hs, h.symm⟩

theorem Fetcher.iterate_frame (f : Fetcher) (ev : Fetcher.Event) :
    (f.iterate ev).addr = f.addr ∧ (f.iterate ev).remove = f.remove ∧
      (f.iterate ev).requestCnt = f.requestCnt ∧ (f.iterate ev).stopped = f.stopped ∧
      (f.iterate ev).delivered = f.delivered ∧ (f.iterate ev).chunk = f.chunk := by
  unfold Fetcher.iterate Fetcher.retrieveIfWanted
  cases f.running <;> cases ev <;> simp
  split <;> simp

theorem Fetcher.deliver_eq {f f1 : Fetcher} {ch : Chunk} (h : f.deliver ch = .ok f1) :
    f.delivered = false ∧ f1 = { f with chunk := some ch, delivered := true } := by
  unfold Fetcher.deliver at h
  cases hd : f.delivered with
  | true => simp [hd] at h
  | false =>
    simp [hd] at h
    exact ⟨rfl, h.symm⟩

theorem NetStore.forward_ok {n n1 : NetStore S} {p : Nat} {err : Error}
    (h : n.forward p err = .ok n1) :
    ∃ f, n.heap[p]? = some f ∧ f.running = true ∧
      n1 = { n with heap := n.heap.set p (f.iterate (.forward err)) } := by
  unfold NetStore.forward at h
  split at h
  · cases h
  · rename_i f hf
    cases hr : f.running with
    | true => simp [hr] at h; exact ⟨f, hf, hr, h.symm⟩
    | false => simp [hr] at h

theorem NetStore.quit_ok {n n1 : NetStore S} {p : Nat} (h : n.quit p = .ok n1) :
    ∃ f, n.heap[p]? = some f ∧ f.running = true ∧ f.stopped = true ∧
      n1 = { n with heap := n.heap.set p (f.iterate .stopped) } := by
  unfold NetStore.quit at h
  split at h
  · cases h
  · rename_i f hf
    cases hr : f.running <;> cases hs : f.stopped <;> simp [hr, hs] at h
    exact ⟨f, hf, hr, hs, h.symm⟩

theorem NetStore.cancel_ok {n n1 : NetStore S} {ctx : Nat} {err : Error}
    (h : n.cancel ctx err = .ok n1) :
    n1 = n ∨ n1 = { n with done := (ctx, err) :: n.done } := by
  unfold NetStore.cancel at h
  split at h
  · cases h
  · split at h
    · simp only [Except.ok.injEq] at h
      exact Or.inl h.symm
    · simp only [Except.ok.injEq] at h
      exact Or.inr h.symm

theorem NetStore.deliver_ok {n n1 : NetStore S} {p : Nat} {ch : Chunk}
    (h : n.deliver p ch = .ok n1) :
    ∃ f, n.heap[p]? = some f ∧ f.delivered = false ∧
      n1 = { n with heap := n.heap.set p { f with chunk := some ch, delivered := true } } := by
  unfold NetStore.deliver at h
  split at h
  · cases h
  · rename_i f hf
    split at h
    · cases h
    · rename_i f1 hd
      obtain ⟨hd1, rfl⟩ := Fetcher.deliver_eq hd
      simp only [Except.ok.injEq] at h
      exact ⟨f, hf, hd1, h.symm⟩

end Steps

/-! ## The invariant of reachable states -/

section Invariant

variable {S : Type}

theorem Inv.withStore {capacity : Nat} {n : NetStore S} (h : Inv capacity n) (store : S) :
    Inv capacity { n with store := store } :=
  ⟨h.size, h.nodup, h.cached, h.removeKey, h.calls⟩

theorem Inv.withDone {capacity : Nat} {n : NetStore S} (h : Inv capacity n)
    (done : List (Nat × Error)) : Inv capacity { n with done := done } :=
  ⟨h.size, h.nodup, h.cached, h.removeKey, h.calls⟩

/-- Replacing a Fetcher by one for the same address with the same remove key. -/
theorem Inv.setHeap {capacity : Nat} {n : NetStore S} (h : Inv capacity n) {p : Nat}
    {f f1 : Fetcher} (hf : n.heap[p]? = some f) (haddr : f1.addr = f.addr)
    (hrem : f1.remove = f.remove) : Inv capacity { n with heap := n.heap.set p f1 } := by
  have hp : p < n.heap.length := (List.getElem?_eq_some.1 hf).1
  have key : ∀ (q : Nat) (g : Fetcher), (n.heap.set p f1)[q]? = some g →
      ∃ g0, n.heap[q]? = some g0 ∧ g.addr = g0.addr ∧ g.remove = g0.remove := by
    intro q g hg
    rw [List.getElem?_set] at hg
    by_cases hpq : p = q
    · subst hpq
      simp only [if_true, hp, Option.some.injEq] at hg
      subst hg
      exact ⟨f, hf, haddr, hrem⟩
    · simp only [hpq, if_false] at hg
      exact ⟨g, hg, rfl, rfl⟩
  have back : ∀ (q : Nat) (g0 : Fetcher), n.heap[q]? = some g0 →
      ∃ g, (n.heap.set p f1)[q]? = some g ∧ g.addr = g0.addr ∧ g.remove = g0.remove := by
    intro q g0 hg0
    rw [List.getElem?_set]
    by_cases hpq : p = q
    · subst hpq
      rw [hf] at hg0
      simp only [Option.some.injEq] at hg0
      subst hg0
      exact ⟨f1, by simp [hp], haddr, hrem⟩
    · exact ⟨g0, by simp [hpq, hg0], rfl, rfl⟩
  refine ⟨h.size, h.nodup, ?_, ?_, ?_⟩
  · intro e he
    obtain ⟨g0, hg0, hk⟩ := h.cached e he
    obtain ⟨g, hg, ha, _⟩ := back e.2 g0 hg0
    exact ⟨g, hg, by rw [ha]; exact hk⟩
  · intro q g hg
    obtain ⟨g0, hg0, ha, hr⟩ := key q g hg
    rw [hr, ha]
    exact h.removeKey q g0 hg0
  · intro c call hc
    have := h.calls c call hc
    simpa [List.length_set] using this

/-- Replacing a call by one on the same Fetcher. -/
theorem Inv.setCall {capacity : Nat} {n : NetStore S} (h : Inv capacity n) {c : Nat}
    {call call1 : Call} (hc : n.calls[c]? = some call) (hf : call1.f = call.f) :
    Inv capacity { n with calls := n.calls.set c call1 } := by
  refine ⟨h.size, h.nodup, h.cached, h.removeKey, ?_⟩
  intro d x hx
  rw [List.getElem?_set] at hx
  by_cases hcd : c = d
  · subst hcd
    have hlen : c < n.calls.length := (List.getElem?_eq_some.1 hc).1
    simp only [if_true, hlen, Option.some.injEq] at hx
    subst hx
    rw [hf]
    exact h.calls c call hc
  · simp only [hcd, if_false] at hx
    exact h.calls d x hx

/-- Replacing the Fetcher of a call and the call, as every statement of fetch does. -/
theorem Inv.update {capacity : Nat} {n : NetStore S} (h : Inv capacity n) {c : Nat}
    {call call1 : Call} {f f1 : Fetcher} (hc : n.calls[c]? = some call)
    (hfe : n.heap[call.f]? = some f) (hf : call1.f = call.f) (haddr : f1.addr = f.addr)
    (hrem : f1.remove = f.remove) : Inv capacity (n.update call.f f1 c call1) :=
  Inv.setCall (n := { n with heap := n.heap.set call.f f1 }) (h.setHeap hfe haddr hrem) hc hf

theorem Inv.addCall {capacity : Nat} {n : NetStore S} (h : Inv capacity n) (call : Call)
    (hf : call.f < n.heap.length) : Inv capacity { n with calls := n.calls ++ [call] } := by
  refine ⟨h.size, h.nodup, h.cached, h.removeKey, ?_⟩
  intro d x hx
  by_cases hd : d < n.calls.length
  · rw [List.getElem?_append_left hd] at hx
    exact h.calls d x hx
  · have hmem : x ∈ n.calls ++ [call] := List.mem_iff_getElem?.2 ⟨d, hx⟩
    rcases List.mem_append.1 hmem with hm | hm
    · obtain ⟨i, hi⟩ := List.mem_iff_getElem?.1 hm
      exact h.calls i x hi
    · simp only [List.mem_singleton] at hm
      subst hm
      exact hf

theorem Inv.del {capacity : Nat} {n : NetStore S} (h : Inv capacity n) (key : Key) :
    Inv capacity { n with fetchers := { n.fetchers with items := Cache.del n.fetchers.items key } } := by
  refine ⟨h.size, Cache.nodup_del _ _ h.nodup, ?_, h.removeKey, h.calls⟩
  intro e he
  exact h.cached e ((Cache.mem_del _ _ e).1 he).1

theorem Inv.toFront {capacity : Nat} {n : NetStore S} (h : Inv capacity n) (key : Key) (p : Nat)
    (hfind : Cache.find n.fetchers.items key = some p) :
    Inv capacity { n with fetchers := n.fetchers.toFront key p } := by
  refine ⟨h.size, Cache.nodup_toFront _ _ _ h.nodup, ?_, h.removeKey, h.calls⟩
  intro e he
  rcases Cache.mem_toFront _ _ _ e he with rfl | he
  · exact h.cached _ (Cache.find_eq_some _ _ _ hfind)
  · exact h.cached e he

theorem Inv.push {capacity : Nat} {n : NetStore S} (h : Inv capacity n) (ref : Address)
    (hfind : Cache.find n.fetchers.items (.str (hexEncodeToString ref)) = none) :
    Inv capacity { n with
      fetchers := n.fetchers.push (.str (hexEncodeToString ref)) n.heap.length,
      heap := n.heap ++ [NewFetcher ref (.str (hexEncodeToString ref))] } := by
  refine ⟨?_, Cache.nodup_push _ _ _ hfind h.nodup, ?_, ?_, ?_⟩
  · have := h.size
    unfold Cache.push
    split <;> exact this
  · intro e he
    rcases Cache.mem_push _ _ _ e he with rfl | he
    · exact ⟨_, List.getElem?_concat_length _ _, rfl⟩
    · obtain ⟨f, hf, hk⟩ := h.cached e he
      have hlt : e.2 < n.heap.length := (List.getElem?_eq_some.1 hf).1
      exact ⟨f, by rw [List.getElem?_append_left hlt]; exact hf, hk⟩
  · intro q g hg
    by_cases hq : q < n.heap.length
    · rw [List.getElem?_append_left hq] at hg
      exact h.removeKey q g hg
    · have hmem : g ∈ n.heap ++ [NewFetcher ref (.str (hexEncodeToString ref))] :=
        List.mem_iff_getElem?.2 ⟨q, hg⟩
      rcases List.mem_append.1 hmem with hm | hm
      · obtain ⟨i, hi⟩ := List.mem_iff_getElem?.1 hm
        exact h.removeKey i g hi
      · simp only [List.mem_singleton] at hm
        subst hm
        rfl
  · intro c call hc
    have := h.calls c call hc
    simp only [List.length_append, List.length_singleton]
    omega

theorem Except.map_eq_ok {ε α β : Type} {f : α → β} {x : Except ε α} {y : β}
    (h : Except.map f x = .ok y) : ∃ r, x = .ok r ∧ f r = y := by
  cases x with
  | error e => cases h
  | ok r =>
    simp only [Except.map, Except.ok.injEq] at h
    exact ⟨r, rfl, h⟩

theorem Inv.init {capacity : Nat} {store : S} {n : NetStore S}
    (h : NewNetStore capacity store = .ok n) : Inv capacity n := by
  unfold NewNetStore Cache.New at h
  by_cases hc : capacity = 0
  · simp [hc] at h
  · simp only [hc, if_false, Except.ok.injEq] at h
    subst h
    exact ⟨⟨rfl, Nat.pos_of_ne_zero hc⟩, by simp, by simp, by simp, by simp⟩

theorem Inv.preserved {cs : ChunkStore S} {capacity : Nat} {n n1 : NetStore S} {a : Action}
    (h : Inv capacity n) (hs : n.step cs a = .ok n1) : Inv capacity n1 := by
  cases a with
  | get ref =>
    obtain ⟨r, hr, rfl⟩ := Except.map_eq_ok hs
    rcases NetStore.get_ok hr with h1 | ⟨p, hfind, h1⟩ | ⟨hfind, h1⟩
    · rw [h1]
      exact h.withStore _
    · rw [h1]
      exact (h.toFront _ p hfind).withStore _
    · rw [h1]
      exact (h.push ref hfind).withStore _
  | Put ch =>
    obtain ⟨r, hr, rfl⟩ := Except.map_eq_ok hs
    rw [NetStore.Put_ok hr]
    exact h.withStore _
  | fetch p rctx =>
    obtain ⟨f, hf, rfl⟩ := NetStore.enter_ok hs
    have hp : p < n.heap.length := (List.getElem?_eq_some.1 hf).1
    exact Inv.addCall (n := { n with heap := n.heap.set p { f with requestCnt := f.requestCnt + 1 } })
      (h.setHeap hf rfl rfl) _ (by simpa [List.length_set] using hp)
  | submit c viaStopped =>
    obtain ⟨call, f, hc, _, hf, h1 | h1⟩ := NetStore.submit_ok hs
    · rw [h1.2.2]
      exact h.update hc hf rfl rfl rfl
    · rw [h1.2.2]
      exact h.update hc hf rfl (Fetcher.iterate_frame f _).1 (Fetcher.iterate_frame f _).2.1
  | await c viaDone =>
    obtain ⟨call, f, hc, _, hf, h1 | h1⟩ := NetStore.await_ok hs
    · obtain ⟨_, d, _, h2⟩ := h1
      rw [h2]
      exact h.update hc hf rfl rfl rfl
    · rw [h1.2.2]
      exact h.update hc hf rfl rfl rfl
  | decrement c =>
    obtain ⟨call, f, hc, _, hf, rfl⟩ := NetStore.decrement_ok hs
    exact h.update hc hf rfl rfl rfl
  | remove c =>
    obtain ⟨call, f, hc, _, hf, rfl⟩ := NetStore.remove_ok hs
    exact Inv.del (n := n.update call.f f c { call with pc := .close })
      (h.update hc hf rfl rfl rfl) f.remove
  | close c =>
    obtain ⟨call, f, hc, _, hf, _, rfl⟩ := NetStore.close_ok hs
    exact h.update hc hf rfl rfl rfl
  | forward p err =>
    obtain ⟨f, hf, _, rfl⟩ := NetStore.forward_ok hs
    exact h.setHeap hf (Fetcher.iterate_frame f _).1 (Fetcher.iterate_frame f _).2.1
  | quit p =>
    obtain ⟨f, hf, _, _, rfl⟩ := NetStore.quit_ok hs
    exact h.setHeap hf (Fetcher.iterate_frame f _).1 (Fetcher.iterate_frame f _).2.1
  | cancel ctx err =>
    rcases NetStore.cancel_ok hs with rfl | rfl
    · exact h
    · exact h.withDone _
  | deliver p ch =>
    obtain ⟨f, hf, _, rfl⟩ := NetStore.deliver_ok hs
    exact h.setHeap hf rfl rfl

theorem Reachable.inv {cs : ChunkStore S} {capacity : Nat} {store : S} {n : NetStore S}
    (h : Reachable cs capacity store n) : Inv capacity n := by
  induction h with
  | init n h0 => exact Inv.init h0
  | step n n1 a _ hs ih => exact ih.preserved hs

theorem Reachable.run {cs : ChunkStore S} {capacity : Nat} {store : S} (sched : List Action)
    {n n1 : NetStore S} (h : Reachable cs capacity store n) (hr : n.run cs sched = .ok n1) :
    Reachable cs capacity store n1 := by
  induction sched generalizing n with
  | nil =>
    simp only [NetStore.run, Except.ok.injEq] at hr
    exact hr ▸ h
  | cons a rest ih =>
    unfold NetStore.run at hr
    split at hr
    · cases hr
    · rename_i n2 hs
      exact ih (Reachable.step n n2 a h hs) hr

/-- A state reached by running a schedule on a new NetStore is reachable. -/
theorem Reachable.of_run (cs : ChunkStore S) (capacity : Nat) (store : S) (sched : List Action)
    (n0 n1 : NetStore S) (h0 : NewNetStore capacity store = .ok n0)
    (hr : n0.run cs sched = .ok n1) : Reachable cs capacity store n1 :=
  Reachable.run sched (Reachable.init n0 h0) hr

end Invariant

/-! ## Theorems: the Fetcher cache -/

section CacheTheorems

variable {S : Type}

theorem List.index_eq_of_nodup {α : Type} {l : List α} (h : l.Nodup) {i j : Nat} {a : α}
    (hi : l[i]? = some a) (hj : l[j]? = some a) : i = j := by
  have hlen_i : i < l.length := (List.getElem?_eq_some.1 hi).1
  have hlen_j : j < l.length := (List.getElem?_eq_some.1 hj).1
  rcases Nat.lt_trichotomy i j with hlt | heq | hgt
  · exact absurd (hi.trans hj.symm) (List.nodup_iff_getElem?_ne_getElem?.1 h i j hlt hlen_j)
  · exact heq
  · exact absurd (hj.trans hi.symm) (List.nodup_iff_getElem?_ne_getElem?.1 h j i hgt hlen_i)

/-- C6, evaluated on the code: with a cache of capacity 1, the Fetcher of `ab01` has a
caller waiting in `fetch` when a miss on `cd` evicts it; the next `get` of `ab01`
does not hit on this Fetcher, as the comment on `get` says it will until the chunk is
delivered or all contexts are done, but creates a second Fetcher for `ab01`. Neither
is stopped, so two live Fetchers exist for one address. -/
theorem evicted_fetcher_live_beside_new_one :
    ∃ n0 : NetStore (List Chunk),
      NewNetStore 1 [] = .ok n0 ∧
      n0.run memStore [.get addrA, .fetch 0 reqA1, .submit 0 false, .get addrB, .get addrA]
        = .ok afterEviction ∧
      Reachable memStore 1 [] afterEviction ∧
      (afterEviction.heap.map fun f => (f.addr, f.stopped, f.requestCnt))
        = [(addrA, false, 1), (addrB, false, 0), (addrA, false, 0)] ∧
      ¬ afterEviction.liveAddrs.Nodup :=
  ⟨_, rfl, rfl,
    Reachable.of_run memStore 1 []
      [.get addrA, .fetch 0 reqA1, .submit 0 false, .get addrB, .get addrA] _ _ rfl rfl,
    rfl, by decide⟩

/-- The keys of the cache in a reachable state: every entry points to a Fetcher of the
heap that was made for the address its key encodes, and two entries whose Fetchers
have the same address are the same entry. Fetchers outside the cache are not
constrained. -/
theorem cache_holds_one_fetcher_per_address {cs : ChunkStore S} {capacity : Nat} {store : S}
    {n : NetStore S} (h : Reachable cs capacity store n) :
    (∀ e ∈ n.fetchers.items,
      ∃ f, n.heap[e.2]? = some f ∧ e.1 = Key.str (hexEncodeToString f.addr)) ∧
    (∀ (i j : Nat) (e1 e2 : Key × Nat) (f g : Fetcher),
      n.fetchers.items[i]? = some e1 → n.fetchers.items[j]? = some e2 →
      n.heap[e1.2]? = some f → n.heap[e2.2]? = some g → f.addr = g.addr → i = j) := by
  have inv := h.inv
  refine ⟨inv.cached, ?_⟩
  intro i j e1 e2 f g h1 h2 hf hg haddr
  obtain ⟨f0, hf0, hk1⟩ := inv.cached e1 (List.mem_iff_getElem?.2 ⟨i, h1⟩)
  obtain ⟨g0, hg0, hk2⟩ := inv.cached e2 (List.mem_iff_getElem?.2 ⟨j, h2⟩)
  rw [hf] at hf0
  rw [hg] at hg0
  simp only [Option.some.injEq] at hf0 hg0
  subst hf0 hg0
  have hkey : e1.1 = e2.1 := by rw [hk1, hk2, haddr]
  have hi : (n.fetchers.items.map Prod.fst)[i]? = some e1.1 := by simp [h1]
  have hj : (n.fetchers.items.map Prod.fst)[j]? = some e1.1 := by simp [h2, hkey]
  exact List.index_eq_of_nodup inv.nodup hi hj

/-- The keys of the cache in the state after the eviction. -/
theorem cache_holds_one_fetcher_per_address_witness :
    Reachable memStore 1 [] afterEviction ∧
    ((∀ e ∈ afterEviction.fetchers.items,
      ∃ f, afterEviction.heap[e.2]? = some f ∧ e.1 = Key.str (hexEncodeToString f.addr)) ∧
    (∀ (i j : Nat) (e1 e2 : Key × Nat) (f g : Fetcher),
      afterEviction.fetchers.items[i]? = some e1 → afterEviction.fetchers.items[j]? = some e2 →
      afterEviction.heap[e1.2]? = some f → afterEviction.heap[e2.2]? = some g →
      f.addr = g.addr → i = j)) :=
  ⟨Reachable.of_run memStore 1 []
      [.get addrA, .fetch 0 reqA1, .submit 0 false, .get addrB, .get addrA] _ _ rfl rfl,
    cache_holds_one_fetcher_per_address
      (Reachable.of_run memStore 1 []
        [.get addrA, .fetch 0 reqA1, .submit 0 false, .get addrB, .get addrA] _ _ rfl rfl)⟩

/-- Only `get` and the remove callback touch the cache. -/
theorem NetStore.step_fetchers {cs : ChunkStore S} {n n1 : NetStore S} {a : Action}
    (hs : n.step cs a = .ok n1) (hget : ∀ ref, a ≠ .get ref) (hrem : ∀ c, a ≠ .remove c) :
    n1.fetchers = n.fetchers := by
  cases a with
  | get ref => exact absurd rfl (hget ref)
  | Put ch =>
    obtain ⟨r, hr, rfl⟩ := Except.map_eq_ok hs
    rw [NetStore.Put_ok hr]
  | fetch p rctx =>
    obtain ⟨f, _, rfl⟩ := NetStore.enter_ok hs
    rfl
  | submit c viaStopped =>
    obtain ⟨call, f, _, _, _, h1 | h1⟩ := NetStore.submit_ok hs <;> rw [h1.2.2] <;> rfl
  | await c viaDone =>
    obtain ⟨call, f, _, _, _, h1 | h1⟩ := NetStore.await_ok hs
    · obtain ⟨_, d, _, h2⟩ := h1
      rw [h2]
      rfl
    · rw [h1.2.2]
      rfl
  | decrement c =>
    obtain ⟨call, f, _, _, _, rfl⟩ := NetStore.decrement_ok hs
    rfl
  | remove c => exact absurd rfl (hrem c)
  | close c =>
    obtain ⟨call, f, _, _, _, _, rfl⟩ := NetStore.close_ok hs
    rfl
  | forward p err =>
    obtain ⟨f, _, _, rfl⟩ := NetStore.forward_ok hs
    rfl
  | quit p =>
    obtain ⟨f, _, _, _, rfl⟩ := NetStore.quit_ok hs
    rfl
  | cancel ctx err =>
    rcases NetStore.cancel_ok hs with rfl | rfl <;> rfl
  | deliver p ch =>
    obtain ⟨f, _, _, rfl⟩ := NetStore.deliver_ok hs
    rfl

theorem Cache.find_ne_none_of_mem (items : List (Key × Nat)) (e : Key × Nat) (he : e ∈ items) :
    Cache.find items e.1 ≠ none := by
  intro h
  exact (Cache.find_eq_none items e.1).1 h e he rfl

/-- An entry that `push` drops is the last, least recently used, entry of a full
cache. -/
theorem Cache.push_drops_last (c : Cache) (key : Key) (v : Nat) (e : Key × Nat)
    (he : e ∈ c.items) (hgone : Cache.find (c.push key v).items e.1 = none) :
    c.size ≤ c.items.length ∧ c.items.getLast? = some e := by
  unfold Cache.push at hgone
  split at hgone
  · rename_i hlen
    simp only [List.length_cons] at hlen
    refine ⟨by omega, ?_⟩
    have hne : c.items ≠ [] := List.ne_nil_of_mem he
    have hsplit : ((key, v) :: c.items).dropLast = (key, v) :: c.items.dropLast := by
      cases hc : c.items with
      | nil => exact absurd hc hne
      | cons x xs => rfl
    rw [hsplit] at hgone
    have hnotin : e ∉ c.items.dropLast := fun hin =>
      Cache.find_ne_none_of_mem _ e (List.mem_cons_of_mem _ hin) hgone
    have hlast := List.dropLast_append_getLast hne
    rw [← hlast] at he
    rcases List.mem_append.1 he with h1 | h1
    · exact absurd h1 hnotin
    · simp only [List.mem_singleton] at h1
      rw [List.getLast?_eq_getLast _ hne, h1]
  · exact absurd hgone (Cache.find_ne_none_of_mem _ e (List.mem_cons_of_mem _ he))

/-- C7, evaluated on the code: the cache of capacity 1 holds the Fetcher of `ab01`, whose
request counter is 1 because a caller waits in its `fetch`; a miss on `cd` adds a new
Fetcher and the entry of `ab01` leaves the cache while its counter is still 1 and its
caller still waits. -/
theorem full_cache_evicts_fetcher_with_waiter :
    ∃ n0 n2 : NetStore (List Chunk),
      NewNetStore 1 [] = .ok n0 ∧
      n0.run memStore [.get addrA, .fetch 0 reqA1, .submit 0 false] = .ok waitingA ∧
      waitingA.step memStore (.get addrB) = .ok n2 ∧
      Cache.find waitingA.fetchers.items (.str "ab01") = some 0 ∧
      Cache.find n2.fetchers.items (.str "ab01") = none ∧
      (n2.heap.map fun f => (f.addr, f.requestCnt)) = [(addrA, 1), (addrB, 0)] ∧
      (n2.calls.map fun c => (c.f, c.pc)) = [(0, PC.wait)] :=
  ⟨_, _, rfl, rfl, rfl, rfl, rfl, rfl, rfl⟩

/-- The steps in which an entry leaves the cache. Either the step is a `get` that misses
the cache and adds a new Fetcher to a full cache, and the entry is the least recently
used one, whatever the request counter of its Fetcher; or the step is the remove
callback of a fetch call at that program point, and the entry is the one under the
key of the Fetcher of that call. A decrement leaves its call at the remove callback
exactly when it leaves the counter at zero. -/
theorem cache_entry_leaves_by_eviction_or_remove {cs : ChunkStore S} {n n1 : NetStore S}
    {a : Action} (e : Key × Nat) (hs : n.step cs a = .ok n1) (he : e ∈ n.fetchers.items)
    (hgone : Cache.find n1.fetchers.items e.1 = none) :
    ((∃ ref, a = .get ref ∧
        Cache.find n.fetchers.items (.str (hexEncodeToString ref)) = none ∧
        n.fetchers.size ≤ n.fetchers.items.length ∧ n.fetchers.items.getLast? = some e) ∨
     (∃ c call f, a = .remove c ∧ n.calls[c]? = some call ∧ call.pc = .remove ∧
        n.heap[call.f]? = some f ∧ f.remove = e.1)) ∧
    (∀ c n2, n.decrement c = .ok n2 →
      ∃ call f, n2.calls[c]? = some call ∧ n2.heap[call.f]? = some f ∧
        (call.pc = .remove ↔ f.requestCnt = 0)) := by
  constructor
  · cases a with
    | get ref =>
      left
      obtain ⟨r, hr, rfl⟩ := Except.map_eq_ok hs
      rcases NetStore.get_ok hr with h1 | ⟨p, hfind, h1⟩ | ⟨hfind, h1⟩
      · rw [h1] at hgone
        exact absurd hgone (Cache.find_ne_none_of_mem _ e he)
      · rw [h1] at hgone
        exfalso
        by_cases hk : e.1 = Key.str (hexEncodeToString ref)
        · rw [hk] at hgone
          simp [Cache.toFront, Cache.find] at hgone
        · refine Cache.find_ne_none_of_mem _ e ?_ hgone
          exact List.mem_cons_of_mem _ ((Cache.mem_del _ _ e).2 ⟨he, hk⟩)
      · rw [h1] at hgone
        obtain ⟨hsize, hlast⟩ := Cache.push_drops_last n.fetchers _ _ e he hgone
        exact ⟨ref, rfl, hfind, hsize, hlast⟩
    | remove c =>
      right
      obtain ⟨call, f, hc, hpc, hf, rfl⟩ := NetStore.remove_ok hs
      refine ⟨c, call, f, rfl, hc, hpc, hf, ?_⟩
      by_contra hk
      exact Cache.find_ne_none_of_mem _ e ((Cache.mem_del _ _ e).2 ⟨he, fun h => hk h.symm⟩) hgone
    | Put ch =>
      rw [NetStore.step_fetchers hs (fun _ => by simp) (fun _ => by simp)] at hgone
      exact absurd hgone (Cache.find_ne_none_of_mem _ e he)
    | fetch p rctx =>
      rw [NetStore.step_fetchers hs (fun _ => by simp) (fun _ => by simp)] at hgone
      exact absurd hgone (Cache.find_ne_none_of_mem _ e he)
    | submit c viaStopped =>
      rw [NetStore.step_fetchers hs (fun _ => by simp) (fun _ => by simp)] at hgone
      exact absurd hgone (Cache.find_ne_none_of_mem _ e he)
    | await c viaDone =>
      rw [NetStore.step_fetchers hs (fun _ => by simp) (fun _ => by simp)] at hgone
      exact absurd hgone (Cache.find_ne_none_of_mem _ e he)
    | decrement c =>
      rw [NetStore.step_fetchers hs (fun _ => by simp) (fun _ => by simp)] at hgone
      exact absurd hgone (Cache.find_ne_none_of_mem _ e he)
    | close c =>
      rw [NetStore.step_fetchers hs (fun _ => by simp) (fun _ => by simp)] at hgone
      exact absurd hgone (Cache.find_ne_none_of_mem _ e he)
    | forward p err =>
      rw [NetStore.step_fetchers hs (fun _ => by simp) (fun _ => by simp)] at hgone
      exact absurd hgone (Cache.find_ne_none_of_mem _ e he)
    | quit p =>
      rw [NetStore.step_fetchers hs (fun _ => by simp) (fun _ => by simp)] at hgone
      exact absurd hgone (Cache.find_ne_none_of_mem _ e he)
    | cancel ctx err =>
      rw [NetStore.step_fetchers hs (fun _ => by simp) (fun _ => by simp)] at hgone
      exact absurd hgone (Cache.find_ne_none_of_mem _ e he)
    | deliver p ch =>
      rw [NetStore.step_fetchers hs (fun _ => by simp) (fun _ => by simp)] at hgone
      exact absurd hgone (Cache.find_ne_none_of_mem _ e he)
  · intro c n2 hd
    obtain ⟨call, f, hc, _, hf, rfl⟩ := NetStore.decrement_ok hd
    have hclen : c < n.calls.length := (List.getElem?_eq_some.1 hc).1
    have hflen : call.f < n.heap.length := (List.getElem?_eq_some.1 hf).1
    refine ⟨{ call with pc := if f.requestCnt - 1 = 0 then .remove else .returned },
      { f with requestCnt := f.requestCnt - 1 }, ?_, ?_, ?_⟩
    · simp [NetStore.update, List.getElem?_set, hclen]
    · simp [NetStore.update, List.getElem?_set, hflen]
    · by_cases hz : f.requestCnt - 1 = 0 <;> simp [hz]

/-- The step in which the miss on `cd` evicts the entry of `ab01` from the cache of
capacity 1. -/
theorem cache_entry_leaves_by_eviction_or_remove_witness :
    ((∃ ref, Action.get addrB = .get ref ∧
        Cache.find waitingA.fetchers.items (.str (hexEncodeToString ref)) = none ∧
        waitingA.fetchers.size ≤ waitingA.fetchers.items.length ∧
        waitingA.fetchers.items.getLast? = some (Key.str "ab01", 0)) ∨
     (∃ c call f, Action.get addrB = .remove c ∧ waitingA.calls[c]? = some call ∧
        call.pc = .remove ∧ waitingA.heap[call.f]? = some f ∧
        f.remove = (Key.str "ab01", 0).1)) ∧
    (∀ c n2, waitingA.decrement c = .ok n2 →
      ∃ call f, n2.calls[c]? = some call ∧ n2.heap[call.f]? = some f ∧
        (call.pc = .remove ↔ f.requestCnt = 0)) :=
  cache_entry_leaves_by_eviction_or_remove (Key.str "ab01", 0)
    (rfl : waitingA.step memStore (.get addrB) = .ok _) (by decide) rfl

end CacheTheorems

/-! ## hex.EncodeToString is injective -/

theorem hexDigit_inj : ∀ a b : Fin 16, hexDigit a.1 = hexDigit b.1 → a = b := by decide

theorem hexChars_inj : ∀ a b : List UInt8, hexChars a = hexChars b → a = b := by
  intro a
  induction a with
  | nil =>
    intro b h
    cases b with
    | nil => rfl
    | cons w ws => simp [hexChars] at h
  | cons v vs ih =>
    intro b h
    cases b with
    | nil => simp [hexChars] at h
    | cons w ws =>
      simp only [hexChars, List.cons.injEq] at h
      obtain ⟨h1, h2, h3⟩ := h
      have hv : v.toNat < 256 := UInt8.toNat_lt_size v
      have hw : w.toNat < 256 := UInt8.toNat_lt_size w
      have e1 := hexDigit_inj ⟨v.toNat / 16, by omega⟩ ⟨w.toNat / 16, by omega⟩ h1
      have e2 := hexDigit_inj ⟨v.toNat % 16, by omega⟩ ⟨w.toNat % 16, by omega⟩ h2
      simp only [Fin.mk.injEq] at e1 e2
      have hvw : v = w := UInt8.ext (by omega)
      rw [hvw, ih ws h3]

theorem hexEncodeToString_inj (a b : Address)
    (h : Key.str (hexEncodeToString a) = Key.str (hexEncodeToString b)) : a = b := by
  simp only [hexEncodeToString, Key.str.injEq] at h
  exact hexChars_inj a b (by injection h)

/-! ## The life of one Fetcher -/

section CleanupProofs

variable {S : Type}

theorem List.countP_set_add {α : Type} (P : α → Bool) (l : List α) (i : Nat) (a old : α)
    (h : l[i]? = some old) :
    (l.set i a).countP P + (if P old = true then 1 else 0)
      = l.countP P + (if P a = true then 1 else 0) := by
  induction l generalizing i with
  | nil => simp at h
  | cons x xs ih =>
    cases i with
    | zero =>
      simp only [List.getElem?_cons_zero, Option.some.injEq] at h
      subst h
      simp only [List.set_cons_zero, List.countP_cons]
      omega
    | succ k =>
      simp only [List.getElem?_cons_succ] at h
      have := ih k h
      simp only [List.set_cons_succ, List.countP_cons]
      omega

theorem NetStore.callsAt_update (n : NetStore S) (q : Nat) (f1 : Fetcher) (c : Nat)
    (call call1 : Call) (hc : n.calls[c]? = some call) (p : Nat) (pc : PC) :
    (n.update q f1 c call1).callsAt p pc + (if call.f = p ∧ call.pc = pc then 1 else 0)
      = n.callsAt p pc + (if call1.f = p ∧ call1.pc = pc then 1 else 0) := by
  have h := List.countP_set_add (fun x : Call => decide (x.f = p ∧ x.pc = pc)) n.calls c call1 call hc
  simpa [NetStore.callsAt, NetStore.update] using h

/-- A replaced call on another Fetcher leaves the counts of the Fetcher at `p` alone. -/
theorem NetStore.callsAt_update_other (n : NetStore S) (q : Nat) (f1 : Fetcher) (c : Nat)
    (call call1 : Call) (hc : n.calls[c]? = some call) (p : Nat) (pc : PC)
    (h : call.f ≠ p) (h1 : call1.f = call.f) :
    (n.update q f1 c call1).callsAt p pc = n.callsAt p pc := by
  have := NetStore.callsAt_update n q f1 c call call1 hc p pc
  simpa [h, h1] using this

theorem NetStore.heap_update (n : NetStore S) (q : Nat) (f1 : Fetcher) (c : Nat) (call1 : Call)
    (hq : q < n.heap.length) (p : Nat) :
    (n.update q f1 c call1).heap[p]? = if q = p then some f1 else n.heap[p]? := by
  simp only [NetStore.update, List.getElem?_set, hq, if_true]

theorem Cleanup.mono {n n1 : NetStore S} {p : Nat} {key : Key} (h : Cleanup n p key)
    (hheap : ∀ f, n.heap[p]? = some f → ∃ f1, n1.heap[p]? = some f1 ∧ f1.remove = f.remove ∧
      f1.requestCnt = f.requestCnt ∧ (f.stopped = true → f1.stopped = true))
    (hactive : n1.active p = n.active p)
    (hR : n1.callsAt p .remove = n.callsAt p .remove)
    (hC : n1.callsAt p .close = n.callsAt p .close)
    (hD : n1.callsAt p .returned = n.callsAt p .returned)
    (hfind : Cache.find n.fetchers.items key = none → Cache.find n1.fetchers.items key = none) :
    Cleanup n1 p key := by
  obtain ⟨f, hf, hrem, hcnt, hzero⟩ := h
  obtain ⟨f1, hf1, hrem1, hcnt1, hstop1⟩ := hheap f hf
  refine ⟨f1, hf1, hrem1.trans hrem, by rw [hcnt1, hcnt, hactive], ?_⟩
  intro ha hpos
  rw [hactive] at ha
  rw [hR, hC, hD] at hpos
  rcases hzero ha hpos with h1 | ⟨h1, h2⟩
  · exact Or.inl (by rw [hR]; exact h1)
  · refine Or.inr ⟨hfind h1, ?_⟩
    rcases h2 with h2 | h2
    · exact Or.inl (by rw [hC]; exact h2)
    · exact Or.inr (hstop1 h2)

/-- A step that replaces a Fetcher by one with the same counter, flags and key and
leaves calls and cache alone. -/
theorem Cleanup.after_setHeap {n : NetStore S} {p : Nat} {key : Key} (h : Cleanup n p key) (q : Nat)
    (f f1 : Fetcher) (hf : n.heap[q]? = some f) (hrem : f1.remove = f.remove)
    (hcnt : f1.requestCnt = f.requestCnt) (hstop : f1.stopped = f.stopped) :
    Cleanup { n with heap := n.heap.set q f1 } p key := by
  have hq : q < n.heap.length := (List.getElem?_eq_some.1 hf).1
  refine h.mono ?_ rfl rfl rfl rfl (fun x => x)
  intro g hg
  by_cases hqp : q = p
  · subst hqp
    rw [hf] at hg
    simp only [Option.some.injEq] at hg
    subst hg
    exact ⟨f1, by simp [List.getElem?_set, hq], hrem, hcnt, fun hs => hstop.trans hs⟩
  · exact ⟨g, by simp [List.getElem?_set, hqp, hg], rfl, rfl, fun hs => hs⟩

/-- A statement of fetch run by a call on another Fetcher. -/
theorem Cleanup.after_other {n : NetStore S} {p : Nat} {key : Key} (h : Cleanup n p key)
    {c : Nat} {call call1 : Call} {f f1 : Fetcher} (hc : n.calls[c]? = some call)
    (hf : n.heap[call.f]? = some f) (hcf : call1.f = call.f) (hne : call.f ≠ p) :
    Cleanup (n.update call.f f1 c call1) p key := by
  have hq : call.f < n.heap.length := (List.getElem?_eq_some.1 hf).1
  refine h.mono ?_ ?_ ?_ ?_ ?_ (fun x => x)
  · intro g hg
    exact ⟨g, by rw [NetStore.heap_update n _ _ _ _ hq, if_neg hne]; exact hg, rfl, rfl, fun hs => hs⟩
  · simp only [NetStore.active, NetStore.callsAt_update_other n _ f1 c call call1 hc p _ hne hcf]
  · exact NetStore.callsAt_update_other n _ f1 c call call1 hc p _ hne hcf
  · exact NetStore.callsAt_update_other n _ f1 c call call1 hc p _ hne hcf
  · exact NetStore.callsAt_update_other n _ f1 c call call1 hc p _ hne hcf

theorem Cache.find_toFront_none (c : Cache) (key k : Key) (v : Nat) (hk : key ≠ k)
    (h : Cache.find c.items k = none) : Cache.find (c.toFront key v).items k = none := by
  rw [Cache.find_eq_none] at h ⊢
  intro e he
  rcases Cache.mem_toFront c key v e he with rfl | he
  · exact hk
  · exact h e he

theorem Cache.find_push_none (c : Cache) (key k : Key) (v : Nat) (hk : key ≠ k)
    (h : Cache.find c.items k = none) : Cache.find (c.push key v).items k = none := by
  rw [Cache.find_eq_none] at h ⊢
  intro e he
  rcases Cache.mem_push c key v e he with rfl | he
  · exact hk
  · exact h e he

/-- The counts of the Fetcher of a call at the six program points, after the call has
been replaced by one on the same Fetcher. -/
theorem NetStore.counts_update (n : NetStore S) (f1 : Fetcher) (c : Nat) (call call1 : Call)
    (hc : n.calls[c]? = some call) (hcf : call1.f = call.f) (pc : PC) :
    (n.update call.f f1 c call1).callsAt call.f pc + (if call.pc = pc then 1 else 0)
      = n.callsAt call.f pc + (if call1.pc = pc then 1 else 0) := by
  have := NetStore.callsAt_update n call.f f1 c call call1 hc call.f pc
  simpa [hcf] using this

/-- A statement of fetch that takes a call from one program point before the decrement
to another, on the Fetcher watched. -/
theorem Cleanup.after_select {n : NetStore S} {key : Key} {c : Nat} {call call1 : Call}
    {f f1 : Fetcher} (h : Cleanup n call.f key) (hc : n.calls[c]? = some call)
    (hf : n.heap[call.f]? = some f) (hcf : call1.f = call.f)
    (hpc : (call.pc = .submit ∧ call1.pc = .wait) ∨ (call.pc = .wait ∧ call1.pc = .exit))
    (hrem : f1.remove = f.remove) (hcnt : f1.requestCnt = f.requestCnt)
    (hstop : f1.stopped = f.stopped) : Cleanup (n.update call.f f1 c call1) call.f key := by
  have hq : call.f < n.heap.length := (List.getElem?_eq_some.1 hf).1
  have e1 := NetStore.counts_update n f1 c call call1 hc hcf .submit
  have e2 := NetStore.counts_update n f1 c call call1 hc hcf .wait
  have e3 := NetStore.counts_update n f1 c call call1 hc hcf .exit
  have e4 := NetStore.counts_update n f1 c call call1 hc hcf .remove
  have e5 := NetStore.counts_update n f1 c call call1 hc hcf .close
  have e6 := NetStore.counts_update n f1 c call call1 hc hcf .returned
  refine h.mono ?_ ?_ ?_ ?_ ?_ (fun x => x)
  · intro g hg
    rw [hf] at hg
    simp only [Option.some.injEq] at hg
    subst hg
    exact ⟨f1, by rw [NetStore.heap_update n _ _ _ _ hq, if_pos rfl], hrem, hcnt,
      fun hs => hstop.trans hs⟩
  · unfold NetStore.active
    rcases hpc with ⟨h1, h2⟩ | ⟨h1, h2⟩ <;> simp [h1, h2] at e1 e2 e3 <;> omega
  · rcases hpc with ⟨h1, h2⟩ | ⟨h1, h2⟩ <;> simp [h1, h2] at e4 <;> omega
  · rcases hpc with ⟨h1, h2⟩ | ⟨h1, h2⟩ <;> simp [h1, h2] at e5 <;> omega
  · rcases hpc with ⟨h1, h2⟩ | ⟨h1, h2⟩ <;> simp [h1, h2] at e6 <;> omega

/-- The decrement of a call on the Fetcher watched. -/
theorem Cleanup.after_decrement {n : NetStore S} {key : Key} {c : Nat} {call : Call} {f : Fetcher}
    (h : Cleanup n call.f key) (hc : n.calls[c]? = some call) (hpc : call.pc = .exit)
    (hf : n.heap[call.f]? = some f) :
    Cleanup (n.update call.f { f with requestCnt := f.requestCnt - 1 } c
      { call with pc := if f.requestCnt - 1 = 0 then .remove else .returned }) call.f key := by
  have hq : call.f < n.heap.length := (List.getElem?_eq_some.1 hf).1
  obtain ⟨g, hg, hrem, hcnt, _⟩ := h
  rw [hf] at hg
  simp only [Option.some.injEq] at hg
  subst hg
  have e1 := NetStore.counts_update n { f with requestCnt := f.requestCnt - 1 } c call
    { call with pc := if f.requestCnt - 1 = 0 then .remove else .returned } hc rfl .submit
  have e2 := NetStore.counts_update n { f with requestCnt := f.requestCnt - 1 } c call
    { call with pc := if f.requestCnt - 1 = 0 then .remove else .returned } hc rfl .wait
  have e3 := NetStore.counts_update n { f with requestCnt := f.requestCnt - 1 } c call
    { call with pc := if f.requestCnt - 1 = 0 then .remove else .returned } hc rfl .exit
  have e4 := NetStore.counts_update n { f with requestCnt := f.requestCnt - 1 } c call
    { call with pc := if f.requestCnt - 1 = 0 then .remove else .returned } hc rfl .remove
  unfold NetStore.active at hcnt
  refine ⟨{ f with requestCnt := f.requestCnt - 1 },
    by rw [NetStore.heap_update n _ _ _ _ hq, if_pos rfl], hrem, ?_, ?_⟩
  · unfold NetStore.active
    by_cases hz : f.requestCnt - 1 = 0 <;> simp [hpc, hz] at e1 e2 e3 ⊢ <;> omega
  · unfold NetStore.active
    intro ha _
    left
    by_cases hz : f.requestCnt - 1 = 0
    · simp [hpc, hz] at e4 ⊢
      omega
    · exfalso
      simp [hpc, hz] at e1 e2 e3 ha
      omega

/-- The remove callback of a call on the Fetcher watched. -/
theorem Cleanup.after_remove {n : NetStore S} {c : Nat} {call : Call} {f : Fetcher}
    (h : Cleanup n call.f f.remove) (hc : n.calls[c]? = some call) (hpc : call.pc = .remove)
    (hf : n.heap[call.f]? = some f) :
    Cleanup { n.update call.f f c { call with pc := .close } with
      fetchers := { n.fetchers with items := Cache.del n.fetchers.items f.remove } }
      call.f f.remove := by
  have hq : call.f < n.heap.length := (List.getElem?_eq_some.1 hf).1
  obtain ⟨g, hg, hrem, hcnt, _⟩ := h
  rw [hf] at hg
  simp only [Option.some.injEq] at hg
  subst hg
  have e1 := NetStore.counts_update n f c call { call with pc := .close } hc rfl .submit
  have e2 := NetStore.counts_update n f c call { call with pc := .close } hc rfl .wait
  have e3 := NetStore.counts_update n f c call { call with pc := .close } hc rfl .exit
  have e5 := NetStore.counts_update n f c call { call with pc := .close } hc rfl .close
  simp [hpc] at e1 e2 e3 e5
  refine ⟨f, ?_, rfl, ?_, ?_⟩
  · show (n.update call.f f c { call with pc := .close }).heap[call.f]? = some f
    rw [NetStore.heap_update n _ _ _ _ hq, if_pos rfl]
  · show f.requestCnt = ((n.update call.f f c { call with pc := .close }).active call.f : Int)
    unfold NetStore.active at hcnt ⊢
    omega
  · intro _ _
    right
    refine ⟨Cache.find_del_self _ _, Or.inl ?_⟩
    show 0 < (n.update call.f f c { call with pc := .close }).callsAt call.f .close
    omega

/-- The close of the stop channel by a call on the Fetcher watched. -/
theorem Cleanup.after_close {n : NetStore S} {key : Key} {c : Nat} {call : Call} {f : Fetcher}
    (h : Cleanup n call.f key) (hc : n.calls[c]? = some call) (hpc : call.pc = .close)
    (hf : n.heap[call.f]? = some f) :
    Cleanup (n.update call.f { f with stopped := true } c { call with pc := .returned })
      call.f key := by
  have hq : call.f < n.heap.length := (List.getElem?_eq_some.1 hf).1
  obtain ⟨g, hg, hrem, hcnt, hzero⟩ := h
  rw [hf] at hg
  simp only [Option.some.injEq] at hg
  subst hg
  have e1 := NetStore.counts_update n { f with stopped := true } c call
    { call with pc := .returned } hc rfl .submit
  have e2 := NetStore.counts_update n { f with stopped := true } c call
    { call with pc := .returned } hc rfl .wait
  have e3 := NetStore.counts_update n { f with stopped := true } c call
    { call with pc := .returned } hc rfl .exit
  have e4 := NetStore.counts_update n { f with stopped := true } c call
    { call with pc := .returned } hc rfl .remove
  have e5 := NetStore.counts_update n { f with stopped := true } c call
    { call with pc := .returned } hc rfl .close
  simp [hpc] at e1 e2 e3 e4 e5
  refine ⟨{ f with stopped := true }, by rw [NetStore.heap_update n _ _ _ _ hq, if_pos rfl],
    hrem, ?_, ?_⟩
  · unfold NetStore.active at hcnt ⊢
    simp only
    omega
  · intro ha _
    have ha0 : n.active call.f = 0 := by
      unfold NetStore.active at ha ⊢
      omega
    rcases hzero ha0 (by omega) with h1 | ⟨h1, _⟩
    · exact Or.inl (by omega)
    · exact Or.inr ⟨h1, Or.inr rfl⟩

/-- A caller entering `fetch`. -/
theorem Cleanup.after_enter {n : NetStore S} {p : Nat} {key : Key} (h : Cleanup n p key) (q : Nat)
    (rctx : Request) (f : Fetcher) (hf : n.heap[q]? = some f) :
    Cleanup { n with heap := n.heap.set q { f with requestCnt := f.requestCnt + 1 },
                     calls := n.calls ++
                       [{ f := q, rctx := rctx, pc := .submit, chunk := none, err := .nil }] }
      p key := by
  have hq : q < n.heap.length := (List.getElem?_eq_some.1 hf).1
  by_cases hqp : q = p
  · subst hqp
    obtain ⟨g, hg, hrem, hcnt, _⟩ := h
    rw [hf] at hg
    simp only [Option.some.injEq] at hg
    subst hg
    refine ⟨{ f with requestCnt := f.requestCnt + 1 }, by simp [List.getElem?_set, hq], hrem, ?_, ?_⟩
    · simp only [NetStore.active, NetStore.callsAt, List.countP_append] at hcnt ⊢
      simp at hcnt ⊢
      omega
    · intro ha
      exfalso
      simp only [NetStore.active, NetStore.callsAt, List.countP_append] at ha
      simp at ha
  · refine h.mono ?_ ?_ ?_ ?_ ?_ (fun x => x)
    · intro g hg
      exact ⟨g, by simp [List.getElem?_set, hqp, hg], rfl, rfl, fun hs => hs⟩
    · simp [NetStore.active, NetStore.callsAt, List.countP_append, hqp]
    · simp [NetStore.callsAt, List.countP_append, hqp]
    · simp [NetStore.callsAt, List.countP_append, hqp]
    · simp [NetStore.callsAt, List.countP_append, hqp]

/-- Every step other than a `get` of the address of the Fetcher keeps what Cleanup
says. -/
theorem Cleanup.after_step {cs : ChunkStore S} {n n1 : NetStore S} {a : Action} {p : Nat}
    {ref0 : Address} (h : Cleanup n p (.str (hexEncodeToString ref0)))
    (hs : n.step cs a = .ok n1) (hget : a ≠ .get ref0) :
    Cleanup n1 p (.str (hexEncodeToString ref0)) := by
  cases a with
  | get ref =>
    have hk : Key.str (hexEncodeToString ref) ≠ Key.str (hexEncodeToString ref0) := by
      intro hk
      exact hget (by rw [hexEncodeToString_inj ref ref0 hk])
    obtain ⟨r, hr, rfl⟩ := Except.map_eq_ok hs
    rcases NetStore.get_ok hr with h1 | ⟨q, _, h1⟩ | ⟨_, h1⟩
    · rw [h1]
      exact h.mono (fun f hf => ⟨f, hf, rfl, rfl, fun x => x⟩) rfl rfl rfl rfl (fun x => x)
    · rw [h1]
      exact h.mono (fun f hf => ⟨f, hf, rfl, rfl, fun x => x⟩) rfl rfl rfl rfl
        (Cache.find_toFront_none _ _ _ _ hk)
    · rw [h1]
      refine h.mono ?_ rfl rfl rfl rfl (Cache.find_push_none _ _ _ _ hk)
      intro f hf
      have hlt : p < n.heap.length := (List.getElem?_eq_some.1 hf).1
      exact ⟨f, by simp only [List.getElem?_append_left hlt, hf], rfl, rfl, fun x => x⟩
  | Put ch =>
    obtain ⟨r, hr, rfl⟩ := Except.map_eq_ok hs
    rw [NetStore.Put_ok hr]
    exact h.mono (fun f hf => ⟨f, hf, rfl, rfl, fun x => x⟩) rfl rfl rfl rfl (fun x => x)
  | fetch q rctx =>
    obtain ⟨f, hf, rfl⟩ := NetStore.enter_ok hs
    exact h.after_enter q rctx f hf
  | submit c viaStopped =>
    obtain ⟨call, f, hc, hpc, hf, h1 | h1⟩ := NetStore.submit_ok hs
    · rw [h1.2.2]
      by_cases hp : call.f = p
      · subst hp
        exact h.after_select hc hf rfl (Or.inl ⟨hpc, rfl⟩) rfl rfl rfl
      · exact h.after_other hc hf rfl hp
    · rw [h1.2.2]
      by_cases hp : call.f = p
      · subst hp
        exact h.after_select hc hf rfl (Or.inl ⟨hpc, rfl⟩) (Fetcher.iterate_frame f _).2.1
          (Fetcher.iterate_frame f _).2.2.1 (Fetcher.iterate_frame f _).2.2.2.1
      · exact h.after_other hc hf rfl hp
  | await c viaDone =>
    obtain ⟨call, f, hc, hpc, hf, h1 | h1⟩ := NetStore.await_ok hs
    · obtain ⟨_, d, _, h2⟩ := h1
      rw [h2]
      by_cases hp : call.f = p
      · subst hp
        exact h.after_select hc hf rfl (Or.inr ⟨hpc, rfl⟩) rfl rfl rfl
      · exact h.after_other hc hf rfl hp
    · rw [h1.2.2]
      by_cases hp : call.f = p
      · subst hp
        exact h.after_select hc hf rfl (Or.inr ⟨hpc, rfl⟩) rfl rfl rfl
      · exact h.after_other hc hf rfl hp
  | decrement c =>
    obtain ⟨call, f, hc, hpc, hf, rfl⟩ := NetStore.decrement_ok hs
    by_cases hp : call.f = p
    · subst hp
      exact h.after_decrement hc hpc hf
    · exact h.after_other hc hf rfl hp
  | remove c =>
    obtain ⟨call, f, hc, hpc, hf, rfl⟩ := NetStore.remove_ok hs
    by_cases hp : call.f = p
    · subst hp
      have hkey : f.remove = Key.str (hexEncodeToString ref0) := by
        obtain ⟨g, hg, hrem, _⟩ := h
        rw [hf] at hg
        simp only [Option.some.injEq] at hg
        rw [hg]
        exact hrem
      rw [← hkey] at h ⊢
      exact h.after_remove hc hpc hf
    · have h2 : Cleanup (n.update call.f f c { call with pc := .close }) p
          (.str (hexEncodeToString ref0)) := h.after_other hc hf rfl hp
      exact h2.mono (fun g hg => ⟨g, hg, rfl, rfl, fun x => x⟩) rfl rfl rfl rfl
        (Cache.find_del_none _ _ _)
  | close c =>
    obtain ⟨call, f, hc, hpc, hf, _, rfl⟩ := NetStore.close_ok hs
    by_cases hp : call.f = p
    · subst hp
      exact h.after_close hc hpc hf
    · exact h.after_other hc hf rfl hp
  | forward q err =>
    obtain ⟨f, hf, _, rfl⟩ := NetStore.forward_ok hs
    exact h.after_setHeap q f _ hf (Fetcher.iterate_frame f _).2.1 (Fetcher.iterate_frame f _).2.2.1
      (Fetcher.iterate_frame f _).2.2.2.1
  | quit q =>
    obtain ⟨f, hf, _, _, rfl⟩ := NetStore.quit_ok hs
    exact h.after_setHeap q f _ hf (Fetcher.iterate_frame f _).2.1 (Fetcher.iterate_frame f _).2.2.1
      (Fetcher.iterate_frame f _).2.2.2.1
  | cancel ctx err =>
    rcases NetStore.cancel_ok hs with rfl | rfl
    · exact h
    · exact h.mono (fun f hf => ⟨f, hf, rfl, rfl, fun x => x⟩) rfl rfl rfl rfl (fun x => x)
  | deliver q ch =>
    obtain ⟨f, hf, _, rfl⟩ := NetStore.deliver_ok hs
    exact h.after_setHeap q f _ hf rfl rfl rfl

/-- A schedule without a `get` of the address of the Fetcher keeps what Cleanup says. -/
theorem Cleanup.after_run {cs : ChunkStore S} {p : Nat} {ref0 : Address} (sched : List Action)
    {n n1 : NetStore S} (h : Cleanup n p (.str (hexEncodeToString ref0)))
    (hr : n.run cs sched = .ok n1) (hget : ∀ a ∈ sched, a ≠ .get ref0) :
    Cleanup n1 p (.str (hexEncodeToString ref0)) := by
  induction sched generalizing n with
  | nil =>
    simp only [NetStore.run, Except.ok.injEq] at hr
    exact hr ▸ h
  | cons a rest ih =>
    unfold NetStore.run at hr
    split at hr
    · cases hr
    · rename_i n2 hs
      exact ih (h.after_step hs (hget a (List.mem_cons_self _ _))) hr
        (fun b hb => hget b (List.mem_cons_of_mem _ hb))

/-- Replacing a Fetcher by one with the same address keeps the address at every place
of the heap. -/
theorem NetStore.heap_set_addr (heap : List Fetcher) (p : Nat) (f0 f1 : Fetcher)
    (hp : heap[p]? = some f0) (ha : f1.addr = f0.addr) (q : Nat) (f : Fetcher)
    (hq : heap[q]? = some f) : ∃ g, (heap.set p f1)[q]? = some g ∧ g.addr = f.addr := by
  by_cases h : p = q
  · subst h
    have hlt : p < heap.length := (List.getElem?_eq_some.1 hp).1
    rw [hp] at hq
    simp only [Option.some.injEq] at hq
    subst hq
    exact ⟨f1, by simp [List.getElem?_set, hlt], ha⟩
  · exact ⟨f, by simp [List.getElem?_set, h, hq], rfl⟩

/-- No step takes a Fetcher off the heap or changes its address. -/
theorem NetStore.step_heap_addr {cs : ChunkStore S} {n n1 : NetStore S} {a : Action}
    (hs : n.step cs a = .ok n1) (q : Nat) (f : Fetcher) (hq : n.heap[q]? = some f) :
    ∃ g, n1.heap[q]? = some g ∧ g.addr = f.addr := by
  cases a with
  | get ref =>
    obtain ⟨r, hr, rfl⟩ := Except.map_eq_ok hs
    rcases NetStore.get_ok hr with h1 | ⟨p, _, h1⟩ | ⟨_, h1⟩
    · rw [h1]
      exact ⟨f, hq, rfl⟩
    · rw [h1]
      exact ⟨f, hq, rfl⟩
    · rw [h1]
      have hlt : q < n.heap.length := (List.getElem?_eq_some.1 hq).1
      exact ⟨f, by simp only [List.getElem?_append_left hlt, hq], rfl⟩
  | Put ch =>
    obtain ⟨r, hr, rfl⟩ := Except.map_eq_ok hs
    rw [NetStore.Put_ok hr]
    exact ⟨f, hq, rfl⟩
  | fetch p rctx =>
    obtain ⟨f0, hf0, rfl⟩ := NetStore.enter_ok hs
    refine NetStore.heap_set_addr n.heap p f0 _ hf0 ?_ q f hq
    rfl
  | submit c viaStopped =>
    obtain ⟨call, f0, _, _, hf0, h1 | h1⟩ := NetStore.submit_ok hs
    · rw [h1.2.2]
      refine NetStore.heap_set_addr n.heap call.f f0 _ hf0 ?_ q f hq
      rfl
    · rw [h1.2.2]
      exact NetStore.heap_set_addr n.heap call.f f0 _ hf0 (Fetcher.iterate_frame f0 _).1 q f hq
  | await c viaDone =>
    obtain ⟨call, f0, _, _, hf0, h1 | h1⟩ := NetStore.await_ok hs
    · obtain ⟨_, d, _, h2⟩ := h1
      rw [h2]
      refine NetStore.heap_set_addr n.heap call.f f0 _ hf0 ?_ q f hq
      rfl
    · rw [h1.2.2]
      refine NetStore.heap_set_addr n.heap call.f f0 _ hf0 ?_ q f hq
      rfl
  | decrement c =>
    obtain ⟨call, f0, _, _, hf0, rfl⟩ := NetStore.decrement_ok hs
    refine NetStore.heap_set_addr n.heap call.f f0 _ hf0 ?_ q f hq
    rfl
  | remove c =>
    obtain ⟨call, f0, _, _, hf0, rfl⟩ := NetStore.remove_ok hs
    refine NetStore.heap_set_addr n.heap call.f f0 _ hf0 ?_ q f hq
    rfl
  | close c =>
    obtain ⟨call, f0, _, _, hf0, _, rfl⟩ := NetStore.close_ok hs
    refine NetStore.heap_set_addr n.heap call.f f0 _ hf0 ?_ q f hq
    rfl
  | forward p err =>
    obtain ⟨f0, hf0, _, rfl⟩ := NetStore.forward_ok hs
    exact NetStore.heap_set_addr n.heap p f0 _ hf0 (Fetcher.iterate_frame f0 _).1 q f hq
  | quit p =>
    obtain ⟨f0, hf0, _, _, rfl⟩ := NetStore.quit_ok hs
    exact NetStore.heap_set_addr n.heap p f0 _ hf0 (Fetcher.iterate_frame f0 _).1 q f hq
  | cancel ctx err =>
    rcases NetStore.cancel_ok hs with rfl | rfl <;> exact ⟨f, hq, rfl⟩
  | deliver p ch =>
    obtain ⟨f0, hf0, _, rfl⟩ := NetStore.deliver_ok hs
    refine NetStore.heap_set_addr n.heap p f0 _ hf0 ?_ q f hq
    rfl

/-- No schedule takes a Fetcher off the heap or changes its address. -/
theorem NetStore.run_heap_addr {cs : ChunkStore S} (sched : List Action) {n n2 : NetStore S}
    (hr : n.run cs sched = .ok n2) (q : Nat) (f : Fetcher) (hq : n.heap[q]? = some f) :
    ∃ g, n2.heap[q]? = some g ∧ g.addr = f.addr := by
  induction sched generalizing n f with
  | nil =>
    simp only [NetStore.run, Except.ok.injEq] at hr
    exact hr ▸ ⟨f, hq, rfl⟩
  | cons a rest ih =>
    unfold NetStore.run at hr
    split at hr
    · cases hr
    · rename_i n1 hs
      obtain ⟨g, hg, hga⟩ := NetStore.step_heap_addr hs q f hq
      obtain ⟨g2, hg2, hg2a⟩ := ih hr g hg
      exact ⟨g2, hg2, hg2a.trans hga⟩

/-- A schedule at the end of which no Fetcher made after the one at `p` is for its
address keeps what Cleanup says: a `get` of the address in it has found the chunk in
the store or a Fetcher in the cache, for one that misses both makes such a Fetcher. -/
theorem Cleanup.after_run_sole {cs : ChunkStore S} {p : Nat} {ref0 : Address}
    (sched : List Action) {n n2 : NetStore S} (h : Cleanup n p (.str (hexEncodeToString ref0)))
    (hr : n.run cs sched = .ok n2) (hsole : ∀ f ∈ n2.heap.drop (p + 1), f.addr ≠ ref0) :
    Cleanup n2 p (.str (hexEncodeToString ref0)) := by
  induction sched generalizing n with
  | nil =>
    simp only [NetStore.run, Except.ok.injEq] at hr
    exact hr ▸ h
  | cons a rest ih =>
    unfold NetStore.run at hr
    split at hr
    · cases hr
    · rename_i n1 hs
      by_cases hget : a = .get ref0
      · subst hget
        obtain ⟨r, hr1, rfl⟩ := Except.map_eq_ok hs
        rcases NetStore.get_ok hr1 with h1 | ⟨q, hfind, h1⟩ | ⟨_, h1⟩
        · have hc : Cleanup r.1 p (.str (hexEncodeToString ref0)) := by
            rw [h1]
            exact h.mono (fun f hf => ⟨f, hf, rfl, rfl, fun x => x⟩) rfl rfl rfl rfl (fun x => x)
          exact ih hc hr
        · have hc : Cleanup r.1 p (.str (hexEncodeToString ref0)) := by
            rw [h1]
            refine h.mono (fun f hf => ⟨f, hf, rfl, rfl, fun x => x⟩) rfl rfl rfl rfl ?_
            intro hnone
            rw [hfind] at hnone
            cases hnone
          exact ih hc hr
        · exfalso
          obtain ⟨f, hf, _⟩ := h
          have hlt : p < n.heap.length := (List.getElem?_eq_some.1 hf).1
          have hq : r.1.heap[n.heap.length]?
              = some (NewFetcher ref0 (.str (hexEncodeToString ref0))) := by
            rw [h1]
            exact List.getElem?_concat_length _ _
          obtain ⟨g, hg, hga⟩ := NetStore.run_heap_addr rest hr n.heap.length _ hq
          have hmem : g ∈ n2.heap.drop (p + 1) := by
            refine List.mem_iff_getElem?.2 ⟨n.heap.length - (p + 1), ?_⟩
            rw [List.getElem?_drop, ← hg]
            congr 1
            omega
          exact hsole g hmem hga
      · exact ih (h.after_step hs hget) hr

end CleanupProofs

/-! ## Theorems: self-cleanup of a Fetcher -/

section SelfCleanup

variable {S : Type}

/-- A `get` that misses store and cache appends a new Fetcher and caches it. -/
theorem NetStore.step_get_new {cs : ChunkStore S} {n n1 : NetStore S} {ref : Address}
    (hmiss : (cs.Get n.store ref).2.2 ≠ .nil)
    (hnew : Cache.find n.fetchers.items (.str (hexEncodeToString ref)) = none)
    (hget : n.step cs (.get ref) = .ok n1) :
    n1 = { n with store := (cs.Get n.store ref).1,
                  fetchers := n.fetchers.push (.str (hexEncodeToString ref)) n.heap.length,
                  heap := n.heap ++ [NewFetcher ref (.str (hexEncodeToString ref))] } := by
  obtain ⟨r, hr, rfl⟩ := Except.map_eq_ok hget
  rw [NetStore.get_miss cs n ref hmiss _ _
    (NetStore.getOrCreateFetcher_new { n with store := (cs.Get n.store ref).1 } ref hnew)] at hr
  simp only [Except.ok.injEq] at hr
  rw [← hr]

/-- A Fetcher just appended to the heap of a reachable state has no fetch calls. -/
theorem Cleanup.of_new {capacity : Nat} {n : NetStore S} (inv : Inv capacity n) (store : S)
    (fetchers : Cache) (ref : Address) :
    Cleanup { n with store := store, fetchers := fetchers,
                     heap := n.heap ++ [NewFetcher ref (.str (hexEncodeToString ref))] }
      n.heap.length (.str (hexEncodeToString ref)) := by
  have hzero : ∀ pc, NetStore.callsAt
      { n with store := store, fetchers := fetchers,
               heap := n.heap ++ [NewFetcher ref (.str (hexEncodeToString ref))] }
      n.heap.length pc = 0 := by
    intro pc
    unfold NetStore.callsAt
    rw [List.countP_eq_zero]
    intro c hc
    obtain ⟨i, hi⟩ := List.mem_iff_getElem?.1 hc
    have := inv.calls i c hi
    simp only [decide_eq_true_eq, not_and]
    intro hcf
    omega
  refine ⟨NewFetcher ref (.str (hexEncodeToString ref)), List.getElem?_concat_length _ _, rfl,
    ?_, ?_⟩
  · simp only [NetStore.active, hzero]
    simp [NewFetcher]
  · intro _ hpos
    simp [hzero] at hpos

/-- C8: a missed `get` of an address creates its Fetcher; from there any schedule runs,
in which further callers of `Get` and `Has` may run their `get` of the address and
find the Fetcher in the cache; at its end N >= 1 fetch calls have been made on the
Fetcher, all have returned, and no other call has started in between: no Fetcher made
after this one is for the address. Then the cache has no entry for the address, the
stop channel of the Fetcher is closed, and the next `Get` of the address that misses
the store creates a new Fetcher. -/
theorem fetcher_self_cleanup {cs : ChunkStore S} {capacity : Nat} {store : S}
    {n0 n1 n2 : NetStore S} (a : Address) (sched : List Action) (N : Nat)
    (h0 : Reachable cs capacity store n0)
    (hmiss : (cs.Get n0.store a).2.2 ≠ .nil)
    (hnew : Cache.find n0.fetchers.items (.str (hexEncodeToString a)) = none)
    (hget : n0.step cs (.get a) = .ok n1)
    (hrun : n1.run cs sched = .ok n2)
    (hsole : ∀ f ∈ n2.heap.drop (n0.heap.length + 1), f.addr ≠ a)
    (hN : 1 ≤ N)
    (hcalls : n2.calls.countP (fun c => decide (c.f = n0.heap.length)) = N)
    (hret : ∀ c ∈ n2.calls, c.f = n0.heap.length → c.pc = .returned) :
    n1.heap[n0.heap.length]? = some (NewFetcher a (.str (hexEncodeToString a))) ∧
    Cache.find n2.fetchers.items (.str (hexEncodeToString a)) = none ∧
    (∃ f, n2.heap[n0.heap.length]? = some f ∧ f.stopped = true) ∧
    (∀ r, (cs.Get n2.store a).2.2 ≠ .nil →
      ∃ n3, n2.Get cs r a = .ok (n3, .fetch n2.heap.length r) ∧
        n3.heap = n2.heap ++ [NewFetcher a (.str (hexEncodeToString a))]) := by
  have h1 := NetStore.step_get_new hmiss hnew hget
  have hc1 : Cleanup n1 n0.heap.length (.str (hexEncodeToString a)) := by
    rw [h1]
    exact Cleanup.of_new h0.inv _ _ a
  obtain ⟨f, hf, _, _, hzero⟩ := hc1.after_run_sole sched hrun hsole
  have hother : ∀ pc, pc ≠ PC.returned → n2.callsAt n0.heap.length pc = 0 := by
    intro pc hpc
    unfold NetStore.callsAt
    rw [List.countP_eq_zero]
    intro c hc
    simp only [decide_eq_true_eq, not_and]
    intro hcf hcpc
    exact hpc (hcpc ▸ hret c hc hcf)
  have hD : n2.callsAt n0.heap.length .returned = N := by
    rw [← hcalls]
    unfold NetStore.callsAt
    apply List.countP_congr
    intro c hc
    simp only [decide_eq_true_eq]
    exact ⟨fun h => h.1, fun h => ⟨h, hret c hc h⟩⟩
  have hactive : n2.active n0.heap.length = 0 := by
    simp [NetStore.active, hother]
  have hfinal := hzero hactive (by rw [hD]; omega)
  rw [hother .remove (by simp), hother .close (by simp)] at hfinal
  have hgone : Cache.find n2.fetchers.items (.str (hexEncodeToString a)) = none := by
    rcases hfinal with h | h
    · exact absurd h (by simp)
    · exact h.1
  have hstop : f.stopped = true := by
    rcases hfinal with h | ⟨_, h | h⟩
    · exact absurd h (by simp)
    · exact absurd h (by simp)
    · exact h
  refine ⟨by rw [h1]; exact List.getElem?_concat_length _ _, hgone, ⟨f, hf, hstop⟩, ?_⟩
  intro r hmiss2
  have hg := NetStore.get_miss cs n2 a hmiss2 _ _
    (NetStore.getOrCreateFetcher_new { n2 with store := (cs.Get n2.store a).1 } a hgone)
  exact ⟨_, NetStore.Get_of_get_miss cs n2 _ r a _ hg, rfl⟩

/-- Witness of C8: two callers of `Get` for `ab01`, each running its own `get`, the
second of which finds the Fetcher of the first in the cache; one is cancelled and one
delivered to; after both have returned the cache is empty, the Fetcher is stopped and
the next missed `Get` makes a second Fetcher. -/
theorem fetcher_self_cleanup_witness :
    ∃ n0 n1 n2 : NetStore (List Chunk),
      NewNetStore 4 [] = .ok n0 ∧ n0.step memStore (.get addrA) = .ok n1 ∧
      n1.run memStore twoGets = .ok n2 ∧
      (n2.calls.map fun c => (c.f, c.pc, c.chunk, c.err))
        = [(0, PC.returned, none, Error.errStatus Canceled Error.nil),
           (0, PC.returned, some chunkA, Error.nil)] ∧
      (n1.heap[n0.heap.length]? = some (NewFetcher addrA (.str (hexEncodeToString addrA))) ∧
      Cache.find n2.fetchers.items (.str (hexEncodeToString addrA)) = none ∧
      (∃ f, n2.heap[n0.heap.length]? = some f ∧ f.stopped = true) ∧
      (∀ r, (memStore.Get n2.store addrA).2.2 ≠ .nil →
        ∃ n3, n2.Get memStore r addrA = .ok (n3, .fetch n2.heap.length r) ∧
          n3.heap = n2.heap ++ [NewFetcher addrA (.str (hexEncodeToString addrA))])) :=
  ⟨_, _, _, rfl, rfl, rfl, rfl,
    fetcher_self_cleanup addrA twoGets 2 (Reachable.of_run memStore 4 [] [] _ _ rfl rfl)
      (by decide) rfl rfl rfl
      (by decide) (by decide) rfl (by decide)⟩

end SelfCleanup

/-! ## Theorems: what `fetch` returns -/

section FetchResult

variable {S : Type}

/-- After `deliver(ch)` the Fetcher holds `ch` and its delivery channel is closed. -/
theorem Fetcher.deliver_sets_chunk (f f1 : Fetcher) (ch : Chunk) (h : f.deliver ch = .ok f1) :
    f1.chunk = some ch ∧ f1.delivered = true := by
  obtain ⟨_, rfl⟩ := Fetcher.deliver_eq h
  exact ⟨rfl, rfl⟩

/-- The second select of a fetch call on a delivered Fetcher whose request context is
not done: the case of `rctx.Done()` is not ready and the case of `deliveredC` sets the
return values to the chunk of the Fetcher and a nil error. -/
theorem NetStore.await_delivered (n : NetStore S) (c : Nat) (call : Call) (f : Fetcher)
    (hc : n.calls[c]? = some call) (hpc : call.pc = .wait) (hf : n.heap[call.f]? = some f)
    (hdel : f.delivered = true)
    (hctx : n.done.find? (fun d => d.1 = call.rctx.ctx) = none) :
    n.await c true = .error .disabled ∧
    n.await c false
      = .ok (n.update call.f f c { call with pc := .exit, chunk := f.chunk, err := .nil }) := by
  have hat : n.callAt c .wait = some (call, f) := by
    simp [NetStore.callAt, hc, hpc, hf]
  constructor
  · simp [NetStore.await, hat, hctx]
  · simp [NetStore.await, hat, hdel]

/-- The second select of a fetch call whose request context is done, on a Fetcher that
has not been delivered to: the case of `deliveredC` is not ready and the case of
`rctx.Done()` sets the return values to a nil chunk and an errStatus of the error of
the context and the status of the Fetcher. -/
theorem NetStore.await_done (n : NetStore S) (c : Nat) (call : Call) (f : Fetcher)
    (d : Nat × Error) (hc : n.calls[c]? = some call) (hpc : call.pc = .wait)
    (hf : n.heap[call.f]? = some f) (hdel : f.delivered = false)
    (hctx : n.done.find? (fun d => d.1 = call.rctx.ctx) = some d) :
    n.await c false = .error .disabled ∧
    n.await c true
      = .ok (n.update call.f f c
          { call with pc := .exit, chunk := none, err := .errStatus d.2 f.status }) ∧
    (Error.errStatus d.2 f.status).Status = f.status := by
  have hat : n.callAt c .wait = some (call, f) := by
    simp [NetStore.callAt, hc, hpc, hf]
  refine ⟨?_, ?_, rfl⟩
  · simp [NetStore.await, hat, hdel]
  · simp [NetStore.await, hat, hctx]

/-- C9, evaluated on the code: two callers hold the fetch function of the Fetcher of
`ab01`. The first is accepted, the chunk is delivered, the first returns it and, its
decrement leaving the counter at zero, removes the Fetcher from the cache and closes
the stop channel. The second then calls fetch with a context that is not done: it
passes the first select by the closed stop channel, the second select sets its return
values to the delivered chunk and a nil error, its decrement leaves the counter at
zero again, and its `close(f.stoppedC)` panics: the call does not return. -/
theorem late_fetch_after_deliver_panics :
    ∃ n0 n1 : NetStore (List Chunk),
      NewNetStore 4 [] = .ok n0 ∧
      n0.run memStore
        [.get addrA, .get addrA, .fetch 0 reqA1, .submit 0 false, .deliver 0 chunkA,
         .await 0 false, .decrement 0, .remove 0, .close 0,
         .fetch 0 reqA2, .submit 1 true, .await 1 false, .decrement 1, .remove 1] = .ok n1 ∧
      n1.done = [] ∧
      (n1.heap.map fun f => (f.chunk, f.delivered, f.stopped, f.requestCnt))
        = [(some chunkA, true, true, 0)] ∧
      (n1.calls.map fun c => (c.rctx, c.pc, c.chunk, c.err))
        = [(reqA1, PC.returned, some chunkA, Error.nil), (reqA2, PC.close, some chunkA, Error.nil)] ∧
      n1.step memStore (.close 1) = .error (.panic "close of closed channel") :=
  ⟨_, _, rfl, rfl, rfl, rfl, rfl, rfl⟩

/-- C10, evaluated on the code: two callers hold the fetch function of the Fetcher of
`ab01`; nothing is ever delivered. The context of the first is cancelled, the first
returns the errStatus and, its decrement leaving the counter at zero, removes the
Fetcher from the cache and closes the stop channel. The second then calls fetch, its
context is cancelled too, the second select sets its return values to a nil chunk and
the errStatus of `context.Canceled` with a nil status, its decrement leaves the counter
at zero again, and its `close(f.stoppedC)` panics: the call does not return. -/
theorem late_fetch_with_done_context_panics :
    ∃ n0 n1 : NetStore (List Chunk),
      NewNetStore 4 [] = .ok n0 ∧
      n0.run memStore
        [.get addrA, .get addrA, .fetch 0 reqA1, .submit 0 false, .cancel 1 Canceled,
         .await 0 true, .decrement 0, .remove 0, .close 0,
         .fetch 0 reqA2, .submit 1 true, .cancel 2 Canceled, .await 1 true, .decrement 1,
         .remove 1] = .ok n1 ∧
      (n1.heap.map fun f => (f.chunk, f.delivered, f.stopped, f.status, f.requestCnt))
        = [(none, false, true, Error.nil, 0)] ∧
      (n1.calls.map fun c => (c.rctx, c.pc, c.chunk, c.err))
        = [(reqA1, PC.returned, none, Error.errStatus Canceled Error.nil),
           (reqA2, PC.close, none, Error.errStatus Canceled Error.nil)] ∧
      n1.step memStore (.close 1) = .error (.panic "close of closed channel") :=
  ⟨_, _, rfl, rfl, rfl, rfl, rfl⟩

end FetchResult

/-! ## Eviction at every capacity -/

section AnyCapacity

theorem zeros_inj (i j : Nat) (h : zerosKey i = zerosKey j) : i = j := by
  have h1 := hexEncodeToString_inj (zeros i) (zeros j) h
  have h2 := congrArg List.length h1
  simpa [zeros] using h2

theorem memStore_Get_empty (ref : Address) :
    (memStore.Get [] ref).2.2 ≠ Error.nil ∧ (memStore.Get [] ref).1 = [] := by
  simp [memStore, ErrChunkNotFound]

/-- A cache that is not yet full keeps everything on `push`. -/
theorem Cache.push_room (c : Cache) (key : Key) (v : Nat) (h : c.items.length < c.size) :
    c.push key v = { c with items := (key, v) :: c.items } := by
  unfold Cache.push
  rw [if_neg]
  simp only [List.length_cons]
  omega

/-- A full cache drops its last entry on `push`: its key is not found afterwards. -/
theorem Cache.push_full (c : Cache) (key : Key) (v : Nat) (e : Key × Nat)
    (hfull : c.size ≤ c.items.length) (hlast : c.items.getLast? = some e)
    (hnodup : (c.items.map Prod.fst).Nodup) (hkey : key ≠ e.1) :
    Cache.find (c.push key v).items e.1 = none := by
  obtain ⟨init, hinit⟩ : ∃ init, c.items = init ++ [e] := by
    have hne : c.items ≠ [] := by
      intro h0
      rw [h0] at hlast
      simp at hlast
    refine ⟨c.items.dropLast, ?_⟩
    have h1 := List.dropLast_append_getLast hne
    rw [List.getLast?_eq_getLast _ hne] at hlast
    simp only [Option.some.injEq] at hlast
    rw [hlast] at h1
    exact h1.symm
  have hpush : (c.push key v).items = (key, v) :: init := by
    unfold Cache.push
    rw [if_pos (by simp only [List.length_cons]; omega)]
    show ((key, v) :: c.items).dropLast = (key, v) :: init
    rw [hinit, ← List.cons_append, List.dropLast_concat]
  rw [hpush, Cache.find_eq_none]
  intro x hx
  rcases List.mem_cons.1 hx with rfl | hx
  · exact hkey
  · intro hxe
    rw [hinit, List.map_append, List.nodup_append] at hnodup
    exact hnodup.2.2 (List.mem_map_of_mem _ hx) (by simp [hxe])

/-- A `get` that misses store and cache is enabled. -/
theorem NetStore.step_get_creates {S : Type} (cs : ChunkStore S) (n : NetStore S) (ref : Address)
    (hmiss : (cs.Get n.store ref).2.2 ≠ .nil)
    (hnew : Cache.find n.fetchers.items (.str (hexEncodeToString ref)) = none) :
    n.step cs (.get ref)
      = .ok { n with store := (cs.Get n.store ref).1,
                     fetchers := n.fetchers.push (.str (hexEncodeToString ref)) n.heap.length,
                     heap := n.heap ++ [NewFetcher ref (.str (hexEncodeToString ref))] } := by
  have hget := NetStore.get_miss cs n ref hmiss _ _
    (NetStore.getOrCreateFetcher_new { n with store := (cs.Get n.store ref).1 } ref hnew)
  simp only [NetStore.step, hget, Except.map]

/-- At every capacity a state is reachable in which the cache is full, its oldest
entry is the Fetcher of `zeros 0` at pointer 0, and that Fetcher has a caller waiting
in `fetch`. -/
theorem full_cache_reachable (capacity : Nat) (hcap : 0 < capacity) :
    ∀ k, k < capacity → ∃ n : NetStore (List Chunk),
      Reachable memStore capacity [] n ∧ n.store = [] ∧ n.fetchers.size = capacity ∧
      n.fetchers.items.length = k + 1 ∧ n.fetchers.items.getLast? = some (zerosKey 0, 0) ∧
      (∀ e ∈ n.fetchers.items, ∃ i, i ≤ k ∧ e.1 = zerosKey i) ∧
      (∃ f0 rest, n.heap = f0 :: rest ∧ f0.addr = zeros 0 ∧ f0.requestCnt = 1 ∧
        f0.stopped = false) := by
  intro k
  induction k with
  | zero =>
    intro _
    have h0 : NewNetStore capacity ([] : List Chunk)
        = .ok { store := [], fetchers := { size := capacity, items := [] }, heap := [],
                calls := [], done := [] } := by
      simp [NewNetStore, Cache.New, Nat.pos_iff_ne_zero.1 hcap]
    have hpush : ({ size := capacity, items := [] } : Cache).push (zerosKey 0) 0
        = { size := capacity, items := [(zerosKey 0, 0)] } :=
      Cache.push_room _ _ _ hcap
    refine ⟨{ store := [], fetchers := { size := capacity, items := [(zerosKey 0, 0)] },
              heap := [(Fetcher.iterate { NewFetcher (zeros 0) (zerosKey 0) with requestCnt := 1 }
                (.request { ctx := 1, addr := zeros 0 }))],
              calls := [{ f := 0, rctx := { ctx := 1, addr := zeros 0 }, pc := .wait,
                          chunk := none, err := .nil }],
              done := [] }, ?_, rfl, rfl, rfl, rfl, ?_, ?_⟩
    · refine Reachable.of_run memStore capacity []
        [.get (zeros 0), .fetch 0 { ctx := 1, addr := zeros 0 }, .submit 0 false] _ _ h0 ?_
      simp [NetStore.run, NetStore.step, NetStore.get, NetStore.getOrCreateFetcher, Cache.Get,
        Cache.Add, Cache.find, Key.hashable, memStore, ErrChunkNotFound, Except.map,
        NetStore.enter, NetStore.submit, NetStore.callAt, NetStore.update, NewFetcher]
      exact ⟨by rw [← zerosKey]; exact hpush, rfl⟩
    · intro e he
      simp only [List.mem_singleton] at he
      exact ⟨0, le_refl 0, by rw [he]⟩
    · exact ⟨_, [], rfl, (Fetcher.iterate_frame _ _).1, (Fetcher.iterate_frame _ _).2.2.1,
        (Fetcher.iterate_frame _ _).2.2.2.1⟩
  | succ k ih =>
    intro hk
    obtain ⟨n, hreach, hstore, hsize, hlen, hlast, hkeys, f0, rest, hheap, hf0⟩ := ih (by omega)
    have hnew : Cache.find n.fetchers.items (.str (hexEncodeToString (zeros (k + 1)))) = none := by
      rw [Cache.find_eq_none]
      intro e he hek
      obtain ⟨i, hi, hei⟩ := hkeys e he
      have := zeros_inj i (k + 1) (hei.symm.trans hek)
      omega
    have hmiss : (memStore.Get n.store (zeros (k + 1))).2.2 ≠ Error.nil := by
      rw [hstore]
      exact (memStore_Get_empty _).1
    have hstep := NetStore.step_get_creates memStore n (zeros (k + 1)) hmiss hnew
    refine ⟨_, Reachable.step _ _ _ hreach hstep, ?_, ?_, ?_, ?_, ?_, ?_⟩
    · show (memStore.Get n.store (zeros (k + 1))).1 = []
      rw [hstore]
      exact (memStore_Get_empty _).2
    · show (n.fetchers.push _ _).size = capacity
      rw [Cache.push_room _ _ _ (by omega)]
      exact hsize
    · show (n.fetchers.push _ _).items.length = k + 1 + 1
      rw [Cache.push_room _ _ _ (by omega)]
      simp [hlen]
    · show (n.fetchers.push _ _).items.getLast? = some (zerosKey 0, 0)
      rw [Cache.push_room _ _ _ (by omega)]
      have hne : n.fetchers.items ≠ [] := by
        intro h0
        rw [h0] at hlen
        simp at hlen
      obtain ⟨x, xs, hx⟩ := List.exists_cons_of_ne_nil hne
      simp only [hx, List.getLast?_cons_cons] at hlast ⊢
      exact hlast
    · intro e he
      change e ∈ (n.fetchers.push _ _).items at he
      rcases Cache.mem_push _ _ _ e he with rfl | he
      · exact ⟨k + 1, le_refl _, rfl⟩
      · obtain ⟨i, hi, hei⟩ := hkeys e he
        exact ⟨i, by omega, hei⟩
    · exact ⟨f0, rest ++ [NewFetcher (zeros (k + 1)) (.str (hexEncodeToString (zeros (k + 1))))],
        by show n.heap ++ _ = _; rw [hheap]; rfl, hf0⟩

/-- At every capacity the cache evicts a Fetcher that has a waiting caller: a reachable
state holds the Fetcher of `zeros 0`, with request counter 1, in the cache, and one
more miss takes its entry out of the cache with the counter still 1. -/
theorem eviction_with_waiter_at_any_capacity (capacity : Nat) (hcap : 0 < capacity) :
    ∃ n n1 : NetStore (List Chunk),
      Reachable memStore capacity [] n ∧ n.step memStore (.get (zeros capacity)) = .ok n1 ∧
      (zerosKey 0, 0) ∈ n.fetchers.items ∧ Cache.find n1.fetchers.items (zerosKey 0) = none ∧
      n1.store = [] ∧
      (∃ f0 rest, n1.heap = f0 :: rest ∧ f0.addr = zeros 0 ∧ f0.requestCnt = 1 ∧
        f0.stopped = false) := by
  obtain ⟨n, hreach, hstore, hsize, hlen, hlast, hkeys, f0, rest, hheap, hf0⟩ :=
    full_cache_reachable capacity hcap (capacity - 1) (by omega)
  have hnew : Cache.find n.fetchers.items (.str (hexEncodeToString (zeros capacity))) = none := by
    rw [Cache.find_eq_none]
    intro e he hek
    obtain ⟨i, hi, hei⟩ := hkeys e he
    have := zeros_inj i capacity (hei.symm.trans hek)
    omega
  have hmiss : (memStore.Get n.store (zeros capacity)).2.2 ≠ Error.nil := by
    rw [hstore]
    exact (memStore_Get_empty _).1
  have hstep := NetStore.step_get_creates memStore n (zeros capacity) hmiss hnew
  refine ⟨n, _, hreach, hstep, ?_, ?_, ?_, ?_⟩
  · exact List.mem_of_getLast?_eq_some hlast
  · show Cache.find (n.fetchers.push _ _).items (zerosKey 0) = none
    refine Cache.push_full n.fetchers _ _ (zerosKey 0, 0) (by omega) hlast hreach.inv.nodup ?_
    intro hk
    have := zeros_inj capacity 0 hk
    omega
  · show (memStore.Get n.store (zeros capacity)).1 = []
    rw [hstore]
    exact (memStore_Get_empty _).2
  · exact ⟨f0, rest ++ [NewFetcher (zeros capacity) (.str (hexEncodeToString (zeros capacity)))],
      by show n.heap ++ _ = _; rw [hheap]; rfl, hf0⟩

/-- At every capacity a state is reachable in which two Fetchers for one address are
live: the evicted one, which still has its waiting caller, and its successor. -/
theorem two_live_fetchers_at_any_capacity (capacity : Nat) (hcap : 0 < capacity) :
    ∃ n : NetStore (List Chunk), Reachable memStore capacity [] n ∧ ¬ n.liveAddrs.Nodup := by
  obtain ⟨n, n1, hreach, hstep, _, hgone, hstore, f0, rest, hheap, haddr, _, hstop⟩ :=
    eviction_with_waiter_at_any_capacity capacity hcap
  have hreach1 : Reachable memStore capacity [] n1 := Reachable.step _ _ _ hreach hstep
  have hmiss : (memStore.Get n1.store (zeros 0)).2.2 ≠ Error.nil := by
    rw [hstore]
    exact (memStore_Get_empty _).1
  have hstep2 := NetStore.step_get_creates memStore n1 (zeros 0) hmiss hgone
  refine ⟨_, Reachable.step _ _ _ hreach1 hstep2, ?_⟩
  show ¬ (((n1.heap ++ [NewFetcher (zeros 0) (.str (hexEncodeToString (zeros 0)))]).filter
    fun f => !f.stopped).map fun f => f.addr).Nodup
  rw [hheap]
  simp [List.filter_cons, hstop, haddr, NewFetcher]

end AnyCapacity

/-! ## Theorems: Has and its wait function -/

section HasTheorems

variable {S : Type}

/-- When the store has the chunk (its `Get` returns it with a nil error), `Has` returns
a nil wait function and a nil error, and leaves cache, Fetchers and calls alone. -/
theorem Has_hit (cs : ChunkStore S) (n : NetStore S) (ref : Address) (c : Chunk)
    (hc : (cs.Get n.store ref).2 = (some c, Error.nil)) :
    n.Has cs ref = .ok ({ n with store := (cs.Get n.store ref).1 }, none, .nil) := by
  have h1 : (cs.Get n.store ref).2.2 = .nil := by rw [hc]
  have h2 : (cs.Get n.store ref).2.1 = some c := by rw [hc]
  simp [NetStore.Has, NetStore.get, h1, h2]

/-- When `n.get` misses and hands out the fetch function of the Fetcher `p`, `Has`
returns a wait function that calls this fetch function, with a nil error, and `Get`
goes on as the call `fetch(rctx)` on the same Fetcher from the same state. -/
theorem Has_miss_fetches_like_Get (cs : ChunkStore S) (n n1 : NetStore S) (ref : Address)
    (p : Nat) (rctx : Request) (h : n.get cs ref = .ok (n1, none, some p, .nil)) :
    n.Has cs ref = .ok (n1, some { fetch := some p, err := .nil }, .nil) ∧
    (Wait.mk (some p) .nil).callee = .ok p ∧
    n.Get cs rctx ref = .ok (n1, .fetch p rctx) := by
  simp [NetStore.Has, NetStore.Get, Wait.callee, h]

/-- An invocation of a wait function that returns right after its assignment, with no
assignment of another invocation in between, returns the error of its own fetch
call. -/
theorem World.assign_then_ret (w w1 : World S) (i : Nat) (h : w.assign i = .ok w1) :
    ∃ inv call w2, w.invocations[i]? = some inv ∧ w.n.calls[inv.call]? = some call ∧
      call.pc = .returned ∧ w1.ret i = .ok w2 ∧
      w2.invocations[i]? = some { inv with pc := .returned, result := call.err } := by
  unfold World.assign at h
  cases hi : w.invocations[i]? with
  | none => simp [hi] at h
  | some inv =>
    cases hc : w.n.calls[inv.call]? with
    | none => simp [hi, hc] at h
    | some call =>
      cases hw : w.waits[inv.wait]? with
      | none => simp [hi, hc, hw] at h
      | some wait =>
        simp only [hi, hc, hw] at h
        split at h
        · rename_i hpc
          cases h
          have hil : i < w.invocations.length := (List.getElem?_eq_some_iff.mp hi).1
          have hwl : inv.wait < w.waits.length := (List.getElem?_eq_some_iff.mp hw).1
          refine ⟨inv, call,
            ⟨w.n, w.waits.set inv.wait (wait.assign call.err),
              (w.invocations.set i { inv with pc := .assigned }).set i
                { inv with pc := .returned, result := call.err }⟩, rfl, hc, hpc.2, ?_, ?_⟩
          · simp [World.ret, List.getElem?_set, hil, hwl, Wait.result, Wait.assign]
          · simp [List.getElem?_set, hil]
        · cases h

/-- C11, evaluated on the code: on a miss `Has` returns one wait function, whose
closure assigns the error of its fetch call to the variable `err` of `Has` before it
returns that variable. Two callers invoke the wait function at the same time with
their own requests; the contexts end with `context.Canceled` and
`context.DeadlineExceeded`. Both fetch calls return, the first invocation assigns its
error, the second invocation assigns its error, and then the first invocation returns:
it returns the errStatus of `context.DeadlineExceeded`, the error of the fetch call of
the other invocation, and not the errStatus of `context.Canceled` that its own fetch
call returned. -/
theorem wait_returns_error_of_other_invocation :
    ∃ (n0 : NetStore (List Chunk)) (w1 : World (List Chunk)),
      NewNetStore 4 [] = .ok n0 ∧
      (World.init n0).run memStore
        [.Has addrA, .wait 0 reqA1, .net (.submit 0 false), .wait 0 reqA2,
         .net (.submit 1 false), .net (.cancel 1 Canceled), .net (.cancel 2 DeadlineExceeded),
         .net (.await 0 true), .net (.decrement 0), .assign 0,
         .net (.await 1 true), .net (.decrement 1), .net (.remove 1), .net (.close 1),
         .assign 1, .ret 0, .ret 1] = .ok w1 ∧
      (w1.n.calls.map fun c => (c.rctx, c.pc, c.err))
        = [(reqA1, PC.returned, Error.errStatus Canceled Error.nil),
           (reqA2, PC.returned, Error.errStatus DeadlineExceeded Error.nil)] ∧
      (w1.invocations.map fun i => (i.wait, i.call, i.pc, i.result))
        = [(0, 0, WaitPC.returned, Error.errStatus DeadlineExceeded Error.nil),
           (0, 1, WaitPC.returned, Error.errStatus DeadlineExceeded Error.nil)] :=
  ⟨_, _, rfl, rfl, rfl, rfl⟩

end HasTheorems

/-! ## Theorems: deliver and the loop -/

section DeliverTheorems

/-- C17 refuted on the code: `deliver` on a new Fetcher sets the chunk and closes
`deliveredC`; a second `deliver` on it panics with a close of the closed channel. -/
theorem second_deliver_panics :
    ∃ f1, (NewFetcher addrA (.str "ab01")).deliver chunkA = .ok f1 ∧
      f1.chunk = some chunkA ∧ f1.delivered = true ∧
      f1.deliver chunkA2 = .error (.panic "close of closed channel") :=
  ⟨_, rfl, rfl, rfl, rfl⟩

/-- C17 as the code has it: on a Fetcher whose `deliveredC` is still open, `deliver(c1)`
does not panic, records `c1` and closes the channel; the channel is closed by this call
only, for `deliver(c2)` on the result panics with a close of the closed channel. -/
theorem first_deliver_closes_second_panics (f : Fetcher) (c1 c2 : Chunk)
    (h : f.delivered = false) :
    ∃ f1, f.deliver c1 = .ok f1 ∧ f1.chunk = some c1.Chunk ∧ f1.delivered = true ∧
      f1.deliver c2 = .error (.panic "close of closed channel") := by
  refine ⟨{ f with chunk := some c1.Chunk, delivered := true }, ?_, rfl, rfl, ?_⟩ <;>
    simp [Fetcher.deliver, h]

/-- Witness of C17 as the code has it: a new Fetcher for `ab01`. -/
theorem first_deliver_closes_second_panics_witness :
    (NewFetcher addrA (.str "ab01")).delivered = false ∧
    ∃ f1, (NewFetcher addrA (.str "ab01")).deliver chunkA = .ok f1 ∧
      f1.chunk = some chunkA.Chunk ∧ f1.delivered = true ∧
      f1.deliver chunkA2 = .error (.panic "close of closed channel") :=
  ⟨rfl, first_deliver_closes_second_panics (NewFetcher addrA (.str "ab01")) chunkA chunkA2 rfl⟩

/-- The head of the loop body leaves `doRetrieve` false. -/
theorem Fetcher.retrieveIfWanted_resets (f : Fetcher) : f.retrieveIfWanted.doRetrieve = false := by
  unfold Fetcher.retrieveIfWanted
  cases h : f.doRetrieve <;> simp [h]

/-- With the loop at its select `doRetrieve` is false, and stays so. -/
theorem Fetcher.iterate_resets (f : Fetcher) (ev : Fetcher.Event) (h : f.doRetrieve = false) :
    (f.iterate ev).doRetrieve = false := by
  unfold Fetcher.iterate
  cases hr : f.running
  · simpa using h
  · cases ev with
    | request r => simpa using Fetcher.retrieveIfWanted_resets _
    | forward err => simpa using Fetcher.retrieveIfWanted_resets _
    | stopped => simpa using h

theorem Fetcher.foldl_iterate_resets (events : List Fetcher.Event) :
    ∀ f : Fetcher, f.doRetrieve = false → (events.foldl Fetcher.iterate f).doRetrieve = false := by
  induction events with
  | nil => intro f h; exact h
  | cons ev rest ih => intro f h; exact ih _ (Fetcher.iterate_resets f ev h)

/-- The loop at its select starts one call of retrieve for each request and each
forward event with an error that it takes before its stop event, whatever the other
fields of the Fetcher are. -/
theorem Fetcher.foldl_iterate_retrieved (events : List Fetcher.Event) :
    ∀ f : Fetcher, f.doRetrieve = false →
      (events.foldl Fetcher.iterate f).retrieved
        = f.retrieved + (if f.running then Fetcher.retrievals events else 0) := by
  induction events with
  | nil => intro f _; simp [Fetcher.retrievals]
  | cons ev rest ih =>
    intro f h
    rw [List.foldl_cons, ih _ (Fetcher.iterate_resets f ev h)]
    cases hr : f.running
    · simp [Fetcher.iterate, hr]
    · cases ev with
      | request r =>
        simp [Fetcher.iterate, hr, Fetcher.retrieveIfWanted, Fetcher.retrievals,
          Fetcher.Event.retrieves]
        omega
      | forward err =>
        by_cases he : err = .nil
        · simp [Fetcher.iterate, hr, Fetcher.retrieveIfWanted, Fetcher.retrievals,
            Fetcher.Event.retrieves, he, h]
        · simp [Fetcher.iterate, hr, Fetcher.retrieveIfWanted, Fetcher.retrievals,
            Fetcher.Event.retrieves, he]
          omega
      | stopped => simp [Fetcher.iterate, hr, Fetcher.retrievals]

/-- C18 refuted on the code: a caller of `Get` is accepted by the Fetcher of `ab01`,
which starts retrieve once, and the chunk is delivered. A second caller then enters
`fetch` and is accepted, and the search of the first retrieve times out: the loop,
which never looks at `deliveredC`, starts retrieve twice more. -/
theorem loop_retrieves_after_deliver :
    ∃ n0 n1 n2 : NetStore (List Chunk),
      NewNetStore 4 [] = .ok n0 ∧
      n0.run memStore [.get addrA, .fetch 0 reqA1, .submit 0 false, .deliver 0 chunkA] = .ok n1 ∧
      (n1.heap.map fun f => (f.chunk, f.delivered, f.stopped, f.retrieved))
        = [(some chunkA, true, false, 1)] ∧
      n1.run memStore
        [.fetch 0 reqA2, .submit 1 false, .forward 0 (.New "search timed out")] = .ok n2 ∧
      (n2.heap.map fun f => (f.chunk, f.delivered, f.stopped, f.retrieved))
        = [(some chunkA, true, false, 3)] :=
  ⟨_, _, _, rfl, rfl, rfl, rfl, rfl⟩

/-- A loop at its select stays in the loop on every event other than its stop
event. -/
theorem Fetcher.iterate_running (f : Fetcher) (ev : Fetcher.Event) (h : f.running = true)
    (hev : ev ≠ .stopped) : (f.iterate ev).running = true := by
  unfold Fetcher.iterate Fetcher.retrieveIfWanted
  cases ev with
  | request r => simp [h]
  | forward err => simp only [h, if_true]; split <;> rfl
  | stopped => exact absurd rfl hev

theorem Fetcher.foldl_iterate_running (events : List Fetcher.Event) :
    ∀ f : Fetcher, f.running = true → Fetcher.Event.stopped ∉ events →
      (events.foldl Fetcher.iterate f).running = true := by
  induction events with
  | nil => intro f h _; exact h
  | cons ev rest ih =>
    intro f h hn
    exact ih _ (Fetcher.iterate_running f ev h (fun he => hn (he ▸ List.mem_cons_self _ _)))
      (fun hm => hn (List.mem_cons_of_mem _ hm))

/-- The loop takes an event in the same way on a Fetcher and on the Fetcher after
`deliver`: `deliver` after the event gives what the event after `deliver` gives. -/
theorem Fetcher.iterate_deliver (f f1 : Fetcher) (c : Chunk) (ev : Fetcher.Event)
    (h : f.deliver c = .ok f1) : (f.iterate ev).deliver c = .ok (f1.iterate ev) := by
  obtain ⟨hd, rfl⟩ := Fetcher.deliver_eq h
  have hd1 : (f.iterate ev).delivered = false := by
    rw [(Fetcher.iterate_frame f ev).2.2.2.2.1, hd]
  unfold Fetcher.deliver
  simp only [hd1, Bool.false_eq_true, if_false, Except.ok.injEq]
  unfold Fetcher.iterate Fetcher.retrieveIfWanted
  cases hr : f.running <;> cases ev <;> simp [hr, Chunk.Chunk]
  split <;> simp

theorem Fetcher.foldl_iterate_deliver (c : Chunk) (events : List Fetcher.Event) :
    ∀ f f1 : Fetcher, f.deliver c = .ok f1 →
      (events.foldl Fetcher.iterate f).deliver c = .ok (events.foldl Fetcher.iterate f1) := by
  induction events with
  | nil => intro f f1 h; exact h
  | cons ev rest ih => intro f f1 h; exact ih _ _ (Fetcher.iterate_deliver f f1 c ev h)

/-- C18 as the code has it: `deliver` does not change what the loop does. A Fetcher has
run its loop on some events without stopping, and `deliver` is called on it. The loop
is then still running, and on the events that follow it starts one more call of
retrieve for every request and for every forward event with a non-nil error (failure
or timeout) that it takes before its stop event, none after a forward event with a nil
error and none once it has stopped. The Fetcher it ends with is the one that the same
events followed by the `deliver` would have given. -/
theorem loop_after_deliver_retrieves_per_event (addr : Address) (key : Key)
    (before after : List Fetcher.Event) (c : Chunk) (f1 : Fetcher)
    (hb : Fetcher.Event.stopped ∉ before)
    (h : ((NewFetcher addr key).start before).deliver c = .ok f1) :
    f1.delivered = true ∧ f1.running = true ∧
    (after.foldl Fetcher.iterate f1).retrieved = f1.retrieved + Fetcher.retrievals after ∧
    (after.foldl Fetcher.iterate ((NewFetcher addr key).start before)).deliver c
      = .ok (after.foldl Fetcher.iterate f1) := by
  have h0 : ((NewFetcher addr key).start before).doRetrieve = false :=
    Fetcher.foldl_iterate_resets before _ (Fetcher.retrieveIfWanted_resets _)
  have hr : ((NewFetcher addr key).start before).running = true :=
    Fetcher.foldl_iterate_running before _ (by simp [Fetcher.retrieveIfWanted]) hb
  have hcomm := Fetcher.foldl_iterate_deliver c after _ f1 h
  obtain ⟨_, rfl⟩ := Fetcher.deliver_eq h
  refine ⟨rfl, hr, ?_, hcomm⟩
  have := Fetcher.foldl_iterate_retrieved after
    { (NewFetcher addr key).start before with chunk := some c, delivered := true } h0
  simpa [hr] using this

/-- Witness of C18 as the code has it: the loop of the Fetcher of `ab01` takes one
request before the delivery and, after it, a request, a timeout, a forward event
without error, its stop event and a request it no longer receives: two more calls of
retrieve. -/
theorem loop_after_deliver_retrieves_per_event_witness :
    Fetcher.Event.stopped ∉ [Fetcher.Event.request reqA1] ∧
    ∃ f1, ((NewFetcher addrA (.str "ab01")).start [.request reqA1]).deliver chunkA = .ok f1 ∧
      f1.retrieved = 1 ∧
      Fetcher.retrievals [.request reqA2, .forward (.New "search timed out"), .forward .nil,
        .stopped, .request reqA3] = 2 ∧
      (f1.delivered = true ∧ f1.running = true ∧
      ([Fetcher.Event.request reqA2, .forward (.New "search timed out"), .forward .nil,
          .stopped, .request reqA3].foldl Fetcher.iterate f1).retrieved
        = f1.retrieved + Fetcher.retrievals [.request reqA2, .forward (.New "search timed out"),
            .forward .nil, .stopped, .request reqA3] ∧
      ([Fetcher.Event.request reqA2, .forward (.New "search timed out"), .forward .nil,
          .stopped, .request reqA3].foldl Fetcher.iterate
          ((NewFetcher addrA (.str "ab01")).start [.request reqA1])).deliver chunkA
        = .ok ([Fetcher.Event.request reqA2, .forward (.New "search timed out"), .forward .nil,
            .stopped, .request reqA3].foldl Fetcher.iterate f1)) :=
  ⟨by decide, _, rfl, rfl, rfl,
    loop_after_deliver_retrieves_per_event addrA (.str "ab01") [.request reqA1]
      [.request reqA2, .forward (.New "search timed out"), .forward .nil, .stopped,
       .request reqA3] chunkA _ (by decide) rfl⟩

end DeliverTheorems

/-! ## Theorems: a second invocation of the wait function -/

section SecondInvocation

/-- C19, evaluated on the code: `Has` misses `ab01` and returns the wait function of a
new Fetcher. Its first invocation is accepted, its context is cancelled, and it
returns; its decrement leaves the counter at zero, so it removes the cache entry and
closes the stop channel. A missed `get` then makes a second Fetcher for `ab01`, which
gets a waiting caller. The wait function is now invoked a second time: its fetch call
passes the first select by the closed stop channel, its context is cancelled, its
decrement leaves the counter of the stopped Fetcher at zero again, it runs the remove
callback a second time, which takes the entry of the second Fetcher out of the cache,
and its `close(f.stoppedC)` panics. -/
theorem second_wait_invocation_panics :
    ∃ (n0 : NetStore (List Chunk)) (w1 w2 : World (List Chunk)),
      NewNetStore 4 [] = .ok n0 ∧
      (World.init n0).run memStore
        [.Has addrA, .wait 0 reqA1, .net (.submit 0 false), .net (.cancel 1 Canceled),
         .net (.await 0 true), .net (.decrement 0), .net (.remove 0), .net (.close 0),
         .assign 0, .ret 0,
         .net (.get addrA), .net (.fetch 1 reqA3), .net (.submit 1 false),
         .wait 0 reqA2, .net (.submit 2 true), .net (.cancel 2 Canceled),
         .net (.await 2 true), .net (.decrement 2)] = .ok w1 ∧
      w1.n.fetchers.items = [(Key.str "ab01", 1)] ∧
      (w1.n.heap.map fun f => (f.stopped, f.requestCnt)) = [(true, 0), (false, 1)] ∧
      (w1.n.calls.map fun c => (c.f, c.pc)) = [(0, PC.returned), (1, PC.wait), (0, PC.remove)] ∧
      w1.step memStore (.net (.remove 2)) = .ok w2 ∧
      w2.n.fetchers.items = [] ∧
      (w2.n.calls.map fun c => (c.f, c.pc)) = [(0, PC.returned), (1, PC.wait), (0, PC.close)] ∧
      w2.step memStore (.net (.close 2)) = .error (.panic "close of closed channel") :=
  ⟨_, _, _, rfl, rfl, rfl, rfl, rfl, rfl, rfl, rfl, rfl⟩

end SecondInvocation

/-! ## Theorems: the index engine, as specified -/

namespace Localstore

theorem Index.Get_Put_self (k : Keying) (index : Index) (item query : IndexItem)
    (h : k.key item = k.key query) : Index.Get k (Index.Put k index item) query = .ok item := by
  simp [Index.Get, Index.Put, h]

theorem DB.data_eq_none_iff (db : DB) (a : Address) :
    db.data a = none ↔ ∀ x ∈ db.retrievalIndex, x.Address ≠ a := by
  unfold DB.data Index.Get
  cases h : List.find? (fun item => decide (Keying.key .address item = Keying.key .address (addressToItem a)))
      db.retrievalIndex with
  | none =>
    simp only [true_iff]
    intro x hx
    have := List.find?_eq_none.mp h x hx
    simpa [Keying.key, addressToItem] using this
  | some item =>
    simp only [false_iff, reduceCtorEq]
    intro hall
    have hmem := List.mem_of_find?_eq_some h
    have hp := List.find?_some h
    simp [Keying.key, addressToItem] at hp
    exact hall item hmem hp

theorem DB.data_eq_some (db : DB) (a : Address) (item : IndexItem) (h : db.data a = some item) :
    item ∈ db.retrievalIndex ∧ item.Address = a := by
  unfold DB.data Index.Get at h
  cases hf : List.find? (fun item => decide (Keying.key .address item = Keying.key .address (addressToItem a)))
      db.retrievalIndex with
  | none => simp [hf] at h
  | some it =>
    simp [hf] at h
    subst h
    have hp := List.find?_some hf
    simp [Keying.key, addressToItem] at hp
    exact ⟨List.mem_of_find?_eq_some hf, hp⟩

theorem DB.data_eq_of_head (db : DB) (a : Address) (item : IndexItem) (rest : Index)
    (hi : db.retrievalIndex = item :: rest) (ha : item.Address = a) : db.data a = some item := by
  simp [DB.data, Index.Get, hi, Keying.key, addressToItem, ha]

theorem DB.retrievalIndex_putRetrieval (db : DB) (ch : Chunk) (now : Int) (w : Bool) :
    (db.putRetrieval ch now w).retrievalIndex
      = Index.Put .address db.retrievalIndex
          ⟨ch.Address, ch.Data, now, if db.useRetrievalCompositeIndex then now else 0⟩ := by
  cases hc : db.useRetrievalCompositeIndex <;> cases w <;>
    simp [DB.putRetrieval, DB.retrievalIndex, hc]

theorem DB.retrievalIndex_setAccess (db : DB) (a : Address) (now : Int) (item : IndexItem)
    (h : db.data a = some item) :
    (db.setAccess a now).retrievalIndex
      = if db.useRetrievalCompositeIndex then
          Index.Put .address db.retrievalIndex { item with AccessTimestamp := now }
        else db.retrievalIndex := by
  cases hc : db.useRetrievalCompositeIndex <;>
    simp [DB.setAccess, DB.retrievalIndex, hc, h]

theorem DB.data_setAccess (db : DB) (a : Address) (now : Int) (item : IndexItem)
    (h : db.data a = some item) :
    ∃ item1, (db.setAccess a now).data a = some item1 ∧ item1.Data = item.Data ∧
      item1.StoreTimestamp = item.StoreTimestamp := by
  have hi := DB.retrievalIndex_setAccess db a now item h
  cases hc : db.useRetrievalCompositeIndex
  · simp only [hc, Bool.false_eq_true, if_false] at hi
    refine ⟨item, ?_, rfl, rfl⟩
    simpa [DB.data, hi] using h
  · simp only [hc, if_true] at hi
    exact ⟨_, DB.data_eq_of_head _ a _ _ hi (DB.data_eq_some db a item h).2, rfl, rfl⟩

/-- C12: for every database, in either retrieval layout, every chunk `c` and every
mode among ModeSyncing, ModeUpload and ModeRequest, `Put(c)` under the mode returns a
nil error and a following `Get(c.Address())` under the mode returns a nil error and a
chunk whose data is `c.Data()`. Chunks are content addressed (section 3: two chunks
with the same address are identical), so what the database already holds under the
address of `c`, if anything, is the data of `c`. -/
theorem put_then_get_returns_data (db : DB) (m : Mode) (T1 T2 : Int) (c : Chunk)
    (hm : m = .ModeSyncing ∨ m = .ModeUpload ∨ m = .ModeRequest)
    (hsame : ∀ item, db.data c.Address = some item → item.Data = c.Data) :
    (db.Put m T1 c).2 = .nil ∧
    ((db.Put m T1 c).1.Get m T2 c.Address).2 = (some { addr := c.Address, sdata := c.Data }, .nil) := by
  have hput : (db.Put m T1 c).2 = .nil ∧
      ∃ item, (db.Put m T1 c).1.data c.Address = some item ∧ item.Data = c.Data := by
    cases hd : db.data c.Address with
    | none =>
      have hnew : ∀ w, (db.putRetrieval c T1 w).data c.Address
          = some ⟨c.Address, c.Data, T1, if db.useRetrievalCompositeIndex then T1 else 0⟩ :=
        fun w => DB.data_eq_of_head _ _ _ _ (DB.retrievalIndex_putRetrieval db c T1 w) rfl
      rcases hm with h | h | h <;> subst h <;> simp only [DB.Put, hd]
      · exact ⟨trivial, _, hnew false, rfl⟩
      · exact ⟨trivial, _, hnew false, rfl⟩
      · exact ⟨trivial, _, hnew true, rfl⟩
    | some item =>
      rcases hm with h | h | h <;> subst h <;> simp only [DB.Put, hd]
      · exact ⟨trivial, item, hd, hsame item hd⟩
      · exact ⟨trivial, item, hd, hsame item hd⟩
      · obtain ⟨item1, h1, h2, _⟩ := DB.data_setAccess db c.Address T1 item hd
        exact ⟨trivial, item1, h1, h2.trans (hsame item hd)⟩
  obtain ⟨he, item, hi, hdata⟩ := hput
  refine ⟨he, ?_⟩
  rcases hm with h | h | h <;> subst h <;> simp [DB.Get, hi, hdata]

theorem Index.mem_Put (k : Keying) (index : Index) (item x : IndexItem)
    (h : x ∈ Index.Put k index item) : x = item ∨ x ∈ index := by
  simp only [Index.Put, Index.Delete, List.mem_cons, List.mem_filter] at h
  rcases h with h | h
  · exact Or.inl h
  · exact Or.inr h.1

theorem Index.mem_DeleteAddress (index : Index) (a : Address) (x : IndexItem) :
    x ∈ Index.DeleteAddress index a ↔ x ∈ index ∧ x.Address ≠ a := by
  simp [Index.DeleteAddress, List.mem_filter]

theorem DB.Put_removal_stored (db : DB) (c : Chunk) (T : Int) (item : IndexItem)
    (h : db.data c.Address = some item) :
    (db.Put .modeRemoval T c).2 = .nil ∧ (db.Put .modeRemoval T c).1.data c.Address = none ∧
    (db.Put .modeRemoval T c).1.sizeCounter = db.sizeCounter - 1 := by
  simp only [DB.Put, h]
  refine ⟨trivial, ?_, trivial⟩
  rw [DB.data_eq_none_iff]
  intro x hx
  have hx1 : x ∈ Index.DeleteAddress db.retrievalIndex c.Address := by
    cases hc : db.useRetrievalCompositeIndex <;> simpa [DB.retrievalIndex, hc] using hx
  exact ((Index.mem_DeleteAddress _ _ _).mp hx1).2

theorem DB.Get_not_stored (db : DB) (m : Mode) (T : Int) (a : Address) (h : db.data a = none) :
    db.Get m T a = (db, none, ErrChunkNotFound) := by
  simp only [DB.Get, h]

theorem DB.Put_upload_new (db : DB) (c : Chunk) (T : Int) (h : db.data c.Address = none) :
    (db.Put .ModeUpload T c).2 = .nil ∧
    (db.Put .ModeUpload T c).1.data c.Address
      = some ⟨c.Address, c.Data, T, if db.useRetrievalCompositeIndex then T else 0⟩ ∧
    (db.Put .ModeUpload T c).1.sizeCounter = db.sizeCounter + 1 := by
  simp only [DB.Put, h]
  exact ⟨trivial, DB.data_eq_of_head _ _ _ _ (DB.retrievalIndex_putRetrieval db c T false) rfl, trivial⟩

/-- C13: the removal round trip. For every database, in either retrieval layout, and
every chunk `c` that the upload brings in (the database does not hold it before),
after `Put(c)` under ModeUpload and `Put(c)` under modeRemoval, both of which return a
nil error, a `Get` of the address under any mode fails with ErrChunkNotFound and the
size counter is back at the value it had before the upload. -/
theorem upload_then_removal_of_new_chunk (db : DB) (c : Chunk) (T1 T2 T3 : Int) (m : Mode)
    (hnew : db.data c.Address = none) :
    (db.Put .ModeUpload T1 c).2 = .nil ∧
    ((db.Put .ModeUpload T1 c).1.Put .modeRemoval T2 c).2 = .nil ∧
    (((db.Put .ModeUpload T1 c).1.Put .modeRemoval T2 c).1.Get m T3 c.Address).2
      = (none, ErrChunkNotFound) ∧
    ((db.Put .ModeUpload T1 c).1.Put .modeRemoval T2 c).1.sizeCounter = db.sizeCounter := by
  obtain ⟨h1, h2, h3⟩ := DB.Put_upload_new db c T1 hnew
  obtain ⟨h4, h5, h6⟩ := DB.Put_removal_stored _ c T2 _ h2
  refine ⟨h1, h4, ?_, ?_⟩
  · rw [DB.Get_not_stored _ m T3 _ h5]
  · rw [h6, h3]; omega

theorem DB.mem_retrievalIndex_setAccess (db : DB) (a : Address) (now : Int) (x : IndexItem)
    (hx : x ∈ (db.setAccess a now).retrievalIndex) :
    ∃ y ∈ db.retrievalIndex, y.Address = x.Address := by
  cases hd : db.data a with
  | none =>
    have : (db.setAccess a now).retrievalIndex = db.retrievalIndex := by
      cases hc : db.useRetrievalCompositeIndex <;> simp [DB.setAccess, DB.retrievalIndex, hc, hd]
    exact ⟨x, this ▸ hx, rfl⟩
  | some item =>
    rw [DB.retrievalIndex_setAccess db a now item hd] at hx
    cases hc : db.useRetrievalCompositeIndex
    · simp only [hc, Bool.false_eq_true, if_false] at hx
      exact ⟨x, hx, rfl⟩
    · simp only [hc, if_true] at hx
      rcases Index.mem_Put _ _ _ _ hx with h | h
      · exact ⟨item, (DB.data_eq_some db a item hd).1, by rw [h]⟩
      · exact ⟨x, h, rfl⟩

theorem DB.mem_retrievalIndex_putRetrieval (db : DB) (ch : Chunk) (now : Int) (w : Bool)
    (x : IndexItem) (hx : x ∈ (db.putRetrieval ch now w).retrievalIndex) :
    x.Address = ch.Address ∨ x ∈ db.retrievalIndex := by
  rw [DB.retrievalIndex_putRetrieval] at hx
  rcases Index.mem_Put _ _ _ _ hx with h | h
  · exact Or.inl (by rw [h])
  · exact Or.inr h

theorem DB.mem_retrievalIndex_removal (db : DB) (i1 i2 i3 i4 : Index) (n : Nat) (a : Address)
    (x : IndexItem)
    (hx : x ∈ DB.retrievalIndex
      { db with retrievalCompositeIndex := Index.DeleteAddress db.retrievalCompositeIndex a,
                retrievalDataIndex := Index.DeleteAddress db.retrievalDataIndex a,
                retrievalAccessIndex := i1, pullIndex := i2, pushIndex := i3, gcIndex := i4,
                sizeCounter := n }) :
    x ∈ db.retrievalIndex := by
  cases hc : db.useRetrievalCompositeIndex <;> simp [DB.retrievalIndex, hc] at hx ⊢ <;>
    exact ((Index.mem_DeleteAddress _ _ _).mp hx).1

theorem DB.mem_retrievalIndex_apply (db : DB) (op : Op) (x : IndexItem)
    (hx : x ∈ (db.apply op).retrievalIndex) :
    (∃ y ∈ db.retrievalIndex, y.Address = x.Address) ∨
    ∃ m now ch, op = .Put m now ch ∧ (m = .ModeSyncing ∨ m = .ModeUpload ∨ m = .ModeRequest) ∧
      ch.Address = x.Address := by
  cases op with
  | Put m now ch =>
    cases m <;> cases hd : db.data ch.Address <;> simp only [DB.apply, DB.Put, hd] at hx
    · rcases DB.mem_retrievalIndex_putRetrieval db ch now false x hx with h | h
      · exact Or.inr ⟨_, _, _, rfl, Or.inl rfl, h.symm⟩
      · exact Or.inl ⟨x, h, rfl⟩
    · exact Or.inl ⟨x, hx, rfl⟩
    · rcases DB.mem_retrievalIndex_putRetrieval db ch now false x hx with h | h
      · exact Or.inr ⟨_, _, _, rfl, Or.inr (Or.inl rfl), h.symm⟩
      · exact Or.inl ⟨x, h, rfl⟩
    · exact Or.inl ⟨x, hx, rfl⟩
    · rcases DB.mem_retrievalIndex_putRetrieval db ch now true x hx with h | h
      · exact Or.inr ⟨_, _, _, rfl, Or.inr (Or.inr rfl), h.symm⟩
      · exact Or.inl ⟨x, h, rfl⟩
    · exact Or.inl (DB.mem_retrievalIndex_setAccess db ch.Address now x hx)
    · exact Or.inl ⟨x, hx, rfl⟩
    · exact Or.inl ⟨x, hx, rfl⟩
    · exact Or.inl ⟨x, hx, rfl⟩
    · exact Or.inl ⟨x, hx, rfl⟩
    · exact Or.inl ⟨x, hx, rfl⟩
    · exact Or.inl ⟨x, DB.mem_retrievalIndex_removal db _ _ _ _ _ _ x hx, rfl⟩
  | Get m now a =>
    cases hd : db.data a with
    | none =>
      simp only [DB.apply, DB.Get, hd] at hx
      exact Or.inl ⟨x, hx, rfl⟩
    | some item =>
      simp only [DB.apply, DB.Get, hd] at hx
      split at hx
      · exact Or.inl (DB.mem_retrievalIndex_setAccess db a now x hx)
      · exact Or.inl ⟨x, hx, rfl⟩

theorem DB.not_stored_after_run (a : Address) (ops : List Op) :
    ∀ db : DB, db.data a = none →
      (∀ m now ch, Op.Put m now ch ∈ ops → ch.Address = a →
        m = .ModeSynced ∨ m = .modeAccess ∨ m = .modeRemoval) →
      (db.run ops).data a = none := by
  induction ops with
  | nil => intro db h _; exact h
  | cons op rest ih =>
    intro db h hn
    have h1 : (db.apply op).data a = none := by
      rw [DB.data_eq_none_iff] at h ⊢
      intro x hx
      rcases DB.mem_retrievalIndex_apply db op x hx with ⟨y, hy, hyx⟩ | ⟨m, now, ch, hop, hm, hch⟩
      · rw [← hyx]; exact h y hy
      · intro hxa
        have := hn m now ch (by simp [hop]) (hch.trans hxa)
        rcases hm with hm | hm | hm <;> subst hm <;> simp at this
    exact ih (db.apply op) h1 (fun m now ch hmem => hn m now ch (List.mem_cons_of_mem _ hmem))

theorem DB.data_New (composite : Bool) (a : Address) : (DB.New composite).data a = none := by
  cases composite <;> rfl

/-- C16: for a database in either retrieval layout, after any operations none of which
is a `Put` of the address of `c` under a data-writing mode (ModeSyncing, ModeUpload,
ModeRequest), `Put(c)` under ModeSynced returns a nil error and a following `Get` of
the address under ModeSynced returns no chunk and ErrChunkNotFound. -/
theorem synced_put_of_chunk_never_stored (composite : Bool) (ops : List Op) (c : Chunk)
    (T1 T2 : Int)
    (hnever : ∀ m now ch, Op.Put m now ch ∈ ops → ch.Address = c.Address →
      m = .ModeSynced ∨ m = .modeAccess ∨ m = .modeRemoval) :
    (((DB.New composite).run ops).Put .ModeSynced T1 c).2 = .nil ∧
    ((((DB.New composite).run ops).Put .ModeSynced T1 c).1.Get .ModeSynced T2 c.Address).2
      = (none, ErrChunkNotFound) := by
  have h := DB.not_stored_after_run c.Address ops _ (DB.data_New composite c.Address) hnever
  have hp : ((DB.New composite).run ops).Put .ModeSynced T1 c = ((DB.New composite).run ops, .nil) := by
    simp only [DB.Put, h]
  rw [hp]
  exact ⟨rfl, by rw [DB.Get_not_stored _ _ _ _ h]⟩

theorem DB.layout_putRetrieval (db : DB) (ch : Chunk) (now : Int) (w : Bool) :
    (db.putRetrieval ch now w).useRetrievalCompositeIndex = db.useRetrievalCompositeIndex := by
  cases hc : db.useRetrievalCompositeIndex <;> cases w <;> simp [DB.putRetrieval, hc]

theorem DB.layout_setAccess (db : DB) (a : Address) (now : Int) :
    (db.setAccess a now).useRetrievalCompositeIndex = db.useRetrievalCompositeIndex := by
  cases hc : db.useRetrievalCompositeIndex <;> cases hd : db.data a <;> simp [DB.setAccess, hc, hd]

theorem DB.layout_apply (db : DB) (op : Op) :
    (db.apply op).useRetrievalCompositeIndex = db.useRetrievalCompositeIndex := by
  cases op with
  | Put m now ch =>
    cases m <;> cases hd : db.data ch.Address <;> simp only [DB.apply, DB.Put, hd] <;>
      first
      | rfl
      | exact DB.layout_putRetrieval db ch now false
      | exact DB.layout_putRetrieval db ch now true
      | exact DB.layout_setAccess db ch.Address now
  | Get m now a =>
    cases hd : db.data a with
    | none => simp only [DB.apply, DB.Get, hd]
    | some item =>
      simp only [DB.apply, DB.Get, hd]
      split
      · exact DB.layout_setAccess db a now
      · rfl

theorem DB.layout_run (ops : List Op) :
    ∀ db : DB, (db.run ops).useRetrievalCompositeIndex = db.useRetrievalCompositeIndex := by
  induction ops with
  | nil => intro db; rfl
  | cons op rest ih => intro db; exact (ih (db.apply op)).trans (DB.layout_apply db op)

theorem DB.Valid_putRetrieval (db : DB) (ch : Chunk) (now : Int) (w : Bool) (hv : db.Valid) :
    (db.putRetrieval ch now w).Valid := by
  have hdata : ∀ d ∈ db.retrievalDataIndex, ∃ d1 ∈ Index.Put .address db.retrievalDataIndex
      ⟨ch.Address, ch.Data, now, 0⟩, d1.Address = d.Address := by
    intro d hd
    by_cases h : d.Address = ch.Address
    · exact ⟨_, List.mem_cons_self _ _, h.symm⟩
    · refine ⟨d, List.mem_cons_of_mem _ ?_, rfl⟩
      simp [Index.Delete, List.mem_filter, hd, Keying.key, h]
  cases hc : db.useRetrievalCompositeIndex
  · cases w
    · intro item hi
      simp only [DB.putRetrieval, hc, Bool.false_eq_true, if_false] at hi ⊢
      obtain ⟨d, hd, hda⟩ := hv item hi
      obtain ⟨d1, hd1, hd1a⟩ := hdata d hd
      exact ⟨d1, hd1, hd1a.trans hda⟩
    · intro item hi
      simp only [DB.putRetrieval, hc, Bool.false_eq_true, if_false, if_true] at hi ⊢
      rcases Index.mem_Put _ _ _ _ hi with h | h
      · exact ⟨_, List.mem_cons_self _ _, by rw [h]⟩
      · obtain ⟨d, hd, hda⟩ := hv item h
        obtain ⟨d1, hd1, hd1a⟩ := hdata d hd
        exact ⟨d1, hd1, hd1a.trans hda⟩
  · intro item hi
    simp only [DB.putRetrieval, hc, if_true] at hi ⊢
    exact hv item hi

theorem DB.Valid_setAccess (db : DB) (a : Address) (now : Int) (item : IndexItem)
    (hd : db.data a = some item) (hv : db.Valid) : (db.setAccess a now).Valid := by
  cases hc : db.useRetrievalCompositeIndex
  · intro x hx
    simp only [DB.setAccess, hc, Bool.false_eq_true, if_false] at hx ⊢
    rcases Index.mem_Put _ _ _ _ hx with h | h
    · have := DB.data_eq_some db a item hd
      simp only [DB.retrievalIndex, hc, Bool.false_eq_true, if_false] at this
      exact ⟨item, this.1, by rw [h]; exact this.2⟩
    · exact hv x h
  · intro x hx
    simp only [DB.setAccess, hc, if_true, hd] at hx ⊢
    exact hv x hx

theorem DB.Valid_removal (db : DB) (i1 i2 i3 i4 : Index) (n : Nat) (a : Address) (hv : db.Valid) :
    DB.Valid
      { db with retrievalCompositeIndex := i1,
                retrievalDataIndex := Index.DeleteAddress db.retrievalDataIndex a,
                retrievalAccessIndex := Index.DeleteAddress db.retrievalAccessIndex a,
                pullIndex := i2, pushIndex := i3, gcIndex := i4, sizeCounter := n } := by
  intro x hx
  have hx1 := (Index.mem_DeleteAddress _ _ _).mp hx
  obtain ⟨d, hd, hda⟩ := hv x hx1.1
  exact ⟨d, (Index.mem_DeleteAddress _ _ _).mpr ⟨hd, by rw [hda]; exact hx1.2⟩, hda⟩

theorem DB.Valid_apply (db : DB) (op : Op) (hv : db.Valid) : (db.apply op).Valid := by
  cases op with
  | Put m now ch =>
    cases m <;> cases hd : db.data ch.Address <;> simp only [DB.apply, DB.Put, hd]
    · exact DB.Valid_putRetrieval db ch now false hv
    · exact hv
    · exact DB.Valid_putRetrieval db ch now false hv
    · exact hv
    · exact DB.Valid_putRetrieval db ch now true hv
    · exact DB.Valid_setAccess db ch.Address now _ hd hv
    · exact hv
    · exact hv
    · exact hv
    · exact hv
    · exact hv
    · exact DB.Valid_removal db _ _ _ _ _ _ hv
  | Get m now a =>
    cases hd : db.data a with
    | none => simp only [DB.apply, DB.Get, hd]; exact hv
    | some item =>
      simp only [DB.apply, DB.Get, hd]
      split
      · exact DB.Valid_setAccess db a now _ hd hv
      · exact hv

theorem DB.Valid_run (ops : List Op) : ∀ db : DB, db.Valid → (db.run ops).Valid := by
  induction ops with
  | nil => intro db h; exact h
  | cons op rest ih => intro db h; exact ih (db.apply op) (DB.Valid_apply db op h)

theorem DB.Valid_New (composite : Bool) : (DB.New composite).Valid := by
  intro x hx
  simp [DB.New] at hx

/-- C15: in a database reached by any operations, in either retrieval layout, that does
not store the chunk `c`, `Put(c)` under ModeSyncing with the clock at `T` returns a nil
error; afterwards the retrieval record of the address holds the address, the data and
the store timestamp `T` (with the access timestamp `T` in the composite record and
none in the split data record), the pull index has the entry of `(T, c.Address())`,
the size counter is one more than before, and in the split layout the lookup of the
address in the retrieval access index fails with the not-found error. -/
theorem syncing_put_of_new_chunk (composite : Bool) (ops : List Op) (c : Chunk) (T : Int)
    (hnew : ((DB.New composite).run ops).data c.Address = none) :
    (((DB.New composite).run ops).Put .ModeSyncing T c).2 = .nil ∧
    (((DB.New composite).run ops).Put .ModeSyncing T c).1.data c.Address
      = some ⟨c.Address, c.Data, T, if composite then T else 0⟩ ∧
    Index.Get .storeTimestamp (((DB.New composite).run ops).Put .ModeSyncing T c).1.pullIndex
      ⟨c.Address, [], T, 0⟩ = .ok ⟨c.Address, [], T, 0⟩ ∧
    (((DB.New composite).run ops).Put .ModeSyncing T c).1.sizeCounter
      = ((DB.New composite).run ops).sizeCounter + 1 ∧
    (composite = true ∨
      Index.Get .address (((DB.New composite).run ops).Put .ModeSyncing T c).1.retrievalAccessIndex
        (addressToItem c.Address) = .error ErrNotFound) := by
  have hl : ((DB.New composite).run ops).useRetrievalCompositeIndex = composite :=
    DB.layout_run ops (DB.New composite)
  have hv := DB.Valid_run ops _ (DB.Valid_New composite)
  generalize (DB.New composite).run ops = db at hnew hl hv
  simp only [DB.Put, hnew]
  refine ⟨trivial, ?_, Index.Get_Put_self _ _ _ _ rfl, trivial, ?_⟩
  · rw [← hl]
    exact DB.data_eq_of_head _ _ _ _ (DB.retrievalIndex_putRetrieval db c T false) rfl
  · cases composite
    · right
      have hacc : (db.putRetrieval c T false).retrievalAccessIndex = db.retrievalAccessIndex := by
        simp [DB.putRetrieval, hl]
      show Index.Get .address (db.putRetrieval c T false).retrievalAccessIndex _ = _
      rw [hacc]
      have hnone := (DB.data_eq_none_iff db c.Address).mp hnew
      simp only [DB.retrievalIndex, hl, Bool.false_eq_true, if_false] at hnone
      have : List.find? (fun item => decide (Keying.key .address item
          = Keying.key .address (addressToItem c.Address))) db.retrievalAccessIndex = none := by
        rw [List.find?_eq_none]
        intro x hx
        obtain ⟨d, hd, hda⟩ := hv x hx
        simpa [Keying.key, addressToItem, ← hda] using hnone d hd
      simp [Index.Get, this]
    · exact Or.inl rfl

theorem DB.Get_access_after_upload (composite : Bool) (c : Chunk) (T1 t : Int) :
    ((DB.New composite).Put .ModeUpload T1 c).1.Get .modeAccess t c.Address
      = (DB.accessed composite c T1 t, some { addr := c.Address, sdata := c.Data }, .nil) := by
  cases composite <;>
    simp [DB.New, DB.Put, DB.Get, DB.data, DB.retrievalIndex, Index.Get, Index.Put, Index.Delete,
      DB.putRetrieval, DB.setAccess, DB.access, DB.rekeyGC, Keying.key, addressToItem, DB.accessed]

theorem DB.Get_access_again (composite : Bool) (c : Chunk) (T1 t t1 : Int) :
    (DB.accessed composite c T1 t).Get .modeAccess t1 c.Address
      = (DB.accessed composite c T1 t1, some { addr := c.Address, sdata := c.Data }, .nil) := by
  cases composite <;>
    simp [DB.Get, DB.data, DB.retrievalIndex, Index.Get, Index.Put, Index.Delete,
      DB.setAccess, DB.access, DB.rekeyGC, Keying.key, addressToItem, DB.accessed]

theorem DB.run_accesses_again (composite : Bool) (c : Chunk) (T1 : Int) (ts : List Int) :
    ∀ t t1 : Int, (DB.accessed composite c T1 t).run
        ((ts ++ [t1]).map fun x => Op.Get .modeAccess x c.Address)
      = DB.accessed composite c T1 t1 := by
  induction ts with
  | nil =>
    intro t t1
    simp [DB.run, DB.apply, DB.Get_access_again]
  | cons t0 rest ih =>
    intro t t1
    have := ih t0 t1
    simpa [DB.run, DB.apply, DB.Get_access_again] using this

theorem DB.run_accesses_after_upload (composite : Bool) (c : Chunk) (T1 : Int) (ts : List Int)
    (t1 : Int) :
    ((DB.New composite).Put .ModeUpload T1 c).1.run
        ((ts ++ [t1]).map fun x => Op.Get .modeAccess x c.Address)
      = DB.accessed composite c T1 t1 := by
  cases ts with
  | nil => simp [DB.run, DB.apply, DB.Get_access_after_upload]
  | cons t0 rest =>
    have := DB.run_accesses_again composite c T1 rest t0 t1
    simpa [DB.run, DB.apply, DB.Get_access_after_upload] using this

/-- C14: on a new database, in either retrieval layout, after `Put(c)` under ModeUpload
at `T1` and `Get`s of the address under modeAccess at `T2` and then `T3`, the gc index
is the one entry of `c.Address()` with store timestamp `T1` and access timestamp `T3`,
so a scan of the whole index counts 1; the same holds after any number of further
accesses in between, the last one being at `T3`. The order of the clock values plays
no part. -/
theorem gc_index_has_one_entry_after_accesses (composite : Bool) (c : Chunk) (T1 T2 T3 : Int)
    (ts : List Int) :
    ((((DB.New composite).Put .ModeUpload T1 c).1.Get .modeAccess T2 c.Address).1.Get
        .modeAccess T3 c.Address).1.gcIndex = [⟨c.Address, [], T1, T3⟩] ∧
    ((((DB.New composite).Put .ModeUpload T1 c).1.Get .modeAccess T2 c.Address).1.Get
        .modeAccess T3 c.Address).1.gcIndex.length = 1 ∧
    (((DB.New composite).Put .ModeUpload T1 c).1.run
        ((ts ++ [T3]).map fun t => Op.Get .modeAccess t c.Address)).gcIndex
      = [⟨c.Address, [], T1, T3⟩] ∧
    (((DB.New composite).Put .ModeUpload T1 c).1.run
        ((ts ++ [T3]).map fun t => Op.Get .modeAccess t c.Address)).gcIndex.length = 1 := by
  rw [DB.Get_access_after_upload, DB.Get_access_again, DB.run_accesses_after_upload]
  exact ⟨rfl, rfl, rfl, rfl⟩

/-- Witness of C12: the chunk of `ab01` is put under ModeRequest into a composite
database that already holds it. -/
theorem put_then_get_returns_data_witness :
    (((DB.New true).run [.Put .ModeUpload 1 chunkA]).Put .ModeRequest 2 chunkA).2 = .nil ∧
    ((((DB.New true).run [.Put .ModeUpload 1 chunkA]).Put .ModeRequest 2 chunkA).1.Get
        .ModeRequest 3 chunkA.Address).2
      = (some { addr := chunkA.Address, sdata := chunkA.Data }, .nil) :=
  put_then_get_returns_data ((DB.New true).run [.Put .ModeUpload 1 chunkA]) .ModeRequest 2 3
    chunkA (Or.inr (Or.inr rfl)) (fun item h => by cases h; rfl)

/-- Witness of C13: the chunk of `cd` and a split database that holds the chunk of
`ab01`. -/
theorem upload_then_removal_of_new_chunk_witness :
    ((DB.New false).run [.Put .ModeSyncing 1 chunkA]).data chunkB.Address = none ∧
    ((((DB.New false).run [.Put .ModeSyncing 1 chunkA]).Put .ModeUpload 2 chunkB).1.Put
        .modeRemoval 3 chunkB).1.sizeCounter = 1 :=
  ⟨rfl, (upload_then_removal_of_new_chunk ((DB.New false).run [.Put .ModeSyncing 1 chunkA])
    chunkB 2 3 4 .ModeUpload rfl).2.2.2⟩

/-- Witness of C15: the chunk of `cd` is put under ModeSyncing into a split database
that holds the chunk of `ab01` with an access record. -/
theorem syncing_put_of_new_chunk_witness :
    ((DB.New false).run [.Put .ModeRequest 1 chunkA]).data chunkB.Address = none ∧
    (((DB.New false).run [.Put .ModeRequest 1 chunkA]).Put .ModeSyncing 5 chunkB).1.sizeCounter
      = 2 ∧
    Index.Get .address
      (((DB.New false).run [.Put .ModeRequest 1 chunkA]).Put .ModeSyncing 5 chunkB).1.retrievalAccessIndex
      (addressToItem chunkB.Address) = .error ErrNotFound :=
  ⟨rfl, (syncing_put_of_new_chunk false [.Put .ModeRequest 1 chunkA] chunkB 5 rfl).2.2.2.1,
    ((syncing_put_of_new_chunk false [.Put .ModeRequest 1 chunkA] chunkB 5 rfl).2.2.2.2).resolve_left
      (by decide)⟩

/-- Witness of C16: the chunk of `cd` after an upload of the chunk of `ab01`, a removal
of `cd` and a read of `ab01`. -/
theorem synced_put_of_chunk_never_stored_witness :
    ((((DB.New false).run
        [.Put .ModeUpload 1 chunkA, .Put .modeRemoval 2 chunkB, .Get .modeAccess 3 addrA]).Put
        .ModeSynced 4 chunkB).1.Get .ModeSynced 5 chunkB.Address).2 = (none, ErrChunkNotFound) :=
  (synced_put_of_chunk_never_stored false
    [.Put .ModeUpload 1 chunkA, .Put .modeRemoval 2 chunkB, .Get .modeAccess 3 addrA] chunkB 4 5
    (by
      intro m now ch hmem ha
      simp only [List.mem_cons, Op.Put.injEq, List.mem_singleton, reduceCtorEq, or_false,
        List.not_mem_nil] at hmem
      rcases hmem with ⟨_, _, h⟩ | ⟨h, _, _⟩
      · subst h; exact absurd ha (by decide)
      · exact Or.inr (Or.inr h))).2

end Localstore

end Storage
